import Mathlib

/-!
# Trie-based search engine: shallow embedding of `src/main.cpp`

C strings are modelled by their contents (`List Char`, the characters before the
terminating NUL).  Fixed-size character buffers and result arrays are modelled by
lists; a capacity is modelled exactly where the source tests it
(`MAX_SUGGESTIONS` in `advancedSearch`, `findAllWords` and `spellCheck`, `MAX_FILES`
and `MAX_RESULTS` in the final loop of `advancedSearch`, `MAX_WORD_LENGTH` in the
position copy of `proximitySearch`, `MAX_HISTORY` in `addQuery`).  The
embedding describes the runs in which every string fits the buffer it is copied
into (fewer than `MAX_WORD_LENGTH` characters), where `strncpy` is a plain copy.

The `int` field `frequency` and the `int` total of `getWordDetails` are integers
with the 32-bit two's complement wrap-around of the increment and of the addition
(`wrapInt`).

A value of type `TrieNode` models a `TrieNode *`: `nullptr`, or a node with its
26 child pointers, terminal flag, canonical word and postings array.
-/

namespace TrieSearch

/-! ## Constants -/

def ALPHABET_SIZE : Nat := 26
def MAX_FILES : Nat := 100
def MAX_WORD_LENGTH : Nat := 100
def MAX_SUGGESTIONS : Nat := 50
def MAX_RESULTS : Nat := 100

/-! ## Data model -/

/-- Posting of one document at a trie node (`struct FileInfo`); `positions` is the
content of the `int positions[MAX_WORD_LENGTH]` array. -/
structure FileInfo where
  fileId : Nat
  frequency : Int
  positions : List Int
deriving DecidableEq

/-- Pointer to a trie node (`TrieNode *`). -/
inductive TrieNode where
  | nullptr : TrieNode
  | node (children : Fin 26 → TrieNode) (isEndOfWord : Bool) (word : List Char)
      (fileInfo : List FileInfo) : TrieNode

namespace TrieNode

/-- Read `node->children[index]`. -/
def child : TrieNode → Fin 26 → TrieNode
  | nullptr, _ => nullptr
  | node children _ _ _, index => children index

/-- Read `node->isEndOfWord`. -/
def isEndOfWord : TrieNode → Bool
  | nullptr => false
  | node _ e _ _ => e

/-- Read `node->word`. -/
def word : TrieNode → List Char
  | nullptr => []
  | node _ _ w _ => w

/-- Read `node->fileInfo[0 .. fileInfoCount)`. -/
def fileInfo : TrieNode → List FileInfo
  | nullptr => []
  | node _ _ _ f => f

/-- Assignment `node->children[index] = c`. -/
def setChild : TrieNode → Fin 26 → TrieNode → TrieNode
  | nullptr, _, _ => nullptr
  | node children e w f, index, c =>
    node (fun i => if i = index then c else children i) e w f

/-- Test `node != nullptr`. -/
def isNull : TrieNode → Bool
  | nullptr => true
  | node _ _ _ _ => false

end TrieNode

/-- Constructor `TrieNode()`: no children, not terminal, empty word, no postings. -/
def newTrieNode : TrieNode := TrieNode.node (fun _ => TrieNode.nullptr) false [] []

/-- State of `class Trie`: the root pointer and the registered file names
(`fileList[0 .. fileListCount)`). -/
structure Trie where
  root : TrieNode
  fileList : List (List Char)

/-- Constructor `Trie()`. -/
def Trie.empty : Trie := { root := newTrieNode, fileList := [] }

/-! ## Normalizer -/

/-- De-doubling step of `stem`: `if (length >= 2 && word[length-1] == word[length-2])
word[length-1] = 0`. -/
def dedouble (word : List Char) : List Char :=
  let length := word.length
  if length ≥ 2 ∧ word.getD (length - 1) ' ' = word.getD (length - 2) ' ' then
    word.take (length - 1)
  else word

/-- The function `Trie::stem` (lines 237-284), on the contents of the buffer. -/
def stem (word : List Char) : List Char :=
  let length := word.length
  if length > 3 then
    if word.drop (length - 3) = "ing".toList then
      dedouble (word.take (length - 3))
    else if length > 2 ∧ word.drop (length - 2) = "ed".toList then
      dedouble (word.take (length - 2))
    else if length > 3 ∧ word.drop (length - 3) = "ies".toList then
      word.take (length - 3) ++ ['y']
    else if length > 2 ∧ word.drop (length - 2) = "es".toList then
      word.take (length - 2)
    else if length > 1 ∧ word.getD (length - 1) ' ' = 's' ∧
        word.getD (length - 2) ' ' ≠ 's' ∧ word.getD (length - 2) ' ' ≠ 'i' then
      word.take (length - 1)
    else word
  else word

/-- The function `Trie::isStopWord` (lines 286-297). -/
def isStopWord (word : List Char) : Bool :=
  ["the", "a", "is", "of", "and", "in", "to", "it", "that", "for"].any
    (fun stopWord => stopWord.toList = word)

/-! ## Index -/

/-- Array index `ch - 'a'` of a lowercase letter. -/
def childIndex (ch : Char) : Fin 26 := Fin.ofNat (ch.toNat - 'a'.toNat)

/-- The function `Trie::findFileIdInFileInfo` (lines 148-158); `none` is `-1`. -/
def findFileIdInFileInfo : List FileInfo → Nat → Option Nat
  | [], _ => none
  | fi :: rest, fileId =>
    if fi.fileId = fileId then some 0
    else (findFileIdInFileInfo rest fileId).map (· + 1)

/-- Value stored in a C `int` (32 bits, two's complement) for the arithmetic result `x`:
`x` itself from -2147483648 to 2147483647, wrapped around outside this range. -/
def wrapInt (x : Int) : Int := (x + 2147483648) % 4294967296 - 2147483648

/-- Increment `fileInfo[fileIndex].frequency++` of an `int`. -/
def bumpFrequency : List FileInfo → Nat → List FileInfo
  | [], _ => []
  | fi :: rest, 0 => { fi with frequency := wrapInt (fi.frequency + 1) } :: rest
  | fi :: rest, i + 1 => fi :: bumpFrequency rest i

/-- Lines 329-337 of `insert`: a new posting `{fileId, 1}` (positions zero-filled)
or a frequency increment. -/
def recordOccurrence (fileInfo : List FileInfo) (fileId : Nat) : List FileInfo :=
  match findFileIdInFileInfo fileInfo fileId with
  | none =>
    fileInfo ++ [{ fileId := fileId, frequency := 1,
                   positions := List.replicate MAX_WORD_LENGTH 0 }]
  | some fileIndex => bumpFrequency fileInfo fileIndex

/-- Lines 323-337 of `insert`, on the node the walk ended at. -/
def markEndOfWord (current : TrieNode) (word : List Char) (fileId : Nat) : TrieNode :=
  match current with
  | TrieNode.nullptr => TrieNode.nullptr
  | TrieNode.node children _ w f =>
    TrieNode.node children true (if w.length = 0 then word else w)
      (recordOccurrence f fileId)

/-- Pointer held by `children[index]` after
`if (!children[index]) children[index] = new TrieNode()`. -/
def orNew : TrieNode → TrieNode
  | TrieNode.nullptr => newTrieNode
  | n => n

/-- Loop of `insert` (lines 303-321) followed by the terminal update: `rest` is the
part of `word` still to be read, `current` the node reached so far; the result is
the updated subtree rooted at `current`. -/
def insertFrom (word : List Char) (fileId : Nat) : List Char → TrieNode → TrieNode
  | [], current => markEndOfWord current word fileId
  | c :: rest, current =>
    let ch := c.toLower
    if !ch.isAlpha then insertFrom word fileId rest current
    else
      let index := childIndex ch
      current.setChild index (insertFrom word fileId rest (orNew (current.child index)))

/-- The function `Trie::insert` (lines 299-338). -/
def Trie.insert (T : Trie) (word : List Char) (fileId : Nat) : Trie :=
  { T with root := insertFrom word fileId word T.root }

/-- Lookup walk of `search`, `getWordDetails`, `partialSearch` and `autocomplete`
(lines 350-362): a non-alphabetic character or a missing child ends the call
(`none`). -/
def walk : TrieNode → List Char → Option TrieNode
  | current, [] => some current
  | current, c :: rest =>
    let ch := c.toLower
    if !ch.isAlpha then none
    else
      match current.child (childIndex ch) with
      | TrieNode.nullptr => none
      | next => walk next rest

/-- The function `Trie::search` (lines 340-365). -/
def Trie.search (T : Trie) (word : List Char) : Bool :=
  match walk T.root (stem word) with
  | none => false
  | some current => !current.isNull && current.isEndOfWord

/-- The function `Trie::addFile` (lines 367-378): the new state and the id. -/
def Trie.addFile (T : Trie) (filename : List Char) : Trie × Nat :=
  match T.fileList.indexOf? filename with
  | some i => (T, i)
  | none => ({ T with fileList := T.fileList ++ [filename] }, T.fileList.length)

/-- The function `Trie::getFilename`: `fileList[fileId]`. -/
def Trie.getFilename (T : Trie) (fileId : Nat) : List Char :=
  T.fileList.getD fileId []

/-- Output of `%d`. -/
def decimal (n : Nat) : List Char := Nat.toDigits 10 n

/-- Output of `%d` for a signed value. -/
def decimalInt (n : Int) : List Char :=
  if n < 0 then '-' :: decimal n.natAbs else decimal n.natAbs

/-- Line `"Word: %s [stemmed: %s]"`. -/
def wordLine (word stemmed : List Char) : List Char :=
  "Word: ".toList ++ word ++ " [stemmed: ".toList ++ stemmed ++ "]".toList

/-- Line `"Total occurrences: %d"`. -/
def totalLine (totalCount : Int) : List Char :=
  "Total occurrences: ".toList ++ decimalInt totalCount

/-- Line `"  - %s: %d times"`. -/
def occurrenceLine (filename : List Char) (frequency : Int) : List Char :=
  "  - ".toList ++ filename ++ ": ".toList ++ decimalInt frequency ++ " times".toList

/-- Loop `totalCount += fileInfo[i].frequency` of `getWordDetails` (lines 419-423) on
the `int totalCount`, from 0. -/
def sumFrequencies (fileInfo : List FileInfo) : Int :=
  fileInfo.foldl (fun totalCount fi => wrapInt (totalCount + fi.frequency)) 0

/-- The function `Trie::getWordDetails` (lines 391-435): the result lines. -/
def Trie.getWordDetails (T : Trie) (word : List Char) : List (List Char) :=
  match walk T.root (stem word) with
  | none => []
  | some current =>
    if !current.isNull && current.isEndOfWord then
      [wordLine word current.word,
       totalLine (sumFrequencies current.fileInfo),
       "Occurrences by file:".toList] ++
      current.fileInfo.map (fun fi => occurrenceLine (T.getFilename fi.fileId) fi.frequency)
    else []

/-! ## Conjunctive search -/

/-- Tokens produced by the `strtok(queryCopy, " ")` loop (lines 501-506): the maximal
runs of characters other than the space; `tok` is the token being read. -/
def strtokFrom : List Char → List Char → List (List Char)
  | [], tok => if tok = [] then [] else [tok]
  | c :: rest, tok =>
    if c = ' ' then
      if tok = [] then strtokFrom rest [] else tok :: strtokFrom rest []
    else strtokFrom rest (tok ++ [c])

/-- The array `words[0 .. wordCount)` of `advancedSearch`: at most `MAX_SUGGESTIONS`
tokens are kept. -/
def queryWords (query : List Char) : List (List Char) :=
  (strtokFrom query []).take MAX_SUGGESTIONS

/-- Walk of `advancedSearch` (lines 520-535): a non-alphabetic character is skipped
(`continue`), a missing child ends the call (`none`). -/
def walkSkip : TrieNode → List Char → Option TrieNode
  | current, [] => some current
  | current, c :: rest =>
    let ch := c.toLower
    if !ch.isAlpha then walkSkip current rest
    else
      match current.child (childIndex ch) with
      | TrieNode.nullptr => none
      | next => walkSkip next rest

/-- Loop over the postings of the `w`-th word (lines 544-551) on the array
`fileMatches` (`int fileMatches[MAX_FILES]`, a list of length `MAX_FILES`); the
document ids of an index with at most `MAX_FILES` registered files are in range. -/
def markFiles (w : Nat) : List FileInfo → List Nat → List Nat
  | [], fileMatches => fileMatches
  | fi :: rest, fileMatches =>
    if w = 0 ∨ fileMatches.getD fi.fileId 0 = w then
      markFiles w rest (fileMatches.set fi.fileId (fileMatches.getD fi.fileId 0 + 1))
    else markFiles w rest fileMatches

/-- Loop over the words of the query (lines 515-552), from word number `w` on; `none`
is the early `return false`. -/
def matchWords (root : TrieNode) : List (List Char) → Nat → List Nat → Option (List Nat)
  | [], _, fileMatches => some fileMatches
  | word :: rest, w, fileMatches =>
    match walkSkip root (stem word) with
    | none => none
    | some current =>
      if !current.isEndOfWord then none
      else matchWords root rest (w + 1) (markFiles w current.fileInfo fileMatches)

/-- The function `Trie::advancedSearch` (lines 490-567): the returned boolean and the
result lines. -/
def Trie.advancedSearch (T : Trie) (query : List Char) : Bool × List (List Char) :=
  let words := queryWords query
  let wordCount := words.length
  if wordCount = 0 then (false, [])
  else
    match matchWords T.root words 0 (List.replicate MAX_FILES 0) with
    | none => (false, [])
    | some fileMatches =>
      let results :=
        (((List.range MAX_FILES).filter (fun i => fileMatches.getD i 0 = wordCount)).map
          T.getFilename).take MAX_RESULTS
      (decide (results.length > 0), results)

/-! ## Proximity search -/

/-- Walk of `proximitySearch` (lines 651-660): an index outside `0 .. 25` or a missing
child leaves the loop (`break`) with the node reached so far. -/
def walkBreak : TrieNode → List Char → TrieNode
  | current, [] => current
  | current, c :: rest =>
    let index : Int := (c.toLower.toNat : Int) - ('a'.toNat : Int)
    if index < 0 ∨ index ≥ (ALPHABET_SIZE : Int) then current
    else
      match current.child (Fin.ofNat index.toNat) with
      | TrieNode.nullptr => current
      | next => walkBreak next rest

/-- Copy of the non-zero leading positions of a posting (lines 669-672). -/
def copyPositions (fi : FileInfo) : List Int :=
  (fi.positions.take MAX_WORD_LENGTH).takeWhile (fun p => p ≠ 0)

/-- Positions of the word ending at `current` in document `fileId` (lines 662-676). -/
def positionsIn (current : TrieNode) (fileId : Nat) : List Int :=
  if !current.isNull && current.isEndOfWord then
    match current.fileInfo.find? (fun fi => fi.fileId = fileId) with
    | some fi => copyPositions fi
    | none => []
  else []

/-- Pair scan of `proximitySearch` (lines 707-722): the distance of the first pair, in
enumeration order, that is within `maxDistance`. -/
def firstProximity (positions1 positions2 : List Int) (maxDistance : Int) : Option Int :=
  positions1.findSome? (fun p1 =>
    (positions2.find? (fun p2 => ((p1 - p2).natAbs : Int) ≤ maxDistance)).map
      (fun p2 => ((p1 - p2).natAbs : Int)))

/-- Line `"%s (distance: %d)"`. -/
def proximityLine (filename : List Char) (distance : Int) : List Char :=
  filename ++ " (distance: ".toList ++ decimalInt distance ++ ")".toList

/-- The function `Trie::proximitySearch` (lines 629-726): the returned boolean and the
result lines. -/
def Trie.proximitySearch (T : Trie) (word1 word2 : List Char) (maxDistance : Int) :
    Bool × List (List Char) :=
  let stemmed1 := stem word1
  let stemmed2 := stem word2
  let results := (List.range T.fileList.length).filterMap (fun fileId =>
    let positions1 := positionsIn (walkBreak T.root stemmed1) fileId
    let positions2 := positionsIn (walkBreak T.root stemmed2) fileId
    (firstProximity positions1 positions2 maxDistance).map
      (fun distance => proximityLine (T.getFilename fileId) distance))
  (decide (results.length > 0), results)

/-! ## Ingestion -/

/-- Word cleanup of `processFile` (lines 994-1002): the alphabetic characters,
lowercased. -/
def cleanWord (word : List Char) : List Char :=
  (word.filter Char.isAlpha).map Char.toLower

/-- Body of the token loop of `processFile` (lines 993-1016).  The local counter
`position` is incremented by the source but passed to no call, so it is not part of
the state. -/
def processToken (fileId : Nat) (T : Trie) (word : List Char) : Trie :=
  let cleanedWord := cleanWord word
  if isStopWord cleanedWord then T
  else
    let stemmed := stem cleanedWord
    if stemmed.length > 0 then T.insert stemmed fileId else T

/-- The function `processFile` (lines 977-1022) on a file that opens, given the
whitespace-delimited tokens `fscanf` reads from it. -/
def processFile (T : Trie) (filename : List Char) (tokens : List (List Char)) : Trie :=
  let added := T.addFile filename
  tokens.foldl (processToken added.2) added.1

/-! ## Enumeration and prefix search -/

/-- The function `Trie::collectWords` (lines 120-134): the content of the output array
after the call, `suggestions` being its content before.  The source tests no
capacity. -/
def collectWords : TrieNode → List (List Char) → List (List Char)
  | TrieNode.nullptr, suggestions => suggestions
  | TrieNode.node children isEndOfWord word _, suggestions =>
    (List.finRange 26).foldl
      (fun acc i =>
        if (children i).isNull then acc else collectWords (children i) acc)
      (if isEndOfWord then suggestions ++ [word] else suggestions)

/-- The function `Trie::findAllWords` (lines 204-223): the content of `allWords` after
the call.  The second component of the loop state records that the `break` of line 220
was taken. -/
def findAllWords : TrieNode → List (List Char) → List (List Char)
  | TrieNode.nullptr, allWords => allWords
  | TrieNode.node children isEndOfWord word _, allWords =>
    ((List.finRange 26).foldl
      (fun (st : List (List Char) × Bool) i =>
        if st.2 then st
        else if (children i).isNull then st
        else
          let found := findAllWords (children i) st.1
          (found, decide (found.length ≥ MAX_SUGGESTIONS)))
      (if isEndOfWord && decide (allWords.length < MAX_SUGGESTIONS) then allWords ++ [word]
        else allWords, false)).1

/-- The function `Trie::autocomplete` (lines 465-487): the returned boolean and the
suggestions. -/
def Trie.autocomplete (T : Trie) (pre : List Char) : Bool × List (List Char) :=
  match walk T.root pre with
  | none => (false, [])
  | some current =>
    let suggestions := collectWords current []
    (decide (suggestions.length > 0), suggestions)

/-- The function `Trie::partialSearch` (lines 438-462): the returned boolean and the
results; `wordCopy` is the copy of the query. -/
def Trie.partialSearch (T : Trie) (word : List Char) : Bool × List (List Char) :=
  let wordCopy := word
  match walk T.root wordCopy with
  | none => (false, [])
  | some current =>
    let results := collectWords current []
    (decide (results.length > 0), results)

/-! ## Spell checking -/

def MAX_EDIT_DISTANCE : Nat := 2

/-- The table `int dp[2][MAX_WORD_LENGTH + 1]` of `editDistance`. -/
structure EditTable where
  row0 : List Nat
  row1 : List Nat

/-- Read `dp[r][j]`. -/
def EditTable.get (dp : EditTable) (r j : Nat) : Nat :=
  if r = 0 then dp.row0.getD j 0 else dp.row1.getD j 0

/-- Assignment `dp[r][j] = v`. -/
def EditTable.set (dp : EditTable) (r j v : Nat) : EditTable :=
  if r = 0 then { dp with row0 := dp.row0.set j v } else { dp with row1 := dp.row1.set j v }

/-- Body of the inner loop of `editDistance` (lines 181-197) for row `i`, column `j`. -/
def editCell (s1 s2 : List Char) (i : Nat) (dp : EditTable) (j : Nat) : EditTable :=
  if j = 0 then dp.set (i % 2) j i
  else if s1.getD (i - 1) ' ' = s2.getD (j - 1) ' ' then
    dp.set (i % 2) j (dp.get ((i - 1) % 2) (j - 1))
  else
    dp.set (i % 2) j
      (1 + min (dp.get ((i - 1) % 2) j)
        (min (dp.get (i % 2) (j - 1)) (dp.get ((i - 1) % 2) (j - 1))))

/-- The function `Trie::editDistance` (lines 161-202).  The source leaves the table
uninitialised; every entry is written before it is read, and an entry reads as 0
before its first write. -/
def editDistance (s1 s2 : List Char) : Nat :=
  let len1 := s1.length
  let len2 := s2.length
  let dp0 : EditTable :=
    ⟨List.replicate (MAX_WORD_LENGTH + 1) 0, List.replicate (MAX_WORD_LENGTH + 1) 0⟩
  let dp1 := (List.range (len2 + 1)).foldl (fun dp j => dp.set 0 j j) dp0
  let dp2 := (List.range' 1 len1).foldl
    (fun dp i => (List.range (len2 + 1)).foldl (editCell s1 s2 i) dp) dp1
  dp2.get (len1 % 2) len2

/-- The local `struct WordDistance` of `spellCheck`. -/
structure WordDistance where
  word : List Char
  distance : Nat
deriving DecidableEq

/-- Selection loop of `spellCheck` (lines 590-602): `distances` is the array filled so
far; the loop is left once `MAX_SUGGESTIONS` entries are kept. -/
def selectClose (word : List Char) : List (List Char) → List WordDistance → List WordDistance
  | [], distances => distances
  | candidate :: rest, distances =>
    if editDistance word candidate ≤ MAX_EDIT_DISTANCE then
      if (distances ++ [WordDistance.mk candidate (editDistance word candidate)]).length ≥
          MAX_SUGGESTIONS then
        distances ++ [WordDistance.mk candidate (editDistance word candidate)]
      else
        selectClose word rest
          (distances ++ [WordDistance.mk candidate (editDistance word candidate)])
    else selectClose word rest distances

/-- Inner loop of the bubble sort of `spellCheck` (lines 607-615): `k` compare-and-swap
steps at the positions `j = 0, 1, ..., k - 1`; the list argument is the array from
position `j` on. -/
def bubblePass : Nat → List WordDistance → List WordDistance
  | 0, l => l
  | _ + 1, [] => []
  | _ + 1, [a] => [a]
  | k + 1, a :: b :: rest =>
    if a.distance > b.distance then b :: bubblePass k (a :: rest)
    else a :: bubblePass k (b :: rest)

/-- The bubble sort of `spellCheck` (lines 605-616): pass `i`, for `i` from 0 to
`distanceCount - 2`, makes `distanceCount - i - 1` steps. -/
def bubbleSort (distances : List WordDistance) : List WordDistance :=
  (List.range (distances.length - 1)).foldl
    (fun l i => bubblePass (distances.length - i - 1) l) distances

/-- The function `Trie::spellCheck` (lines 570-626): the returned boolean and the
suggestions. -/
def Trie.spellCheck (T : Trie) (word : List Char) : Bool × List (List Char) :=
  let allWords := findAllWords T.root []
  let distances := selectClose word allWords []
  let suggestions := (bubbleSort distances).map (fun wd => wd.word)
  (decide (suggestions.length > 0), suggestions)

/-! ## Search history -/

def MAX_HISTORY : Nat := 20

/-- State of `struct SearchHistory`: the stored rows `queries[0 .. count)`, oldest
first; `count` is the length of the list. -/
structure SearchHistory where
  queries : List (List Char)

/-- Constructor `SearchHistory()`: `count = 0`. -/
def SearchHistory.empty : SearchHistory := { queries := [] }

/-- The field `count`. -/
def SearchHistory.count (h : SearchHistory) : Nat := h.queries.length

/-- Shift loop of `addQuery` (lines 44-48): `strcpy(queries[i], queries[i + 1])` for
`i` from 0 to `MAX_HISTORY - 2`, then `count = MAX_HISTORY - 1`. -/
def shiftQueries (queries : List (List Char)) : List (List Char) :=
  ((List.range (MAX_HISTORY - 1)).foldl (fun qs i => qs.set i (qs.getD (i + 1) []))
    queries).take (MAX_HISTORY - 1)

/-- The function `SearchHistory::addQuery` (lines 34-54). -/
def SearchHistory.addQuery (h : SearchHistory) (query : List Char) : SearchHistory :=
  if h.count > 0 ∧ h.queries.getD (h.count - 1) [] = query then h
  else
    let queries := if h.count ≥ MAX_HISTORY then shiftQueries h.queries else h.queries
    { queries := queries ++ [query] }

/-! ## Definitions used in the statements and proofs -/

/-- Key of a raw term: its alphabetic characters, lowercased, in order. -/
def termKey (raw : List Char) : List Char := (raw.filter Char.isAlpha).map Char.toLower

/-- Child indices followed for a string, non-alphabetic characters skipped. -/
def letterPath (s : List Char) : List (Fin 26) :=
  (s.filter (fun c => c.toLower.isAlpha)).map (fun c => childIndex c.toLower)

/-- Node reached from `current` along a list of child indices. -/
def descend : TrieNode → List (Fin 26) → TrieNode
  | current, [] => current
  | current, i :: rest => descend (current.child i) rest

/-- Insertion along a list of child indices. -/
def insertAt (word : List Char) (fileId : Nat) : List (Fin 26) → TrieNode → TrieNode
  | [], current => markEndOfWord current word fileId
  | i :: rest, current =>
    current.setChild i (insertAt word fileId rest (orNew (current.child i)))

/-- Terminal flag, canonical word and postings of a node. -/
structure NodeView where
  isEnd : Bool
  word : List Char
  fileInfo : List FileInfo

/-- View of a node; a null pointer reads as a fresh node. -/
def TrieNode.view (n : TrieNode) : NodeView := ⟨n.isEndOfWord, n.word, n.fileInfo⟩

/-- Effect of the terminal update of `insert` on a node view. -/
def markView (v : NodeView) (word : List Char) (fileId : Nat) : NodeView :=
  ⟨true, if v.word.length = 0 then word else v.word, recordOccurrence v.fileInfo fileId⟩

/-- Index built from the empty trie by a sequence of `insert(raw, fileId)` calls. -/
def buildIndex (ops : List (List Char × Nat)) : Trie :=
  ops.foldl (fun T op => T.insert op.1 op.2) Trie.empty

/-- De-doubling as the specification words it: when the last two characters are
identical, one of them is dropped. -/
def dedoubleSpec (w : List Char) : List Char :=
  match w.reverse with
  | a :: b :: _ => if a = b then w.dropLast else w
  | _ => w

/-- Stemmer as the specification words it (section 4.1): five rules in precedence
order, each with its own length threshold, the first applicable rule winning. -/
def stemSpec (w : List Char) : List Char :=
  if w.length > 3 ∧ "ing".toList <:+ w then dedoubleSpec (w.take (w.length - 3))
  else if w.length > 2 ∧ "ed".toList <:+ w then dedoubleSpec (w.take (w.length - 2))
  else if w.length > 3 ∧ "ies".toList <:+ w then w.take (w.length - 3) ++ "y".toList
  else if w.length > 2 ∧ "es".toList <:+ w then w.take (w.length - 2)
  else if w.length > 1 ∧ w.getLast? = some 's' ∧ w.dropLast.getLast? ≠ some 's' ∧
      w.dropLast.getLast? ≠ some 'i' then w.dropLast
  else w

/-- Lookup of the specification (section 4.2) on a stored key: the walk of exact
search without the stemming step. -/
def Trie.isIndexed (T : Trie) (term : List Char) : Bool :=
  match walk T.root term with
  | none => false
  | some current => !current.isNull && current.isEndOfWord

/-- Postings read by a caller after a walk: those of the node reached when it is
terminal. -/
def terminalPostings : Option TrieNode → Option (List FileInfo)
  | none => none
  | some n => if n.isEndOfWord then some n.fileInfo else none

/-- Index used in the examples: file "a.txt" holding "cat" and "dog", file "b.txt"
holding "cat". -/
def sampleIndex : Trie :=
  processFile (processFile Trie.empty "a.txt".toList ["cat".toList, "dog".toList])
    "b.txt".toList ["cat".toList]

/-- Index states reachable from the empty trie by `addFile` calls and by `insert` calls
whose document id is registered at the time of the call. -/
inductive Reachable : Trie → Prop
  | empty : Reachable Trie.empty
  | addFile (T : Trie) (filename : List Char) : Reachable T → Reachable (T.addFile filename).1
  | insert (T : Trie) (word : List Char) (fileId : Nat) :
      Reachable T → fileId < T.fileList.length → Reachable (T.insert word fileId)

/-- Postings list with pairwise distinct document ids, all below `n`. -/
def PostingsOK (n : Nat) (f : List FileInfo) : Prop :=
  (f.map (fun fi => fi.fileId)).Nodup ∧ ∀ fi ∈ f, fi.fileId < n

/-- Invariant of reachable index states. -/
def IndexInv (T : Trie) : Prop :=
  T.root.isNull = false ∧ T.fileList.Nodup ∧
  ∀ q, PostingsOK T.fileList.length (descend T.root q).view.fileInfo

/-- Phrase made of the given terms separated by single spaces. -/
def spaceSeparated : List (List Char) → List Char
  | [] => []
  | t :: [] => t
  | t :: u :: ts => t ++ ' ' :: spaceSeparated (u :: ts)

/-- Posting list of a term: the postings of the terminal node that the exact-search
walk reaches, empty when the term is absent. -/
def Trie.postings (T : Trie) (term : List Char) : List FileInfo :=
  (terminalPostings (walk T.root term)).getD []

/-- Document ids of the posting list of a term. -/
def Trie.postingIds (T : Trie) (term : List Char) : List Nat :=
  (T.postings term).map (fun fi => fi.fileId)

/-- Registered documents, in ascending id order, that occur in the posting list of
every stemmed term of the list (set intersection). -/
def Trie.matchingDocs (T : Trie) (terms : List (List Char)) : List Nat :=
  (List.range T.fileList.length).filter
    (fun d => terms.all (fun t => decide (d ∈ T.postingIds (stem t))))

/-- Tokens of a document whose normalized stream has "alpha" third and "beta" fifth. -/
def proximityTokens : List (List Char) :=
  ["one".toList, "two".toList, "alpha".toList, "three".toList, "beta".toList]

/-- Index built by ingesting the single document "doc.txt" with `proximityTokens`. -/
def proximityIndex : Trie := processFile Trie.empty "doc.txt".toList proximityTokens

/-- Sequence of `addFile` calls: the final state and the ids returned, in call order. -/
def addFiles (T : Trie) : List (List Char) → Trie × List Nat
  | [] => (T, [])
  | p :: ps => ((addFiles (T.addFile p).1 ps).1, (T.addFile p).2 :: (addFiles (T.addFile p).1 ps).2)

/-- Distinct elements of a list in first-seen order. -/
def firstSeen : List (List Char) → List (List Char)
  | [] => []
  | p :: ps => p :: (firstSeen ps).filter (fun q => decide (q ≠ p))

/-- A posting carries a position list: the `positions` array holds positive (1-based)
positions from its start and zeros after them. -/
def positionsStored (fi : FileInfo) : Bool :=
  decide (fi.positions.length ≤ MAX_WORD_LENGTH) &&
  (fi.positions.takeWhile (fun p => decide (p ≠ 0))).all (fun p => decide (0 < p)) &&
  (fi.positions.dropWhile (fun p => decide (p ≠ 0))).all (fun p => decide (p = 0))

/-- Positions of a term in document `d`: the non-zero entries of the posting of `d` in
the posting list of the term. -/
def Trie.positionsOf (T : Trie) (term : List Char) (d : Nat) : List Int :=
  match (T.postings term).find? (fun fi => decide (fi.fileId = d)) with
  | some fi => fi.positions.filter (fun p => decide (p ≠ 0))
  | none => []

/-- Distance of the first pair within `maxDistance`, the pairs `(p1, p2)` being
enumerated with `p1` in the outer and `p2` in the inner loop. -/
def firstPairDistance (ps1 ps2 : List Int) (maxDistance : Int) : Option Int :=
  ((ps1.product ps2).find? (fun pq => decide (|pq.1 - pq.2| ≤ maxDistance))).map
    (fun pq => |pq.1 - pq.2|)

/-- Registered documents, in ascending id order, in which some position of the first
term and some position of the second are within `maxDistance`. -/
def Trie.proximityDocs (T : Trie) (term1 term2 : List Char) (maxDistance : Int) : List Nat :=
  (List.range T.fileList.length).filter (fun d =>
    decide (∃ p1 ∈ T.positionsOf term1 d, ∃ p2 ∈ T.positionsOf term2 d,
      |p1 - p2| ≤ maxDistance))

/-- Subtree in which the posting of `fileId` at the node reached along the given child
indices holds the position list `ps`. -/
def storePositions (fileId : Nat) (ps : List Int) : List (Fin 26) → TrieNode → TrieNode
  | _, TrieNode.nullptr => TrieNode.nullptr
  | [], TrieNode.node ch e w f =>
    TrieNode.node ch e w (f.map (fun fi =>
      if fi.fileId = fileId then
        { fi with positions := ps ++ List.replicate (MAX_WORD_LENGTH - ps.length) 0 }
      else fi))
  | i :: rest, TrieNode.node ch e w f =>
    TrieNode.node (fun j => if j = i then storePositions fileId ps rest (ch i) else ch j) e w f

/-- Trie state with one document "doc.txt" in which the posting of "alpha" holds the
positions 3, 9 and the posting of "beta" the positions 12, 5. -/
def positionedIndex : Trie :=
  { root :=
      storePositions 0 [12, 5] (letterPath "beta".toList)
        (storePositions 0 [3, 9] (letterPath "alpha".toList)
          (processFile Trie.empty "doc.txt".toList ["alpha".toList, "beta".toList]).root),
    fileList := ["doc.txt".toList] }

/-- Canonical terms of the terminal nodes of a subtree in pre-order, the children being
visited in ascending letter order (the uncapped depth-first traversal). -/
def preorderTerms : TrieNode → List (List Char)
  | TrieNode.nullptr => []
  | TrieNode.node children isEndOfWord word _ =>
    (if isEndOfWord then [word] else []) ++
      (List.finRange 26).flatMap (fun i => preorderTerms (children i))

/-- Fifty-one distinct words beginning with "a": "aa" to "az" and "aaa" to "aay". -/
def manyWords : List (List Char) :=
  "abcdefghijklmnopqrstuvwxyz".toList.map (fun c => ['a', c]) ++
  "abcdefghijklmnopqrstuvwxy".toList.map (fun c => ['a', 'a', c])

/-- Index built by ingesting the single document "big.txt" with the tokens
`manyWords`. -/
def manyWordsIndex : Trie := processFile Trie.empty "big.txt".toList manyWords

/-- Child-index paths from a node to the terminal nodes of its subtree, in pre-order. -/
def collectPaths : TrieNode → List (List (Fin 26))
  | TrieNode.nullptr => []
  | TrieNode.node children isEndOfWord _ _ =>
    (if isEndOfWord then [[]] else []) ++
      (List.finRange 26).flatMap (fun i => (collectPaths (children i)).map (fun q => i :: q))

/-- Lowercase letter of a child index. -/
def pathChar (i : Fin 26) : Char := Char.ofNat ('a'.toNat + i.val)

/-- Lowercase word spelled by a list of child indices. -/
def pathWord (q : List (Fin 26)) : List Char := q.map pathChar

/-- Insert calls used in the examples of prefix search. -/
def sampleInserts : List (List Char × Nat) :=
  [("cat".toList, 0), ("dog".toList, 0), ("cart".toList, 1), ("car".toList, 0),
   ("cat".toList, 1)]

/-- Levenshtein distance with unit costs for insertion, deletion and substitution. -/
def lev (a b : List Char) : Nat := levenshtein Levenshtein.defaultCost a b

/-- One single-character operation on a string: an insertion, a deletion or a
substitution at any place. -/
inductive EditStep : List Char → List Char → Prop
  | insert (a b : List Char) (c : Char) : EditStep (a ++ b) (a ++ c :: b)
  | delete (a b : List Char) (c : Char) : EditStep (a ++ c :: b) (a ++ b)
  | substitute (a b : List Char) (c d : Char) : EditStep (a ++ c :: b) (a ++ d :: b)

/-- A sequence of `n` single-character operations transforms the first string into the
second. -/
inductive EditsTo : List Char → List Char → Nat → Prop
  | refl (s : List Char) : EditsTo s s 0
  | step {s t u : List Char} {n : Nat} : EditsTo s t n → EditStep t u → EditsTo s u (n + 1)

/-- Both rows of the table have their `MAX_WORD_LENGTH + 1` entries. -/
def EditTable.WF (dp : EditTable) : Prop :=
  dp.row0.length = MAX_WORD_LENGTH + 1 ∧ dp.row1.length = MAX_WORD_LENGTH + 1

/-- Distance between the first `i` characters of `s1` and the first `j` characters of
`s2`. -/
def prefixLev (s1 s2 : List Char) (i j : Nat) : Nat :=
  lev (s1.take i).reverse (s2.take j).reverse

/-- Index built by ingesting one document whose words are at distance 0, 1, 2 and 3
from "wrd". -/
def spellIndex : Trie :=
  processFile Trie.empty "words.txt".toList
    ["world".toList, "word".toList, "cat".toList, "wrd".toList, "lord".toList, "ward".toList]

/-- Document ids of a list of calls in first-seen order. -/
def firstSeenIds : List Nat → List Nat
  | [] => []
  | d :: ds => d :: (firstSeenIds ds).filter (fun e => decide (e ≠ d))

/-- The `insert` calls of a sequence whose raw term has key `k`. -/
def callsWithKey (ops : List (List Char × Nat)) (k : List Char) : List (List Char × Nat) :=
  ops.filter (fun op => decide (termKey op.1 = k))

/-- Document ids of the `insert` calls with key `k`, in call order. -/
def keyDocs (ops : List (List Char × Nat)) (k : List Char) : List Nat :=
  (callsWithKey ops k).map (fun op => op.2)

/-- Number of `insert` calls of a sequence with key `k` and document `d`. -/
def insertCount (ops : List (List Char × Nat)) (k : List Char) (d : Nat) : Nat :=
  (keyDocs ops k).count d

/-- Posting of document `d` with frequency `c d` and no position recorded. -/
def postingOf (c : Nat → Int) (d : Nat) : FileInfo :=
  { fileId := d, frequency := c d, positions := List.replicate MAX_WORD_LENGTH 0 }

/-- Every posting list of the trie holds a document id at most once and only
frequencies of at least 1. -/
def PostingsInv (T : Trie) : Prop :=
  ∀ q, ((descend T.root q).fileInfo.map (fun fi => fi.fileId)).Nodup ∧
    ∀ fi ∈ (descend T.root q).fileInfo, 1 ≤ fi.frequency

/-- The `insert` call made by the body of the token loop of `processFile` for one raw
token, if any: the stemmed cleaned token and the document id. -/
def tokenCall (fileId : Nat) (word : List Char) : Option (List Char × Nat) :=
  if isStopWord (cleanWord word) then none
  else if (stem (cleanWord word)).length > 0 then some (stem (cleanWord word), fileId)
  else none

/-- Stems of the non-stop-word, non-empty cleaned tokens, in token order. -/
def normalizedTerms (tokens : List (List Char)) : List (List Char) :=
  ((tokens.map cleanWord).filter (fun w => !isStopWord w && decide (w ≠ []))).map stem

/-- A document to ingest: its path and the tokens read from it. -/
abbrev Document := List Char × List (List Char)

/-- Index built by ingesting a list of documents into the empty trie. -/
def ingest (docs : List Document) : Trie :=
  docs.foldl (fun T doc => processFile T doc.1 doc.2) Trie.empty

/-- The `insert` calls made while the documents are ingested from state `T` on. -/
def ingestCalls : Trie → List Document → List (List Char × Nat)
  | _, [] => []
  | T, doc :: rest =>
    (normalizedTerms doc.2).map (fun t => (t, (T.addFile doc.1).2)) ++
      ingestCalls (processFile T doc.1 doc.2) rest

/-- A call that changes the index: `insert(word, fileId)` or `addFile(filename)`. -/
inductive IndexCall where
  | insert (word : List Char) (fileId : Nat) : IndexCall
  | addFile (filename : List Char) : IndexCall

/-- State after one call. -/
def Trie.call (T : Trie) : IndexCall → Trie
  | IndexCall.insert word fileId => T.insert word fileId
  | IndexCall.addFile filename => (T.addFile filename).1

/-- State reached from the empty trie by a sequence of `insert` and `addFile` calls. -/
def runCalls (calls : List IndexCall) : Trie := calls.foldl Trie.call Trie.empty

/-- No posting of the trie holds a position: every entry of every `positions` array
is zero. -/
def NoPositions (T : Trie) : Prop :=
  ∀ q, ∀ fi ∈ (descend T.root q).fileInfo, ∀ p ∈ fi.positions, p = 0

/-- Documents of the example: one file "a.txt" holding the tokens "go" and "cat". -/
def shortWordDocs : List Document := [("a.txt".toList, ["go".toList, "cat".toList])]

/-- History after a sequence of `addQuery` calls on a new `SearchHistory`. -/
def runQueries (queries : List (List Char)) : SearchHistory :=
  queries.foldl SearchHistory.addQuery SearchHistory.empty

/-- The accepted queries of a submission sequence, in submission order: a query is
accepted unless it equals the query accepted last. -/
def acceptedQueries (queries : List (List Char)) : List (List Char) :=
  queries.foldl (fun acc q => if acc.getLast? = some q then acc else acc ++ [q]) []

/-! ## Theorems -/

theorem isUpper_iff (c : Char) : c.isUpper = true ↔ 65 ≤ c.toNat ∧ c.toNat ≤ 90 := by
  simp [Char.isUpper, Char.toNat, UInt32.le_def, BitVec.le_def, UInt32.toNat]

theorem isLower_iff (c : Char) : c.isLower = true ↔ 97 ≤ c.toNat ∧ c.toNat ≤ 122 := by
  simp [Char.isLower, Char.toNat, UInt32.le_def, BitVec.le_def, UInt32.toNat]

theorem isAlpha_iff (c : Char) :
    c.isAlpha = true ↔ (65 ≤ c.toNat ∧ c.toNat ≤ 90) ∨ (97 ≤ c.toNat ∧ c.toNat ≤ 122) := by
  simp [Char.isAlpha, isUpper_iff, isLower_iff]

theorem toNat_ofNat_small (n : Nat) (h : n < 55296) : (Char.ofNat n).toNat = n := by
  have hv : n.isValidChar := Or.inl h
  simp [Char.ofNat, hv, Char.ofNatAux, Char.toNat, UInt32.toNat]

theorem char_eq_of_toNat_eq (a b : Char) (h : a.toNat = b.toNat) : a = b := by
  have := congrArg Char.ofNat h
  simpa [Char.ofNat_toNat] using this

theorem toNat_toLower (c : Char) :
    c.toLower.toNat = if 65 ≤ c.toNat ∧ c.toNat ≤ 90 then c.toNat + 32 else c.toNat := by
  unfold Char.toLower
  by_cases h : c.toNat ≥ 65 ∧ c.toNat ≤ 90
  · simp only [h, and_self, if_true]
    have : c.toNat + 32 < 55296 := by omega
    simpa using toNat_ofNat_small _ this
  · have h2 : ¬ (65 ≤ c.toNat ∧ c.toNat ≤ 90) := h
    simp [h2]

theorem isAlpha_toLower (c : Char) : c.toLower.isAlpha = c.isAlpha := by
  rw [Bool.eq_iff_iff, isAlpha_iff, isAlpha_iff, toNat_toLower]
  split <;> omega

theorem toLower_range (c : Char) (h : c.isAlpha = true) :
    97 ≤ c.toLower.toNat ∧ c.toLower.toNat ≤ 122 := by
  rw [isAlpha_iff] at h
  rw [toNat_toLower]
  split <;> omega

theorem childIndex_val (c : Char) (h : c.isAlpha = true) :
    (childIndex c.toLower).val = c.toLower.toNat - 97 := by
  have := toLower_range c h
  show (c.toLower.toNat - 97) % 26 = _
  omega

theorem childIndex_toLower_inj (a b : Char) (ha : a.isAlpha = true) (hb : b.isAlpha = true)
    (h : childIndex a.toLower = childIndex b.toLower) : a.toLower = b.toLower := by
  have h1 := childIndex_val a ha
  have h2 := childIndex_val b hb
  have ra := toLower_range a ha
  have rb := toLower_range b hb
  have hv : (childIndex a.toLower).val = (childIndex b.toLower).val := by rw [h]
  apply char_eq_of_toNat_eq
  omega

theorem letterPath_cons_alpha (c : Char) (s : List Char) (h : c.isAlpha = true) :
    letterPath (c :: s) = childIndex c.toLower :: letterPath s := by
  simp [letterPath, isAlpha_toLower, h]

theorem letterPath_cons_nonalpha (c : Char) (s : List Char) (h : c.isAlpha = false) :
    letterPath (c :: s) = letterPath s := by
  simp [letterPath, isAlpha_toLower, h]

theorem letterPath_eq_map_termKey (s : List Char) :
    letterPath s = (termKey s).map childIndex := by
  induction s with
  | nil => rfl
  | cons c s ih =>
    cases h : c.isAlpha
    · rw [letterPath_cons_nonalpha c s h, ih]; simp [termKey, h]
    · rw [letterPath_cons_alpha c s h, ih]; simp [termKey, h]

theorem insertFrom_eq_insertAt (word : List Char) (fileId : Nat) (s : List Char)
    (current : TrieNode) :
    insertFrom word fileId s current = insertAt word fileId (letterPath s) current := by
  induction s generalizing current with
  | nil => rfl
  | cons c s ih =>
    cases h : c.isAlpha
    · rw [letterPath_cons_nonalpha c s h]
      simp [insertFrom, isAlpha_toLower, h, ih]
    · rw [letterPath_cons_alpha c s h]
      simp [insertFrom, insertAt, isAlpha_toLower, h, ih]

theorem descend_nullptr (q : List (Fin 26)) : descend TrieNode.nullptr q = TrieNode.nullptr := by
  induction q with
  | nil => rfl
  | cons i q ih => simpa [descend, TrieNode.child] using ih

theorem view_descend_orNew (x : TrieNode) (q : List (Fin 26)) :
    (descend (orNew x) q).view = (descend x q).view := by
  cases x with
  | node ch e w f => rfl
  | nullptr =>
    cases q with
    | nil => rfl
    | cons i q => simp [orNew, newTrieNode, descend, TrieNode.child, descend_nullptr]

theorem orNew_isNull (x : TrieNode) : (orNew x).isNull = false := by
  cases x <;> rfl

theorem insertAt_isNull (word : List Char) (fileId : Nat) (p : List (Fin 26))
    (current : TrieNode) (h : current.isNull = false) :
    (insertAt word fileId p current).isNull = false := by
  cases current with
  | nullptr => simp [TrieNode.isNull] at h
  | node ch e w f => cases p <;> rfl

theorem view_descend_insertAt (word : List Char) (fileId : Nat) (p q : List (Fin 26))
    (current : TrieNode) (h : current.isNull = false) :
    (descend (insertAt word fileId p current) q).view =
      if q = p then markView (descend current p).view word fileId
      else (descend current q).view := by
  induction p generalizing current q with
  | nil =>
    cases current with
    | nullptr => simp [TrieNode.isNull] at h
    | node ch e w f =>
      cases q with
      | nil => rfl
      | cons j q => simp [insertAt, markEndOfWord, descend, TrieNode.child]
  | cons i p ih =>
    cases current with
    | nullptr => simp [TrieNode.isNull] at h
    | node ch e w f =>
      cases q with
      | nil => simp [insertAt, TrieNode.setChild, descend, TrieNode.view, TrieNode.isEndOfWord,
          TrieNode.word, TrieNode.fileInfo]
      | cons j q =>
        by_cases hj : j = i
        · subst hj
          simp only [insertAt, TrieNode.setChild, descend, TrieNode.child, if_true]
          rw [ih q _ (orNew_isNull _), view_descend_orNew, view_descend_orNew]
          simp
        · simp [insertAt, TrieNode.setChild, descend, TrieNode.child, hj]

theorem walk_eq_descend (s : List Char) (current : TrieNode)
    (hs : ∀ c ∈ s, c.isAlpha = true) (h : current.isNull = false) :
    walk current s =
      if (descend current (letterPath s)).isNull then none
      else some (descend current (letterPath s)) := by
  induction s generalizing current with
  | nil => simp [walk, letterPath, descend, h]
  | cons c s ih =>
    have hc : c.isAlpha = true := hs c (List.mem_cons_self _ _)
    have hs2 : ∀ x ∈ s, x.isAlpha = true := fun x hx => hs x (List.mem_cons_of_mem _ hx)
    rw [letterPath_cons_alpha c s hc]
    simp only [walk, isAlpha_toLower, hc, descend]
    cases hch : current.child (childIndex c.toLower) with
    | nullptr => simp [descend_nullptr, TrieNode.isNull]
    | node ch e w f =>
      simpa using ih (TrieNode.node ch e w f) hs2 rfl

theorem search_eq_isEnd (T : Trie) (w : List Char)
    (hw : ∀ c ∈ stem w, c.isAlpha = true) (h : T.root.isNull = false) :
    T.search w = (descend T.root (letterPath (stem w))).view.isEnd := by
  unfold Trie.search
  rw [walk_eq_descend _ _ hw h]
  cases hd : descend T.root (letterPath (stem w)) with
  | nullptr => simp [TrieNode.isNull, TrieNode.view, TrieNode.isEndOfWord]
  | node ch e w f => simp [TrieNode.isNull, TrieNode.view, TrieNode.isEndOfWord]

theorem insert_root_isNull (T : Trie) (word : List Char) (fileId : Nat)
    (h : T.root.isNull = false) : (T.insert word fileId).root.isNull = false := by
  simp only [Trie.insert, insertFrom_eq_insertAt]
  exact insertAt_isNull _ _ _ _ h

theorem view_descend_insert (T : Trie) (word : List Char) (fileId : Nat) (q : List (Fin 26))
    (h : T.root.isNull = false) :
    (descend (T.insert word fileId).root q).view =
      if q = letterPath word then markView (descend T.root (letterPath word)).view word fileId
      else (descend T.root q).view := by
  simp only [Trie.insert, insertFrom_eq_insertAt]
  exact view_descend_insertAt _ _ _ _ _ h

theorem foldl_insert_isNull (ops : List (List Char × Nat)) (T : Trie)
    (h : T.root.isNull = false) :
    (ops.foldl (fun T op => T.insert op.1 op.2) T).root.isNull = false := by
  induction ops generalizing T with
  | nil => exact h
  | cons op ops ih => exact ih _ (insert_root_isNull T _ _ h)

theorem isEnd_foldl_insert (ops : List (List Char × Nat)) (T : Trie) (q : List (Fin 26))
    (h : T.root.isNull = false) :
    (descend (ops.foldl (fun T op => T.insert op.1 op.2) T).root q).view.isEnd = true ↔
      (descend T.root q).view.isEnd = true ∨ ∃ op ∈ ops, letterPath op.1 = q := by
  induction ops generalizing T with
  | nil => simp
  | cons op ops ih =>
    rw [List.foldl_cons, ih _ (insert_root_isNull T _ _ h), view_descend_insert _ _ _ _ h]
    by_cases hq : q = letterPath op.1
    · subst hq
      simp [markView]
    · have hq2 : ¬ letterPath op.1 = q := fun e => hq e.symm
      simp [hq, hq2]

theorem map_childIndex_inj (a b : List Char) (ha : ∀ c ∈ a, c.isAlpha = true)
    (hb : ∀ c ∈ b, c.isAlpha = true)
    (h : (a.map Char.toLower).map childIndex = (b.map Char.toLower).map childIndex) :
    a.map Char.toLower = b.map Char.toLower := by
  induction a generalizing b with
  | nil =>
    cases b with
    | nil => rfl
    | cons y b => simp at h
  | cons x a ih =>
    cases b with
    | nil => simp at h
    | cons y b =>
      simp only [List.map_cons, List.cons.injEq] at h ⊢
      refine ⟨childIndex_toLower_inj x y (ha x (List.mem_cons_self _ _))
        (hb y (List.mem_cons_self _ _)) h.1, ?_⟩
      exact ih b (fun c hc => ha c (List.mem_cons_of_mem _ hc))
        (fun c hc => hb c (List.mem_cons_of_mem _ hc)) h.2

theorem termKey_of_alpha (s : List Char) (hs : ∀ c ∈ s, c.isAlpha = true) :
    termKey s = s.map Char.toLower := by
  unfold termKey
  rw [List.filter_eq_self.mpr hs]

theorem letterPath_eq_iff (raw s : List Char) (hs : ∀ c ∈ s, c.isAlpha = true) :
    letterPath raw = letterPath s ↔ termKey raw = s.map Char.toLower := by
  rw [letterPath_eq_map_termKey, letterPath_eq_map_termKey, termKey_of_alpha s hs]
  constructor
  · intro h
    exact map_childIndex_inj (raw.filter Char.isAlpha) s
      (fun c hc => (List.mem_filter.mp hc).2) hs h
  · intro h
    rw [h]

theorem Trie.empty_root_isNull : Trie.empty.root.isNull = false := rfl

theorem descend_newTrieNode_view (q : List (Fin 26)) :
    (descend newTrieNode q).view = ⟨false, [], []⟩ := by
  cases q with
  | nil => rfl
  | cons i q => simp [newTrieNode, descend, TrieNode.child, descend_nullptr]; rfl

/-- C2: on an index built from the empty trie by `insert` calls, exact search of a word
whose stemmed form is alphabetic succeeds iff some inserted raw term has the key
(letters, lowercased, in order) equal to the lowercased stemmed word. -/
theorem search_iff_inserted (ops : List (List Char × Nat)) (w : List Char)
    (hw : ∀ c ∈ stem w, c.isAlpha = true) :
    (buildIndex ops).search w = true ↔
      ∃ op ∈ ops, termKey op.1 = (stem w).map Char.toLower := by
  unfold buildIndex
  rw [search_eq_isEnd _ _ hw (foldl_insert_isNull ops _ Trie.empty_root_isNull),
    isEnd_foldl_insert ops _ _ Trie.empty_root_isNull]
  have h0 : (descend Trie.empty.root (letterPath (stem w))).view.isEnd = false := by
    show (descend newTrieNode _).view.isEnd = false
    rw [descend_newTrieNode_view]
  simp only [h0, Bool.false_eq_true, false_or]
  constructor
  · rintro ⟨op, hop, he⟩
    exact ⟨op, hop, (letterPath_eq_iff _ _ hw).mp he⟩
  · rintro ⟨op, hop, he⟩
    exact ⟨op, hop, (letterPath_eq_iff _ _ hw).mpr he⟩

theorem search_iff_inserted_witness :
    (∀ c ∈ stem "Cats".toList, c.isAlpha = true) ∧
    ((buildIndex [("c-a.t".toList, 0), ("dog".toList, 1)]).search "Cats".toList = true ↔
      ∃ op ∈ [("c-a.t".toList, 0), ("dog".toList, 1)],
        termKey op.1 = (stem "Cats".toList).map Char.toLower) :=
  ⟨by decide, search_iff_inserted _ _ (by decide)⟩

theorem getD_length_sub_one (w : List Char) (h : 1 ≤ w.length) :
    w.getLast? = some (w.getD (w.length - 1) ' ') := by
  rw [List.getLast?_eq_getElem?, List.getD_eq_getElem?_getD]
  have : w.length - 1 < w.length := by omega
  simp [List.getElem?_eq_getElem this]

theorem getD_length_sub_two (w : List Char) (h : 2 ≤ w.length) :
    w.dropLast.getLast? = some (w.getD (w.length - 2) ' ') := by
  rw [List.getLast?_eq_getElem?, List.getD_eq_getElem?_getD]
  have h1 : w.length - 2 < w.length := by omega
  have h2 : w.dropLast.length - 1 = w.length - 2 := by simp; omega
  have h3 : w.length - 2 < w.dropLast.length := by simp; omega
  rw [h2, List.getElem?_eq_getElem h3, List.getElem?_eq_getElem h1]
  simp [List.getElem_dropLast]

theorem dedouble_eq_spec (w : List Char) : dedouble w = dedoubleSpec w := by
  unfold dedouble dedoubleSpec
  by_cases h : 2 ≤ w.length
  · have e1 := getD_length_sub_one w (by omega)
    have e2 := getD_length_sub_two w h
    rw [List.getLast?_eq_head?_reverse] at e1
    rw [List.getLast?_eq_head?_reverse, ← List.tail_reverse] at e2
    rcases hr : w.reverse with _ | ⟨a, _ | ⟨b, r⟩⟩
    · have := congrArg List.length hr
      rw [List.length_reverse] at this
      simp only [List.length_nil] at this
      omega
    · have := congrArg List.length hr
      rw [List.length_reverse] at this
      simp only [List.length_cons, List.length_nil] at this
      omega
    · rw [hr] at e1 e2
      simp only [List.head?_cons, Option.some.injEq, List.tail_cons] at e1 e2
      simp only [h, ← e1, ← e2, true_and, ge_iff_le]
      rw [List.dropLast_eq_take]
  · have hlen : w.reverse.length < 2 := by simp; omega
    rcases hr : w.reverse with _ | ⟨a, _ | ⟨b, r⟩⟩
    · simp [h]
    · simp [h]
    · rw [hr] at hlen; simp at hlen; omega

theorem drop_eq_iff_suffix (w s : List Char) (_h : s.length ≤ w.length) :
    w.drop (w.length - s.length) = s ↔ s <:+ w := by
  rw [List.suffix_iff_eq_drop]
  exact eq_comm

/-- C3: the four stemming examples of the specification. -/
theorem stem_examples :
    stem "running".toList = "run".toList ∧ stem "flies".toList = "fly".toList ∧
    stem "boxes".toList = "box".toList ∧ stem "cats".toList = "cat".toList := by
  decide

/-- C4 (as stated, refuted): on the three-letter word "bed" the specification's cascade
applies rule 2 (length > 2, ends in "ed") and yields "b", while `stem` returns "bed". -/
theorem stem_ne_stemSpec_bed :
    stemSpec "bed".toList = "b".toList ∧ stem "bed".toList = "bed".toList ∧
    stem "bed".toList ≠ stemSpec "bed".toList := by
  decide

/-- C4 (amended): `stem` is the five-rule cascade of the specification on words longer
than three characters and the identity on all shorter words. -/
theorem stem_eq_gated_stemSpec (w : List Char) :
    stem w = if w.length > 3 then stemSpec w else w := by
  by_cases h : w.length > 3
  · have h2 : w.length > 2 := by omega
    have h1 : w.length > 1 := by omega
    have e3 := fun s (hs : s.length ≤ w.length) => drop_eq_iff_suffix w s hs
    have ing := e3 "ing".toList (by simp; omega)
    have ed := e3 "ed".toList (by simp; omega)
    have ies := e3 "ies".toList (by simp; omega)
    have es := e3 "es".toList (by simp; omega)
    simp only [String.toList, List.length_cons, List.length_nil, Nat.zero_add] at ing ed ies es
    have l1 := getD_length_sub_one w (by omega)
    have l2 := getD_length_sub_two w (by omega)
    simp only [stem, stemSpec, h, h2, h1, if_true, true_and, ing, ed, ies, es, l1, l2,
      Option.some.injEq, ne_eq, dedouble_eq_spec, String.toList]
    rw [List.dropLast_eq_take]
  · simp [stem, h]

/-- C5: a word of at most three characters is returned unchanged by `stem`. -/
theorem stem_short (w : List Char) (h : w.length ≤ 3) : stem w = w := by
  have : ¬ w.length > 3 := by omega
  simp [stem, this]

theorem stem_short_witness : "bed".toList.length ≤ 3 ∧ stem "bed".toList = "bed".toList :=
  ⟨by decide, stem_short "bed".toList (by decide)⟩

/-- C6: `stem` is a function of its input alone and is not idempotent: stemming
"singing" gives "sing", and stemming that again gives "s". -/
theorem stem_pure_not_idempotent :
    (∀ x : List Char, stem x = stem x) ∧ ∃ x : List Char, stem (stem x) ≠ stem x :=
  ⟨fun _ => rfl, "singing".toList, by decide⟩

theorem wrapInt_of_range (x : Int) (h1 : -2147483648 ≤ x) (h2 : x ≤ 2147483647) :
    wrapInt x = x := by
  unfold wrapInt
  omega

theorem wrapInt_range (x : Int) : -2147483648 ≤ wrapInt x ∧ wrapInt x ≤ 2147483647 := by
  unfold wrapInt
  omega

theorem wrapInt_add_congr (a b c d : Int) (h1 : wrapInt a = wrapInt c)
    (h2 : wrapInt b = wrapInt d) : wrapInt (a + b) = wrapInt (c + d) := by
  unfold wrapInt at *
  omega

theorem wrapInt_wrapInt (x : Int) : wrapInt (wrapInt x) = wrapInt x := by
  unfold wrapInt
  omega

theorem recordOccurrence_cons (fi : FileInfo) (rest : List FileInfo) (fileId : Nat) :
    recordOccurrence (fi :: rest) fileId =
      if fi.fileId = fileId then { fi with frequency := wrapInt (fi.frequency + 1) } :: rest
      else fi :: recordOccurrence rest fileId := by
  unfold recordOccurrence
  by_cases h : fi.fileId = fileId
  · simp [findFileIdInFileInfo, h, bumpFrequency]
  · simp only [findFileIdInFileInfo, h, if_false]
    cases findFileIdInFileInfo rest fileId <;> simp [bumpFrequency]

theorem recordOccurrence_nil (fileId : Nat) :
    recordOccurrence [] fileId =
      [{ fileId := fileId, frequency := 1, positions := List.replicate MAX_WORD_LENGTH 0 }] := rfl

theorem recordOccurrence_has (f : List FileInfo) (fileId : Nat)
    (hb : ∀ fi ∈ f, fi.fileId = fileId → 0 ≤ fi.frequency ∧ fi.frequency < 2147483647) :
    ∃ fi ∈ recordOccurrence f fileId, fi.fileId = fileId ∧ 1 ≤ fi.frequency := by
  induction f with
  | nil => exact ⟨_, List.mem_singleton.mpr rfl, rfl, Int.le_refl 1⟩
  | cons x rest ih =>
    rw [recordOccurrence_cons]
    by_cases h : x.fileId = fileId
    · rw [if_pos h]
      have hx := hb x (List.mem_cons_self _ _) h
      refine ⟨_, List.mem_cons_self _ _, h, ?_⟩
      show 1 ≤ wrapInt (x.frequency + 1)
      rw [wrapInt_of_range _ (by omega) (by omega)]
      omega
    · rw [if_neg h]
      obtain ⟨fi, hm, h1, h2⟩ := ih (fun fi hfi => hb fi (List.mem_cons_of_mem _ hfi))
      exact ⟨fi, List.mem_cons_of_mem _ hm, h1, h2⟩

theorem getWordDetails_eq_view (T : Trie) (w : List Char)
    (hw : ∀ c ∈ stem w, c.isAlpha = true) (h : T.root.isNull = false) :
    T.getWordDetails w =
      if (descend T.root (letterPath (stem w))).view.isEnd = true then
        [wordLine w (descend T.root (letterPath (stem w))).view.word,
         totalLine (sumFrequencies (descend T.root (letterPath (stem w))).view.fileInfo),
         "Occurrences by file:".toList] ++
        (descend T.root (letterPath (stem w))).view.fileInfo.map
          (fun fi => occurrenceLine (T.getFilename fi.fileId) fi.frequency)
      else [] := by
  unfold Trie.getWordDetails
  rw [walk_eq_descend _ _ hw h]
  cases hd : descend T.root (letterPath (stem w)) with
  | nullptr => simp [TrieNode.isNull, TrieNode.view, TrieNode.isEndOfWord]
  | node ch e w f =>
    simp [TrieNode.isNull, TrieNode.view, TrieNode.isEndOfWord, TrieNode.word,
      TrieNode.fileInfo]

/-- C1 (as stated, refuted): after `insert("cats", 0)` on the empty index,
`search(stem("cats"))`, that is `search("cat")`, returns false and `getWordDetails`
returns no line: `search` stems its argument while `insert` stores the raw term. -/
theorem insert_search_stem_cats :
    (∀ c ∈ "cats".toList, c.isAlpha = true) ∧
    (Trie.empty.insert "cats".toList 0).search (stem "cats".toList) = false ∧
    (Trie.empty.insert "cats".toList 0).getWordDetails (stem "cats".toList) = [] := by
  decide

/-- C1 (amended): for every alphabetic term `t` that stemming leaves unchanged and every
document id `d` whose posting at the node of `t`, if there is one, holds a frequency
from 0 to 2147483646 (below `INT_MAX`, so that the `int` increment does not wrap),
after `insert(t, d)` on the index `search(stem(t))` returns true and
`getWordDetails(stem(t))` has an occurrence line for document `d` with frequency at
least 1. -/
theorem insert_then_search (T : Trie) (t : List Char) (d : Nat)
    (hT : T.root.isNull = false) (ht : ∀ c ∈ t, c.isAlpha = true) (hs : stem t = t)
    (hfreq : ∀ fi ∈ (descend T.root (letterPath t)).fileInfo, fi.fileId = d →
      0 ≤ fi.frequency ∧ fi.frequency < 2147483647) :
    (T.insert t d).search (stem t) = true ∧
    ∃ f, 1 ≤ f ∧
      occurrenceLine ((T.insert t d).getFilename d) f ∈
        (T.insert t d).getWordDetails (stem t) := by
  have hss : ∀ c ∈ stem (stem t), c.isAlpha = true := by rw [hs, hs]; exact ht
  have hroot := insert_root_isNull T t d hT
  have hv : (descend (T.insert t d).root (letterPath (stem (stem t)))).view =
      markView (descend T.root (letterPath t)).view t d := by
    rw [hs, hs, view_descend_insert _ _ _ _ hT]
    simp
  constructor
  · rw [search_eq_isEnd _ _ hss hroot, hv]
    rfl
  · rw [getWordDetails_eq_view _ _ hss hroot, hv]
    obtain ⟨fi, hm, h1, h2⟩ :=
      recordOccurrence_has (descend T.root (letterPath t)).view.fileInfo d hfreq
    refine ⟨fi.frequency, h2, ?_⟩
    simp only [markView, if_true]
    apply List.mem_append_right
    rw [List.mem_map]
    exact ⟨fi, hm, by rw [h1]⟩

theorem insert_then_search_witness :
    ((Trie.empty.addFile "a.txt".toList).1.insert "glass".toList 0).root.isNull = false ∧
    (∀ c ∈ "Glass".toList, c.isAlpha = true) ∧ stem "Glass".toList = "Glass".toList ∧
    (∀ fi ∈ (descend ((Trie.empty.addFile "a.txt".toList).1.insert "glass".toList 0).root
        (letterPath "Glass".toList)).fileInfo,
      fi.fileId = 0 → 0 ≤ fi.frequency ∧ fi.frequency < 2147483647) ∧
    (((Trie.empty.addFile "a.txt".toList).1.insert "glass".toList 0).insert
        "Glass".toList 0).getWordDetails (stem "Glass".toList) =
      ["Word: Glass [stemmed: glass]".toList, "Total occurrences: 2".toList,
       "Occurrences by file:".toList, "  - a.txt: 2 times".toList] ∧
    (((Trie.empty.addFile "a.txt".toList).1.insert "glass".toList 0).insert
        "Glass".toList 0).search (stem "Glass".toList) = true ∧
    ∃ f, 1 ≤ f ∧
      occurrenceLine
          ((((Trie.empty.addFile "a.txt".toList).1.insert "glass".toList 0).insert
            "Glass".toList 0).getFilename 0) f ∈
        (((Trie.empty.addFile "a.txt".toList).1.insert "glass".toList 0).insert
          "Glass".toList 0).getWordDetails (stem "Glass".toList) :=
  ⟨by decide, by decide, by decide, by decide, by decide,
    insert_then_search ((Trie.empty.addFile "a.txt".toList).1.insert "glass".toList 0)
      "Glass".toList 0 (by decide) (by decide) (by decide) (by decide)⟩

theorem toLower_toLower (c : Char) : c.toLower.toLower = c.toLower := by
  apply char_eq_of_toNat_eq
  have h1 := toNat_toLower c
  have h2 := toNat_toLower c.toLower
  split_ifs at h1 h2 <;> omega

theorem termKey_cons_alpha (c : Char) (s : List Char) (h : c.isAlpha = true) :
    termKey (c :: s) = c.toLower :: termKey s := by
  simp [termKey, h]

theorem termKey_cons_nonalpha (c : Char) (s : List Char) (h : c.isAlpha = false) :
    termKey (c :: s) = termKey s := by
  simp [termKey, h]

theorem walkSkip_eq_walk_termKey (s : List Char) (current : TrieNode) :
    walkSkip current s = walk current (termKey s) := by
  induction s generalizing current with
  | nil => rfl
  | cons c s ih =>
    cases h : c.isAlpha
    · rw [termKey_cons_nonalpha c s h]
      simp [walkSkip, isAlpha_toLower, h, ih]
    · rw [termKey_cons_alpha c s h]
      simp only [walkSkip, walk, toLower_toLower, isAlpha_toLower, h]
      cases current.child (childIndex c.toLower) with
      | nullptr => rfl
      | node ch e w f => exact ih _

theorem isEndOfWord_of_isNull (n : TrieNode) (h : n.isNull = true) : n.isEndOfWord = false := by
  cases n with
  | nullptr => rfl
  | node ch e w f => simp [TrieNode.isNull] at h

theorem terminalPostings_eq_none_of_not_indexed (T : Trie) (key : List Char)
    (h : T.isIndexed key = false) : terminalPostings (walk T.root key) = none := by
  unfold Trie.isIndexed at h
  cases hw : walk T.root key with
  | none => rfl
  | some n =>
    rw [hw] at h
    cases n with
    | nullptr => rfl
    | node ch e w f =>
      simp [TrieNode.isNull, TrieNode.isEndOfWord] at h
      simp [terminalPostings, TrieNode.isEndOfWord, h]

theorem matchWords_cons (root : TrieNode) (word : List Char) (rest : List (List Char))
    (w : Nat) (fileMatches : List Nat) :
    matchWords root (word :: rest) w fileMatches =
      match terminalPostings (walkSkip root (stem word)) with
      | none => none
      | some f => matchWords root rest (w + 1) (markFiles w f fileMatches) := by
  simp only [matchWords]
  cases walkSkip root (stem word) with
  | none => rfl
  | some n =>
    cases h : n.isEndOfWord <;> simp [terminalPostings, h]

theorem matchWords_absent (root : TrieNode) (words : List (List Char)) (w : Nat)
    (fileMatches : List Nat)
    (h : ∃ term ∈ words, terminalPostings (walkSkip root (stem term)) = none) :
    matchWords root words w fileMatches = none := by
  induction words generalizing w fileMatches with
  | nil => simp at h
  | cons word rest ih =>
    rw [matchWords_cons]
    cases hp : terminalPostings (walkSkip root (stem word)) with
    | none => rfl
    | some f =>
      obtain ⟨term, hmem, ht⟩ := h
      rcases List.mem_cons.mp hmem with e | hm
      · subst e; rw [hp] at ht; cases ht
      · exact ih _ _ ⟨term, hm, ht⟩

theorem advancedSearch_of_absent (T : Trie) (query : List Char)
    (h : ∃ term ∈ queryWords query, T.isIndexed (termKey (stem term)) = false) :
    T.advancedSearch query = (false, []) := by
  unfold Trie.advancedSearch
  have hm : matchWords T.root (queryWords query) 0 (List.replicate MAX_FILES 0) = none := by
    apply matchWords_absent
    obtain ⟨term, hmem, ht⟩ := h
    refine ⟨term, hmem, ?_⟩
    rw [walkSkip_eq_walk_termKey]
    exact terminalPostings_eq_none_of_not_indexed T _ ht
  simp only [hm]
  split <;> rfl

/-- C8 (amended): when the letters of the stemmed form of some term of the phrase
(non-alphabetic characters dropped, lowercased) do not spell an indexed term,
`advancedSearch` returns false with an empty result list, whatever the other terms are
and wherever the absent term stands. -/
theorem advancedSearch_absent_term (T : Trie) (query : List Char)
    (h : ∃ term ∈ queryWords query, T.isIndexed (termKey (stem term)) = false) :
    T.advancedSearch query = (false, []) :=
  advancedSearch_of_absent T query h

theorem advancedSearch_absent_term_witness :
    (∃ term ∈ queryWords "cat zebras dog".toList,
      sampleIndex.isIndexed (termKey (stem term)) = false) ∧
    sampleIndex.advancedSearch "cat zebras dog".toList = (false, []) :=
  ⟨⟨"zebras".toList, by decide, by decide⟩,
    advancedSearch_absent_term sampleIndex "cat zebras dog".toList
      ⟨"zebras".toList, by decide, by decide⟩⟩

/-- C9 (as stated, refuted): the stemmed form of the term "c-at" has a non-alphabetic
character and exact search reports it absent, yet `advancedSearch("c-at")` on an index
holding "cat" returns true with both documents: its walk skips the hyphen. -/
theorem advancedSearch_skips_hyphen :
    (∃ c ∈ stem "c-at".toList, c.isAlpha = false) ∧
    sampleIndex.search "c-at".toList = false ∧
    sampleIndex.advancedSearch "c-at".toList = (true, ["a.txt".toList, "b.txt".toList]) :=
  ⟨⟨'-', by decide, by decide⟩, by decide, by decide⟩

/-- C9 (amended): for a phrase term whose stemmed form has a non-alphabetic character,
the walk of `advancedSearch` does not abort but skips that character: it is the
exact-search walk on the key (letters, lowercased) of the stemmed term, which differs
from the stemmed term; when that key is not an indexed term, `advancedSearch` returns
false with an empty result. -/
theorem advancedSearch_lookup_on_letters (T : Trie) (query term : List Char)
    (hterm : term ∈ queryWords query) (hna : ∃ c ∈ stem term, c.isAlpha = false)
    (habsent : T.isIndexed (termKey (stem term)) = false) :
    walkSkip T.root (stem term) = walk T.root (termKey (stem term)) ∧
    termKey (stem term) ≠ stem term ∧
    T.advancedSearch query = (false, []) := by
  refine ⟨walkSkip_eq_walk_termKey _ _, ?_,
    advancedSearch_of_absent T query ⟨term, hterm, habsent⟩⟩
  intro he
  obtain ⟨c, hc, hcn⟩ := hna
  rw [← he] at hc
  simp only [termKey, List.mem_map, List.mem_filter] at hc
  obtain ⟨a, ⟨_, ha⟩, rfl⟩ := hc
  rw [isAlpha_toLower, ha] at hcn
  cases hcn

theorem advancedSearch_lookup_on_letters_witness :
    "ze-bras".toList ∈ queryWords "cat ze-bras".toList ∧
    (∃ c ∈ stem "ze-bras".toList, c.isAlpha = false) ∧
    sampleIndex.isIndexed (termKey (stem "ze-bras".toList)) = false ∧
    walkSkip sampleIndex.root (stem "ze-bras".toList) =
      walk sampleIndex.root (termKey (stem "ze-bras".toList)) ∧
    termKey (stem "ze-bras".toList) ≠ stem "ze-bras".toList ∧
    sampleIndex.advancedSearch "cat ze-bras".toList = (false, []) :=
  ⟨by decide, ⟨'-', by decide, by decide⟩, by decide,
    advancedSearch_lookup_on_letters sampleIndex "cat ze-bras".toList "ze-bras".toList
      (by decide) ⟨'-', by decide, by decide⟩ (by decide)⟩

theorem map_fileId_recordOccurrence (f : List FileInfo) (d : Nat) :
    (recordOccurrence f d).map (fun fi => fi.fileId) =
      if d ∈ f.map (fun fi => fi.fileId) then f.map (fun fi => fi.fileId)
      else f.map (fun fi => fi.fileId) ++ [d] := by
  induction f with
  | nil => simp [recordOccurrence_nil]
  | cons x rest ih =>
    rw [recordOccurrence_cons]
    by_cases h : x.fileId = d
    · simp [h]
    · have h2 : ¬ d = x.fileId := fun e => h e.symm
      rw [if_neg h, List.map_cons, ih]
      by_cases hm : d ∈ rest.map (fun fi => fi.fileId)
      · simp [hm]
      · simp only [hm, if_false, List.map_cons, List.mem_cons, h2, false_or, List.cons_append]

theorem PostingsOK_recordOccurrence (n : Nat) (f : List FileInfo) (d : Nat)
    (hf : PostingsOK n f) (hd : d < n) : PostingsOK n (recordOccurrence f d) := by
  constructor
  · rw [map_fileId_recordOccurrence]
    split
    · exact hf.1
    · rename_i hm
      exact List.Nodup.append hf.1 (List.nodup_singleton d) (by simpa using hm)
  · intro fi hfi
    have hm : fi.fileId ∈ (recordOccurrence f d).map (fun fi => fi.fileId) :=
      List.mem_map_of_mem _ hfi
    rw [map_fileId_recordOccurrence] at hm
    split at hm
    · obtain ⟨x, hx, he⟩ := List.mem_map.mp hm
      rw [← he]; exact hf.2 x hx
    · rcases List.mem_append.mp hm with h1 | h1
      · obtain ⟨x, hx, he⟩ := List.mem_map.mp h1
        rw [← he]; exact hf.2 x hx
      · rw [List.mem_singleton.mp h1]; exact hd

theorem PostingsOK_mono (n m : Nat) (f : List FileInfo) (h : n ≤ m) (hf : PostingsOK n f) :
    PostingsOK m f :=
  ⟨hf.1, fun fi hfi => Nat.lt_of_lt_of_le (hf.2 fi hfi) h⟩

theorem addFile_fileList (T : Trie) (filename : List Char) :
    ((T.addFile filename).1.fileList = T.fileList ∧ filename ∈ T.fileList) ∨
    ((T.addFile filename).1.fileList = T.fileList ++ [filename] ∧ filename ∉ T.fileList) := by
  unfold Trie.addFile
  cases h : T.fileList.indexOf? filename with
  | some i =>
    left
    refine ⟨rfl, ?_⟩
    unfold List.indexOf? at h
    have := List.findIdx?_eq_some_iff_getElem.mp h
    obtain ⟨hlt, hb, _⟩ := this
    have he : T.fileList[i] = filename := by simpa using hb
    rw [← he]
    exact List.getElem_mem _
  | none =>
    right
    refine ⟨rfl, ?_⟩
    unfold List.indexOf? at h
    rw [List.findIdx?_eq_none_iff] at h
    intro hm
    have := h filename hm
    simp at this

theorem addFile_root (T : Trie) (filename : List Char) :
    (T.addFile filename).1.root = T.root := by
  unfold Trie.addFile
  cases T.fileList.indexOf? filename <;> rfl

theorem IndexInv_of_reachable (T : Trie) (h : Reachable T) : IndexInv T := by
  induction h with
  | empty =>
    refine ⟨rfl, List.nodup_nil, fun q => ?_⟩
    show PostingsOK _ (descend newTrieNode q).view.fileInfo
    rw [descend_newTrieNode_view]
    exact ⟨List.nodup_nil, fun fi hfi => by cases hfi⟩
  | addFile T filename _ ih =>
    obtain ⟨h1, h2, h3⟩ := ih
    rcases addFile_fileList T filename with ⟨he, _⟩ | ⟨he, hn⟩
    · refine ⟨by rw [addFile_root]; exact h1, by rw [he]; exact h2, fun q => ?_⟩
      rw [addFile_root, he]; exact h3 q
    · refine ⟨by rw [addFile_root]; exact h1, ?_, fun q => ?_⟩
      · rw [he]
        exact List.Nodup.append h2 (List.nodup_singleton _) (by simpa using hn)
      · rw [addFile_root, he]
        exact PostingsOK_mono _ _ _ (by simp) (h3 q)
  | insert T word fileId _ hd ih =>
    obtain ⟨h1, h2, h3⟩ := ih
    refine ⟨insert_root_isNull T _ _ h1, h2, fun q => ?_⟩
    rw [view_descend_insert _ _ _ _ h1]
    show PostingsOK T.fileList.length _
    split
    · exact PostingsOK_recordOccurrence _ _ _ (h3 _) hd
    · exact h3 q

theorem strtokFrom_append_nospace (t rest tok : List Char) (ht : ∀ c ∈ t, c ≠ ' ') :
    strtokFrom (t ++ rest) tok = strtokFrom rest (tok ++ t) := by
  induction t generalizing tok with
  | nil => simp
  | cons c t ih =>
    have hc : c ≠ ' ' := ht c (List.mem_cons_self _ _)
    simp only [List.cons_append, strtokFrom, hc, if_false]
    change strtokFrom (t ++ rest) (tok ++ [c]) = _
    rw [ih _ (fun x hx => ht x (List.mem_cons_of_mem _ hx))]
    simp

theorem strtokFrom_spaceSeparated (terms : List (List Char))
    (h : ∀ t ∈ terms, t ≠ [] ∧ ∀ c ∈ t, c ≠ ' ') :
    strtokFrom (spaceSeparated terms) [] = terms := by
  induction terms with
  | nil => rfl
  | cons t ts ih =>
    have ht := h t (List.mem_cons_self _ _)
    have hts : ∀ x ∈ ts, x ≠ [] ∧ ∀ c ∈ x, c ≠ ' ' :=
      fun x hx => h x (List.mem_cons_of_mem _ hx)
    cases ts with
    | nil =>
      have := strtokFrom_append_nospace t [] [] ht.2
      simp only [List.append_nil, List.nil_append] at this
      simp only [spaceSeparated, this, strtokFrom, ht.1, if_false]
    | cons u us =>
      simp only [spaceSeparated]
      rw [strtokFrom_append_nospace t _ [] ht.2]
      simp only [List.nil_append, strtokFrom, ht.1, if_true, if_false]
      rw [ih hts]

theorem length_spaceSeparated (terms : List (List Char)) (h : ∀ t ∈ terms, t ≠ []) :
    2 * terms.length ≤ (spaceSeparated terms).length + 1 := by
  induction terms with
  | nil => simp
  | cons t ts ih =>
    have ht : 1 ≤ t.length := List.length_pos.mpr (h t (List.mem_cons_self _ _))
    have hts : ∀ x ∈ ts, x ≠ [] := fun x hx => h x (List.mem_cons_of_mem _ hx)
    cases ts with
    | nil => simp [spaceSeparated]; omega
    | cons u us =>
      have := ih hts
      simp only [spaceSeparated, List.length_append, List.length_cons] at this ⊢
      omega

theorem isAlpha_ne_space (c : Char) (h : c.isAlpha = true) : c ≠ ' ' := by
  intro e
  subst e
  simp at h

theorem queryWords_spaceSeparated (terms : List (List Char))
    (h : ∀ t ∈ terms, t ≠ [] ∧ ∀ c ∈ t, c.isAlpha = true)
    (hlen : (spaceSeparated terms).length < MAX_WORD_LENGTH) :
    queryWords (spaceSeparated terms) = terms := by
  unfold queryWords
  rw [strtokFrom_spaceSeparated terms
    (fun t ht => ⟨(h t ht).1, fun c hc => isAlpha_ne_space c ((h t ht).2 c hc)⟩)]
  apply List.take_of_length_le
  have := length_spaceSeparated terms (fun t ht => (h t ht).1)
  simp only [MAX_WORD_LENGTH] at hlen
  simp only [MAX_SUGGESTIONS]
  omega

theorem getD_set_nat (l : List Nat) (j v i : Nat) (hj : j < l.length) :
    (l.set j v).getD i 0 = if i = j then v else l.getD i 0 := by
  simp only [List.getD_eq_getElem?_getD, List.getElem?_set]
  by_cases h : j = i
  · subst h; simp [hj]
  · have h2 : ¬ i = j := fun e => h e.symm
    simp [h, h2]

theorem markFiles_length (w : Nat) (f : List FileInfo) (fm : List Nat) :
    (markFiles w f fm).length = fm.length := by
  induction f generalizing fm with
  | nil => rfl
  | cons fi rest ih =>
    simp only [markFiles]
    split
    · rw [ih]; simp
    · rw [ih]

theorem markFiles_getD (w : Nat) (f : List FileInfo) (fm : List Nat) (i : Nat)
    (hnd : (f.map (fun fi => fi.fileId)).Nodup) (hlt : ∀ fi ∈ f, fi.fileId < fm.length) :
    (markFiles w f fm).getD i 0 =
      if i ∈ f.map (fun fi => fi.fileId) ∧ (w = 0 ∨ fm.getD i 0 = w) then fm.getD i 0 + 1
      else fm.getD i 0 := by
  induction f generalizing fm with
  | nil => simp [markFiles]
  | cons fi rest ih =>
    have hnd2 : (rest.map (fun fi => fi.fileId)).Nodup := (List.nodup_cons.mp hnd).2
    have hni : fi.fileId ∉ rest.map (fun fi => fi.fileId) := (List.nodup_cons.mp hnd).1
    have hfi : fi.fileId < fm.length := hlt fi (List.mem_cons_self _ _)
    have hlt2 : ∀ x ∈ rest, x.fileId < fm.length := fun x hx => hlt x (List.mem_cons_of_mem _ hx)
    simp only [markFiles]
    have hg : ∀ k, fm.getD k 0 = fm[k]?.getD 0 := fun k => List.getD_eq_getElem?_getD _ _ _
    by_cases hc : w = 0 ∨ fm.getD fi.fileId 0 = w
    · rw [if_pos hc, ih _ hnd2 (by simpa using hlt2), getD_set_nat _ _ _ _ hfi]
      by_cases hi : i = fi.fileId
      · subst hi
        rw [hg] at hc
        simp [hni, hc]
      · simp only [hi, if_false, List.map_cons, List.mem_cons, false_or]
    · rw [if_neg hc, ih _ hnd2 hlt2]
      by_cases hi : i = fi.fileId
      · subst hi
        rw [hg] at hc
        simp [hni, hc]
      · simp only [List.map_cons, List.mem_cons, hi, false_or]

theorem walkSkip_eq_walk_of_alpha (s : List Char) (current : TrieNode)
    (hs : ∀ c ∈ s, c.isAlpha = true) : walkSkip current s = walk current s := by
  induction s generalizing current with
  | nil => rfl
  | cons c s ih =>
    have hc : c.isAlpha = true := hs c (List.mem_cons_self _ _)
    have hs2 : ∀ x ∈ s, x.isAlpha = true := fun x hx => hs x (List.mem_cons_of_mem _ hx)
    simp only [walkSkip, walk, isAlpha_toLower, hc]
    cases current.child (childIndex c.toLower) with
    | nullptr => rfl
    | node ch e w f => exact ih _ hs2

theorem mem_dedouble (w : List Char) (c : Char) (h : c ∈ dedouble w) : c ∈ w := by
  unfold dedouble at h
  simp only at h
  split_ifs at h
  · exact List.mem_of_mem_take h
  · exact h

theorem stem_alpha (w : List Char) (hw : ∀ c ∈ w, c.isAlpha = true) :
    ∀ c ∈ stem w, c.isAlpha = true := by
  intro c hc
  unfold stem at hc
  simp only at hc
  split_ifs at hc
  · exact hw c (List.mem_of_mem_take (mem_dedouble _ _ hc))
  · exact hw c (List.mem_of_mem_take (mem_dedouble _ _ hc))
  · rcases List.mem_append.mp hc with h | h
    · exact hw c (List.mem_of_mem_take h)
    · rw [List.mem_singleton.mp h]; decide
  · exact hw c (List.mem_of_mem_take hc)
  · exact hw c (List.mem_of_mem_take hc)
  · exact hw c hc
  · exact hw c hc

theorem terminalPostings_walk_ok (T : Trie) (hT : IndexInv T) (s : List Char)
    (hs : ∀ c ∈ s, c.isAlpha = true) (f : List FileInfo)
    (h : terminalPostings (walk T.root s) = some f) : PostingsOK T.fileList.length f := by
  rw [walk_eq_descend s T.root hs hT.1] at h
  split at h
  · cases h
  · simp only [terminalPostings] at h
    split at h
    · cases h
      exact hT.2.2 (letterPath s)
    · cases h

theorem filter_range_add (p : Nat → Bool) (L k : Nat) (hp : ∀ i, p i = true → i < L) :
    (List.range (L + k)).filter p = (List.range L).filter p := by
  induction k with
  | zero => rfl
  | succ k ih =>
    rw [← Nat.add_assoc, List.range_succ, List.filter_append, ih]
    have : p (L + k) = false := by
      cases h : p (L + k)
      · rfl
      · have := hp _ h; omega
    simp [this]

theorem getD_replicate_zero (n i : Nat) : (List.replicate n 0).getD i 0 = 0 := by
  rw [List.getD_eq_getElem?_getD, List.getElem?_replicate]
  split <;> rfl

/-- Outcome of the word loop of `advancedSearch` from word number `w` on. -/
theorem matchWords_spec (root : TrieNode) (words : List (List Char)) (w : Nat)
    (fm : List Nat)
    (hpost : ∀ t ∈ words, ∀ f, terminalPostings (walkSkip root (stem t)) = some f →
      PostingsOK MAX_FILES f)
    (hlen : fm.length = MAX_FILES) (hle : ∀ i, fm.getD i 0 ≤ w) :
    (matchWords root words w fm = none ∧
      ∃ t ∈ words, terminalPostings (walkSkip root (stem t)) = none) ∨
    ∃ fm', matchWords root words w fm = some fm' ∧
      ∀ i, fm'.getD i 0 = w + words.length ↔
        fm.getD i 0 = w ∧ ∀ t ∈ words,
          i ∈ ((terminalPostings (walkSkip root (stem t))).getD []).map
            (fun fi => fi.fileId) := by
  induction words generalizing w fm with
  | nil =>
    right
    exact ⟨fm, rfl, fun i => by simp⟩
  | cons word rest ih =>
    rw [matchWords_cons]
    cases hp : terminalPostings (walkSkip root (stem word)) with
    | none =>
      left
      exact ⟨rfl, word, List.mem_cons_self _ _, hp⟩
    | some f =>
      have hok := hpost word (List.mem_cons_self _ _) f hp
      have hlt : ∀ fi ∈ f, fi.fileId < fm.length := by
        intro fi hfi; rw [hlen]; exact hok.2 fi hfi
      have hget := fun i => markFiles_getD w f fm i hok.1 hlt
      have hle2 : ∀ i, (markFiles w f fm).getD i 0 ≤ w + 1 := by
        intro i
        rw [hget i]
        have := hle i
        split <;> omega
      have hstep : ∀ i, (markFiles w f fm).getD i 0 = w + 1 ↔
          fm.getD i 0 = w ∧ i ∈ f.map (fun fi => fi.fileId) := by
        intro i
        rw [hget i]
        have := hle i
        constructor
        · intro h
          split at h
          · rename_i hc
            exact ⟨by omega, hc.1⟩
          · omega
        · rintro ⟨h1, h2⟩
          rw [if_pos ⟨h2, Or.inr h1⟩, h1]
      rcases ih (w + 1) (markFiles w f fm)
          (fun t ht => hpost t (List.mem_cons_of_mem _ ht))
          (by rw [markFiles_length]; exact hlen) hle2 with ⟨h1, t, ht, hnone⟩ | ⟨fm', h1, h2⟩
      · left
        exact ⟨h1, t, List.mem_cons_of_mem _ ht, hnone⟩
      · right
        refine ⟨fm', h1, fun i => ?_⟩
        have e : w + (word :: rest).length = w + 1 + rest.length := by
          simp only [List.length_cons]; omega
        rw [e, h2 i, hstep i]
        constructor
        · rintro ⟨⟨ha, hb⟩, hc⟩
          refine ⟨ha, fun t ht => ?_⟩
          rcases List.mem_cons.mp ht with e | hm
          · subst e; rw [hp]; exact hb
          · exact hc t hm
        · rintro ⟨ha, hc⟩
          refine ⟨⟨ha, ?_⟩, fun t ht => hc t (List.mem_cons_of_mem _ ht)⟩
          have := hc word (List.mem_cons_self _ _)
          rw [hp] at this
          exact this

theorem mem_matchingDocs (T : Trie) (terms : List (List Char)) (d : Nat) :
    d ∈ T.matchingDocs terms ↔
      d < T.fileList.length ∧ ∀ t ∈ terms, d ∈ T.postingIds (stem t) := by
  simp [Trie.matchingDocs, List.mem_filter, List.all_eq_true]

theorem postingIds_lt (T : Trie) (hT : IndexInv T) (t : List Char)
    (ht : ∀ c ∈ t, c.isAlpha = true) (d : Nat) (hd : d ∈ T.postingIds (stem t)) :
    d < T.fileList.length := by
  unfold Trie.postingIds Trie.postings at hd
  cases hp : terminalPostings (walk T.root (stem t)) with
  | none => rw [hp] at hd; simp at hd
  | some f =>
    rw [hp] at hd
    have hok := terminalPostings_walk_ok T hT (stem t) (stem_alpha t ht) f hp
    obtain ⟨fi, hfi, rfl⟩ := List.mem_map.mp hd
    exact hok.2 fi hfi

theorem getFilename_inj (T : Trie) (hnd : T.fileList.Nodup) (i j : Nat)
    (hi : i < T.fileList.length) (hj : j < T.fileList.length)
    (h : T.getFilename i = T.getFilename j) : i = j := by
  unfold Trie.getFilename at h
  rw [List.getD_eq_getElem _ _ hi, List.getD_eq_getElem _ _ hj] at h
  exact (List.Nodup.getElem_inj_iff hnd).mp h

/-- C7: on an index reachable by `addFile` and by `insert` calls with registered
document ids, holding at most `MAX_FILES` documents, and for a phrase of one or more
alphabetic terms separated by single spaces (duplicates allowed) that fits the query
buffer, `advancedSearch` returns the paths of exactly the documents that occur in the
posting list of every stemmed term, each once, in ascending document-id order, and
returns true iff that list is non-empty. -/
theorem advancedSearch_intersection (T : Trie) (terms : List (List Char))
    (hT : Reachable T) (hfiles : T.fileList.length ≤ MAX_FILES) (hne : terms ≠ [])
    (halpha : ∀ t ∈ terms, t ≠ [] ∧ ∀ c ∈ t, c.isAlpha = true)
    (hlen : (spaceSeparated terms).length < MAX_WORD_LENGTH) :
    T.advancedSearch (spaceSeparated terms) =
      (decide (T.matchingDocs terms ≠ []), (T.matchingDocs terms).map T.getFilename) ∧
    (∀ d, d ∈ T.matchingDocs terms ↔ ∀ t ∈ terms, d ∈ T.postingIds (stem t)) ∧
    (T.matchingDocs terms).Pairwise (fun a b => a < b) ∧
    ((T.matchingDocs terms).map T.getFilename).Nodup := by
  have hinv := IndexInv_of_reachable T hT
  obtain ⟨t0, ht0⟩ := List.exists_mem_of_ne_nil terms hne
  have hskip : ∀ t ∈ terms, walkSkip T.root (stem t) = walk T.root (stem t) :=
    fun t ht => walkSkip_eq_walk_of_alpha _ _ (stem_alpha t (halpha t ht).2)
  have hmemspec : ∀ d, d ∈ T.matchingDocs terms ↔ ∀ t ∈ terms, d ∈ T.postingIds (stem t) := by
    intro d
    rw [mem_matchingDocs]
    constructor
    · exact fun h => h.2
    · exact fun h => ⟨postingIds_lt T hinv t0 (halpha t0 ht0).2 d (h t0 ht0), h⟩
  have hpair : (T.matchingDocs terms).Pairwise (fun a b => a < b) :=
    List.Pairwise.sublist (List.filter_sublist _) (List.pairwise_lt_range _)
  have hnodup : ((T.matchingDocs terms).map T.getFilename).Nodup := by
    apply List.Nodup.map_on
    · intro x hx y hy hxy
      exact getFilename_inj T hinv.2.1 x y ((mem_matchingDocs T terms x).mp hx).1
        ((mem_matchingDocs T terms y).mp hy).1 hxy
    · exact List.Nodup.sublist (List.filter_sublist _) (List.nodup_range _)
  refine ⟨?_, hmemspec, hpair, hnodup⟩
  have hwords := queryWords_spaceSeparated terms halpha hlen
  have hcount : terms.length ≠ 0 := fun h => hne (List.length_eq_zero.mp h)
  unfold Trie.advancedSearch
  simp only [hwords, hcount, if_false]
  have hpost : ∀ t ∈ terms, ∀ f, terminalPostings (walkSkip T.root (stem t)) = some f →
      PostingsOK MAX_FILES f := by
    intro t ht f hf
    rw [hskip t ht] at hf
    exact PostingsOK_mono _ _ _ hfiles
      (terminalPostings_walk_ok T hinv (stem t) (stem_alpha t (halpha t ht).2) f hf)
  rcases matchWords_spec T.root terms 0 (List.replicate MAX_FILES 0) hpost (by simp)
      (fun i => by rw [getD_replicate_zero]) with ⟨h1, t, ht, hnone⟩ | ⟨fm', h1, h2⟩
  · rw [h1]
    have hempty : T.matchingDocs terms = [] := by
      apply List.eq_nil_iff_forall_not_mem.mpr
      intro d hd
      have := (hmemspec d).mp hd t ht
      unfold Trie.postingIds Trie.postings at this
      rw [← hskip t ht, hnone] at this
      simp at this
    simp [hempty]
  · rw [h1]
    have hfilter : (List.range MAX_FILES).filter (fun i => decide (fm'.getD i 0 = terms.length)) =
        T.matchingDocs terms := by
      have hpred : ∀ i, decide (fm'.getD i 0 = terms.length) =
          terms.all (fun t => decide (i ∈ T.postingIds (stem t))) := by
        intro i
        rw [Bool.eq_iff_iff]
        simp only [decide_eq_true_eq, List.all_eq_true]
        have := h2 i
        rw [Nat.zero_add, getD_replicate_zero] at this
        rw [this]
        constructor
        · intro h t ht
          have := h.2 t ht
          rw [hskip t ht] at this
          exact this
        · intro h
          refine ⟨rfl, fun t ht => ?_⟩
          rw [hskip t ht]
          exact h t ht
      have hfun : (fun i => decide (fm'.getD i 0 = terms.length)) =
          (fun i => terms.all (fun t => decide (i ∈ T.postingIds (stem t)))) := funext hpred
      rw [hfun]
      obtain ⟨k, hk⟩ := Nat.exists_eq_add_of_le hfiles
      rw [hk]
      unfold Trie.matchingDocs
      apply filter_range_add
      intro i hi
      rw [List.all_eq_true] at hi
      have := hi t0 ht0
      exact postingIds_lt T hinv t0 (halpha t0 ht0).2 i (by simpa using this)
    simp only [hfilter]
    have hle : ((T.matchingDocs terms).map T.getFilename).length ≤ MAX_RESULTS := by
      rw [List.length_map]
      have h1 : (T.matchingDocs terms).length ≤ (List.range T.fileList.length).length :=
        List.length_filter_le _ _
      rw [List.length_range] at h1
      simp only [MAX_FILES] at hfiles
      simp only [MAX_RESULTS]
      omega
    rw [List.take_of_length_le hle]
    congr 1
    cases hm : T.matchingDocs terms <;> simp

theorem advancedSearch_intersection_witness :
    Reachable sampleIndex ∧ sampleIndex.fileList.length ≤ MAX_FILES ∧
    ["dogs".toList, "cat".toList, "dogs".toList] ≠ [] ∧
    (∀ t ∈ ["dogs".toList, "cat".toList, "dogs".toList],
      t ≠ [] ∧ ∀ c ∈ t, c.isAlpha = true) ∧
    (spaceSeparated ["dogs".toList, "cat".toList, "dogs".toList]).length < MAX_WORD_LENGTH ∧
    sampleIndex.advancedSearch "dogs cat dogs".toList = (true, ["a.txt".toList]) ∧
    sampleIndex.advancedSearch (spaceSeparated ["dogs".toList, "cat".toList, "dogs".toList]) =
      (decide (sampleIndex.matchingDocs ["dogs".toList, "cat".toList, "dogs".toList] ≠ []),
        (sampleIndex.matchingDocs ["dogs".toList, "cat".toList, "dogs".toList]).map
          sampleIndex.getFilename) :=
  have hr : Reachable sampleIndex :=
    Reachable.insert _ _ _
      (Reachable.addFile _ _
        (Reachable.insert _ _ _
          (Reachable.insert _ _ _ (Reachable.addFile _ _ Reachable.empty) (by decide))
          (by decide)))
      (by decide)
  ⟨hr, by decide, by decide, by decide, by decide, by decide,
    (advancedSearch_intersection sampleIndex ["dogs".toList, "cat".toList, "dogs".toList]
      hr (by decide) (by decide) (by decide) (by decide)).1⟩

/-- C10 (code evaluated at the failing input): the document's normalized tokens are
one, two, alpha, three, beta (no stop word), both words are indexed, and every posting
of the index has an all-zero position array, so `proximitySearch("alpha", "beta", 2)`
returns false with no result, as it does for `maxDistance` 1. -/
theorem proximitySearch_alpha_beta_no_match :
    proximityTokens.map (fun w => (isStopWord (cleanWord w), stem (cleanWord w))) =
      [(false, "one".toList), (false, "two".toList), (false, "alpha".toList),
       (false, "three".toList), (false, "beta".toList)] ∧
    proximityIndex.search "alpha".toList = true ∧
    proximityIndex.search "beta".toList = true ∧
    (proximityIndex.postings "alpha".toList).map copyPositions = [[]] ∧
    (proximityIndex.postings "beta".toList).map copyPositions = [[]] ∧
    proximityIndex.proximitySearch "alpha".toList "beta".toList 2 = (false, []) ∧
    proximityIndex.proximitySearch "alpha".toList "beta".toList 1 = (false, []) := by
  decide

set_option maxRecDepth 100000

theorem indexOf?_eq_none_of_not_mem (l : List (List Char)) (p : List Char) (h : p ∉ l) :
    l.indexOf? p = none := by
  rw [List.indexOf?_eq_none_iff]
  intro x hx hxp
  have : x = p := by simpa using hxp
  exact h (this ▸ hx)

theorem indexOf?_of_mem (l : List (List Char)) (p : List Char) (h : p ∈ l) :
    ∃ i, l.indexOf? p = some i ∧ l[i]? = some p := by
  cases hi : l.indexOf? p with
  | none =>
    rw [List.indexOf?_eq_none_iff] at hi
    have := hi p h
    simp at this
  | some i =>
    refine ⟨i, rfl, ?_⟩
    unfold List.indexOf? at hi
    obtain ⟨hlt, hb, _⟩ := List.findIdx?_eq_some_iff_getElem.mp hi
    have he : l[i] = p := by simpa using hb
    rw [List.getElem?_eq_getElem hlt, he]

theorem indexOf?_append_of_some (l l2 : List (List Char)) (p : List Char) (i : Nat)
    (h : l.indexOf? p = some i) : (l ++ l2).indexOf? p = some i := by
  unfold List.indexOf? at h ⊢
  rw [List.findIdx?_append, h]
  rfl

theorem indexOf?_append_self (l : List (List Char)) (p : List Char) (h : p ∉ l) :
    (l ++ [p]).indexOf? p = some l.length := by
  have hn := indexOf?_eq_none_of_not_mem l p h
  unfold List.indexOf? at hn ⊢
  rw [List.findIdx?_append, hn]
  simp

theorem addFile_of_not_mem (T : Trie) (p : List Char) (h : p ∉ T.fileList) :
    T.addFile p = ({ T with fileList := T.fileList ++ [p] }, T.fileList.length) := by
  unfold Trie.addFile
  rw [indexOf?_eq_none_of_not_mem _ _ h]

theorem addFile_of_mem (T : Trie) (p : List Char) (h : p ∈ T.fileList) :
    ∃ i, T.addFile p = (T, i) ∧ T.fileList.indexOf? p = some i ∧ T.fileList[i]? = some p := by
  obtain ⟨i, hi, hg⟩ := indexOf?_of_mem _ _ h
  refine ⟨i, ?_, hi, hg⟩
  unfold Trie.addFile
  rw [hi]

theorem addFile_getFilename (T : Trie) (p : List Char) :
    (T.addFile p).1.getFilename (T.addFile p).2 = p := by
  unfold Trie.getFilename
  by_cases h : p ∈ T.fileList
  · obtain ⟨i, he, _, hg⟩ := addFile_of_mem T p h
    rw [he, List.getD_eq_getElem?_getD, hg]
    rfl
  · rw [addFile_of_not_mem T p h]
    simp [List.getD_eq_getElem?_getD]

theorem addFile_second (T : Trie) (p : List Char) :
    (T.addFile p).1.addFile p = T.addFile p := by
  by_cases h : p ∈ T.fileList
  · obtain ⟨i, he, _, _⟩ := addFile_of_mem T p h
    rw [he]
    exact he
  · rw [addFile_of_not_mem T p h]
    unfold Trie.addFile
    simp only
    rw [indexOf?_append_self _ _ h]

/-- C19: calling `addFile(p)` twice returns the same id both times, and the second call
leaves the state (the registry size and every stored path) unchanged. -/
theorem addFile_twice (T : Trie) (p : List Char) :
    ((T.addFile p).1.addFile p).2 = (T.addFile p).2 ∧
    ((T.addFile p).1.addFile p).1.fileList = (T.addFile p).1.fileList ∧
    ((T.addFile p).1.addFile p).1.fileList.length = (T.addFile p).1.fileList.length ∧
    (∀ i, ((T.addFile p).1.addFile p).1.getFilename i = (T.addFile p).1.getFilename i) := by
  rw [addFile_second]
  exact ⟨rfl, rfl, rfl, fun _ => rfl⟩

theorem addFile_fileList_eq (T : Trie) (p : List Char) :
    (T.addFile p).1.fileList = T.fileList ++ (if p ∈ T.fileList then [] else [p]) := by
  by_cases h : p ∈ T.fileList
  · obtain ⟨i, he, _, _⟩ := addFile_of_mem T p h
    rw [he]; simp [h]
  · rw [addFile_of_not_mem T p h]; simp [h]

theorem addFile_getElem? (T : Trie) (p : List Char) :
    (T.addFile p).1.fileList[(T.addFile p).2]? = some p := by
  by_cases h : p ∈ T.fileList
  · obtain ⟨i, he, _, hg⟩ := addFile_of_mem T p h
    rw [he]; exact hg
  · rw [addFile_of_not_mem T p h]; simp

theorem addFiles_fileList (T : Trie) (paths : List (List Char)) :
    (addFiles T paths).1.fileList =
      T.fileList ++ (firstSeen paths).filter (fun q => decide (q ∉ T.fileList)) := by
  induction paths generalizing T with
  | nil => simp [addFiles, firstSeen]
  | cons p ps ih =>
    simp only [addFiles, firstSeen]
    rw [ih, addFile_fileList_eq]
    by_cases h : p ∈ T.fileList
    · simp only [h, if_true, List.append_nil, List.filter_cons, not_true_eq_false,
        decide_False, List.filter_filter]
      congr 1
      apply List.filter_congr
      intro q _
      by_cases hq : q ∈ T.fileList
      · simp [hq]
      · have : q ≠ p := fun e => hq (e ▸ h)
        simp [hq, this]
    · simp only [h, if_false, List.filter_cons, not_false_eq_true, decide_True, if_true,
        List.append_assoc, List.singleton_append, List.filter_filter]
      congr 2
      apply List.filter_congr
      intro q _
      simp only [List.mem_append, List.mem_singleton, not_or, ne_eq, Bool.decide_and,
        Bool.and_comm]

theorem addFiles_length (T : Trie) (paths : List (List Char)) :
    (addFiles T paths).2.length = paths.length := by
  induction paths generalizing T with
  | nil => rfl
  | cons p ps ih => simp [addFiles, ih]

theorem addFiles_ids (T : Trie) (paths : List (List Char)) (i : Nat) (hi : i < paths.length) :
    ∃ k, (addFiles T paths).2[i]? = some k ∧
      (addFiles T paths).1.fileList[k]? = some paths[i] := by
  induction paths generalizing T i with
  | nil => simp at hi
  | cons p ps ih =>
    cases i with
    | zero =>
      refine ⟨(T.addFile p).2, by simp [addFiles], ?_⟩
      simp only [addFiles, List.getElem_cons_zero]
      rw [addFiles_fileList]
      have h := addFile_getElem? T p
      have hlt : (T.addFile p).2 < (T.addFile p).1.fileList.length := by
        by_contra hc
        rw [List.getElem?_eq_none (by omega)] at h
        cases h
      rw [List.getElem?_append_left hlt]
      exact h
    | succ j =>
      have hj : j < ps.length := by simpa using hi
      obtain ⟨k, h1, h2⟩ := ih (T.addFile p).1 j hj
      exact ⟨k, by simpa [addFiles] using h1, by simpa [addFiles] using h2⟩

theorem mem_firstSeen (paths : List (List Char)) (q : List Char) :
    q ∈ firstSeen paths ↔ q ∈ paths := by
  induction paths with
  | nil => simp [firstSeen]
  | cons p ps ih =>
    simp only [firstSeen, List.mem_cons, List.mem_filter, ih, decide_eq_true_eq]
    by_cases h : q = p
    · simp [h]
    · simp [h]

theorem nodup_firstSeen (paths : List (List Char)) : (firstSeen paths).Nodup := by
  induction paths with
  | nil => exact List.nodup_nil
  | cons p ps ih =>
    simp only [firstSeen]
    apply List.Nodup.cons
    · simp [List.mem_filter]
    · exact List.Nodup.filter _ ih

/-- C20: document ids are assigned sequentially from 0 in first-seen order: an unknown
path receives the registry size as its id, ids already assigned never change,
`getFilename(addFile(p)) = p`, and after any sequence of `addFile` calls on the empty
registry the registry is the list of distinct paths in first-seen order, the call for
a path returning the index of that path in this list. -/
theorem addFile_ids_sequential :
    (∀ (T : Trie) (p : List Char), p ∉ T.fileList →
      (T.addFile p).2 = T.fileList.length ∧
      (T.addFile p).1.fileList = T.fileList ++ [p]) ∧
    (∀ (T : Trie) (p : List Char) (i : Nat), i < T.fileList.length →
      (T.addFile p).1.getFilename i = T.getFilename i) ∧
    (∀ (T : Trie) (p : List Char), (T.addFile p).1.getFilename (T.addFile p).2 = p) ∧
    (∀ paths : List (List Char),
      (addFiles Trie.empty paths).1.fileList = firstSeen paths ∧
      (addFiles Trie.empty paths).2.length = paths.length ∧
      ∀ (i : Nat) (hi : i < paths.length), ∃ k,
        (addFiles Trie.empty paths).2[i]? = some k ∧
        (firstSeen paths)[k]? = some paths[i] ∧
        ∀ j, (firstSeen paths)[j]? = some paths[i] → j = k) := by
  refine ⟨?_, ?_, addFile_getFilename, ?_⟩
  · intro T p h
    rw [addFile_of_not_mem T p h]
    exact ⟨rfl, rfl⟩
  · intro T p i hi
    unfold Trie.getFilename
    rw [addFile_fileList_eq, List.getD_eq_getElem?_getD, List.getD_eq_getElem?_getD,
      List.getElem?_append_left hi]
  · intro paths
    have hfl : (addFiles Trie.empty paths).1.fileList = firstSeen paths := by
      rw [addFiles_fileList]
      simp [Trie.empty]
    refine ⟨hfl, addFiles_length _ _, fun i hi => ?_⟩
    obtain ⟨k, h1, h2⟩ := addFiles_ids Trie.empty paths i hi
    rw [hfl] at h2
    refine ⟨k, h1, h2, fun j hj => ?_⟩
    have hnd := nodup_firstSeen paths
    have hjl : j < (firstSeen paths).length := by
      by_contra hc
      rw [List.getElem?_eq_none (by omega)] at hj
      cases hj
    have hkl : k < (firstSeen paths).length := by
      by_contra hc
      rw [List.getElem?_eq_none (by omega)] at h2
      cases h2
    rw [List.getElem?_eq_getElem hjl] at hj
    rw [List.getElem?_eq_getElem hkl] at h2
    exact (List.Nodup.getElem_inj_iff hnd).mp (by rw [Option.some.inj hj, Option.some.inj h2])

theorem walkBreak_of_walk (s : List Char) (current n : TrieNode)
    (h : walk current s = some n) : walkBreak current s = n := by
  induction s generalizing current with
  | nil => simpa [walk, walkBreak] using h
  | cons c s ih =>
    simp only [walk] at h
    cases hc : c.isAlpha with
    | false => simp [isAlpha_toLower, hc] at h
    | true =>
      simp only [isAlpha_toLower, hc, Bool.not_true, Bool.false_eq_true, if_false] at h
      have hr := toLower_range c hc
      have hidx : (Fin.ofNat (((c.toLower.toNat : Int) - ('a'.toNat : Int)).toNat) : Fin 26) =
          childIndex c.toLower := by
        unfold childIndex
        congr 1
        have : ('a'.toNat : Int) = 97 := rfl
        have h2 : 'a'.toNat = 97 := rfl
        rw [this, h2]
        omega
      have hlo : ¬ ((c.toLower.toNat : Int) - ('a'.toNat : Int) < 0 ∨
          (c.toLower.toNat : Int) - ('a'.toNat : Int) ≥ (ALPHABET_SIZE : Int)) := by
        have : ('a'.toNat : Int) = 97 := rfl
        rw [this]
        simp only [ALPHABET_SIZE]
        omega
      simp only [walkBreak, hlo, if_false, hidx]
      cases hch : current.child (childIndex c.toLower) with
      | nullptr => rw [hch] at h; cases h
      | node ch e w f =>
        rw [hch] at h
        exact ih _ h

theorem isIndexed_walk (T : Trie) (term : List Char) (h : T.isIndexed term = true) :
    ∃ n, walk T.root term = some n ∧ n.isNull = false ∧ n.isEndOfWord = true ∧
      T.postings term = n.fileInfo := by
  unfold Trie.isIndexed at h
  cases hw : walk T.root term with
  | none => rw [hw] at h; cases h
  | some n =>
    rw [hw] at h
    simp only [Bool.and_eq_true, Bool.not_eq_true'] at h
    refine ⟨n, rfl, h.1, h.2, ?_⟩
    simp [Trie.postings, hw, terminalPostings, h.2]

theorem mem_takeWhile_true (p : Int → Bool) (l : List Int) (a : Int)
    (h : a ∈ l.takeWhile p) : p a = true := by
  induction l with
  | nil => simp at h
  | cons x l ih =>
    rw [List.takeWhile_cons] at h
    cases hp : p x with
    | false => rw [hp] at h; simp at h
    | true =>
      rw [hp] at h
      simp only [if_true, List.mem_cons] at h
      rcases h with e | h
      · rw [e]; exact hp
      · exact ih h

theorem product_cons_eq (a : Int) (l1 l2 : List Int) :
    (a :: l1).product l2 = l2.map (fun b => (a, b)) ++ l1.product l2 := by
  simp [List.product]

theorem copyPositions_eq_filter (fi : FileInfo) (h : positionsStored fi = true) :
    copyPositions fi = fi.positions.filter (fun p => decide (p ≠ 0)) := by
  unfold positionsStored at h
  simp only [Bool.and_eq_true, decide_eq_true_eq] at h
  obtain ⟨⟨hlen, _⟩, hz⟩ := h
  unfold copyPositions
  rw [List.take_of_length_le hlen]
  conv_rhs => rw [← List.takeWhile_append_dropWhile (fun p => decide (p ≠ 0)) fi.positions]
  rw [List.filter_append]
  have h1 : (fi.positions.takeWhile (fun p => decide (p ≠ 0))).filter (fun p => decide (p ≠ 0)) =
      fi.positions.takeWhile (fun p => decide (p ≠ 0)) := by
    rw [List.filter_eq_self]
    intro a ha
    exact mem_takeWhile_true _ _ _ ha
  have h2 : (fi.positions.dropWhile (fun p => decide (p ≠ 0))).filter (fun p => decide (p ≠ 0)) =
      [] := by
    rw [List.filter_eq_nil_iff]
    intro a ha
    have := List.all_eq_true.mp hz a ha
    simpa using this
  rw [h1, h2, List.append_nil]

theorem firstProximity_eq (ps1 ps2 : List Int) (m : Int) :
    firstProximity ps1 ps2 m = firstPairDistance ps1 ps2 m := by
  unfold firstProximity firstPairDistance
  induction ps1 with
  | nil => rfl
  | cons a ps1 ih =>
    rw [List.findSome?_cons, product_cons_eq, List.find?_append, List.find?_map]
    have hfun : ((fun pq : Int × Int => decide (|pq.1 - pq.2| ≤ m)) ∘ fun b => (a, b)) =
        (fun p2 => decide (((a - p2).natAbs : Int) ≤ m)) := by
      funext p2
      simp [Int.natCast_natAbs]
    rw [hfun]
    cases hf : List.find? (fun p2 => decide (((a - p2).natAbs : Int) ≤ m)) ps2 with
    | none => simpa using ih
    | some p2 => simp [Int.natCast_natAbs]

theorem filterMap_map_eq (l : List Nat) (g : Nat → Option Int) (f : Nat → Int → List Char) :
    l.filterMap (fun d => (g d).map (f d)) =
      (l.filter (fun d => (g d).isSome)).map (fun d => f d ((g d).getD 0)) := by
  induction l with
  | nil => rfl
  | cons d l ih =>
    cases hg : g d with
    | none => simp [List.filterMap_cons, hg, ih]
    | some v => simp [List.filterMap_cons, hg, ih]

theorem firstPairDistance_isSome (ps1 ps2 : List Int) (m : Int) :
    (firstPairDistance ps1 ps2 m).isSome = true ↔ ∃ p1 ∈ ps1, ∃ p2 ∈ ps2, |p1 - p2| ≤ m := by
  unfold firstPairDistance
  rw [Option.isSome_map', List.find?_isSome]
  constructor
  · rintro ⟨⟨a, b⟩, hm, hp⟩
    rw [List.pair_mem_product] at hm
    exact ⟨a, hm.1, b, hm.2, by simpa using hp⟩
  · rintro ⟨a, ha, b, hb, hp⟩
    exact ⟨(a, b), List.pair_mem_product.mpr ⟨ha, hb⟩, by simpa using hp⟩

theorem positionsIn_eq_positionsOf (T : Trie) (term : List Char) (d : Nat)
    (h : T.isIndexed term = true) (hpos : ∀ fi ∈ T.postings term, positionsStored fi = true) :
    positionsIn (walkBreak T.root term) d = T.positionsOf term d := by
  obtain ⟨n, hw, hnull, hend, hpost⟩ := isIndexed_walk T term h
  rw [walkBreak_of_walk _ _ _ hw]
  unfold positionsIn Trie.positionsOf
  rw [hpost]
  simp only [hnull, hend, Bool.not_false, Bool.and_self, if_true]
  cases hf : List.find? (fun fi => decide (fi.fileId = d)) n.fileInfo with
  | none => rfl
  | some fi =>
    have hm : fi ∈ T.postings term := by
      rw [hpost]; exact List.mem_of_find?_eq_some hf
    exact copyPositions_eq_filter fi (hpos fi hm)

/-- C11: on a trie state whose postings of the two (indexed) stemmed words carry position
lists, `proximitySearch` reports exactly the registered documents in which some position
of word1 and some position of word2 are within `maxDistance`, each once, in ascending
document-id order, with the distance of the first qualifying pair in enumeration order
(word1's positions in the outer loop, word2's in the inner loop). -/
theorem proximitySearch_spec (T : Trie) (word1 word2 : List Char) (maxDistance : Int)
    (h1 : T.isIndexed (stem word1) = true) (h2 : T.isIndexed (stem word2) = true)
    (hpos : ∀ fi ∈ T.postings (stem word1) ++ T.postings (stem word2),
      positionsStored fi = true) :
    T.proximitySearch word1 word2 maxDistance =
      (decide (T.proximityDocs (stem word1) (stem word2) maxDistance ≠ []),
        (T.proximityDocs (stem word1) (stem word2) maxDistance).map (fun d =>
          proximityLine (T.getFilename d)
            ((firstPairDistance (T.positionsOf (stem word1) d) (T.positionsOf (stem word2) d)
              maxDistance).getD 0))) ∧
    (∀ d, d ∈ T.proximityDocs (stem word1) (stem word2) maxDistance ↔
      d < T.fileList.length ∧
      ∃ p1 ∈ T.positionsOf (stem word1) d, ∃ p2 ∈ T.positionsOf (stem word2) d,
        |p1 - p2| ≤ maxDistance) ∧
    (T.proximityDocs (stem word1) (stem word2) maxDistance).Pairwise (fun a b => a < b) := by
  have hp1 : ∀ fi ∈ T.postings (stem word1), positionsStored fi = true :=
    fun fi hfi => hpos fi (List.mem_append_left _ hfi)
  have hp2 : ∀ fi ∈ T.postings (stem word2), positionsStored fi = true :=
    fun fi hfi => hpos fi (List.mem_append_right _ hfi)
  refine ⟨?_, ?_, ?_⟩
  · unfold Trie.proximitySearch
    simp only [positionsIn_eq_positionsOf T _ _ h1 hp1, positionsIn_eq_positionsOf T _ _ h2 hp2,
      firstProximity_eq]
    rw [filterMap_map_eq (List.range T.fileList.length)
      (fun d => firstPairDistance (T.positionsOf (stem word1) d) (T.positionsOf (stem word2) d)
        maxDistance)
      (fun d distance => proximityLine (T.getFilename d) distance)]
    have hfilter : (List.range T.fileList.length).filter (fun d =>
        (firstPairDistance (T.positionsOf (stem word1) d) (T.positionsOf (stem word2) d)
          maxDistance).isSome) = T.proximityDocs (stem word1) (stem word2) maxDistance := by
      unfold Trie.proximityDocs
      apply List.filter_congr
      intro d _
      rw [Bool.eq_iff_iff, firstPairDistance_isSome]
      simp
    rw [hfilter]
    congr 1
    cases T.proximityDocs (stem word1) (stem word2) maxDistance <;> simp
  · intro d
    simp [Trie.proximityDocs, List.mem_filter]
  · exact List.Pairwise.sublist (List.filter_sublist _) (List.pairwise_lt_range _)

theorem proximitySearch_spec_witness :
    positionedIndex.isIndexed (stem "alpha".toList) = true ∧
    positionedIndex.isIndexed (stem "beta".toList) = true ∧
    (∀ fi ∈ positionedIndex.postings (stem "alpha".toList) ++
        positionedIndex.postings (stem "beta".toList), positionsStored fi = true) ∧
    positionedIndex.positionsOf "alpha".toList 0 = [3, 9] ∧
    positionedIndex.positionsOf "beta".toList 0 = [12, 5] ∧
    positionedIndex.proximitySearch "alpha".toList "beta".toList 3 =
      (true, ["doc.txt (distance: 2)".toList]) ∧
    positionedIndex.proximitySearch "alpha".toList "beta".toList 3 =
      (decide (positionedIndex.proximityDocs (stem "alpha".toList) (stem "beta".toList) 3 ≠ []),
        (positionedIndex.proximityDocs (stem "alpha".toList) (stem "beta".toList) 3).map
          (fun d => proximityLine (positionedIndex.getFilename d)
            ((firstPairDistance (positionedIndex.positionsOf (stem "alpha".toList) d)
              (positionedIndex.positionsOf (stem "beta".toList) d) 3).getD 0))) :=
  ⟨by decide, by decide, by decide, by decide, by decide, by decide,
    (proximitySearch_spec positionedIndex "alpha".toList "beta".toList 3
      (by decide) (by decide) (by decide)).1⟩

theorem foldl_append_flatMap {α : Type} (g : α → List (List Char)) (l : List α)
    (a : List (List Char)) :
    l.foldl (fun acc i => acc ++ g i) a = a ++ l.flatMap g := by
  induction l generalizing a with
  | nil => simp
  | cons i l ih => simp [ih, List.append_assoc]

theorem preorderTerms_nullptr : preorderTerms TrieNode.nullptr = [] := rfl

theorem preorderTerms_of_isNull (n : TrieNode) (h : n.isNull = true) : preorderTerms n = [] := by
  cases n with
  | nullptr => rfl
  | node ch e w f => simp [TrieNode.isNull] at h

theorem collectWords_eq (n : TrieNode) (acc : List (List Char)) :
    collectWords n acc = acc ++ preorderTerms n := by
  induction n generalizing acc with
  | nullptr => simp [collectWords, preorderTerms]
  | node ch e w f ih =>
    simp only [collectWords, preorderTerms]
    have hstep : (fun (acc : List (List Char)) (i : Fin 26) =>
        if (ch i).isNull = true then acc else collectWords (ch i) acc) =
        (fun acc i => acc ++ preorderTerms (ch i)) := by
      funext acc i
      by_cases hn : (ch i).isNull = true
      · simp [hn, preorderTerms_of_isNull _ hn]
      · simp [hn, ih i acc]
    rw [hstep, foldl_append_flatMap]
    cases e <;> simp

theorem take_append_sub (a b : List (List Char)) (k : Nat) (h : a.length < k) :
    (a ++ b).take k = a ++ b.take (k - a.length) := by
  rw [List.take_append_eq_append_take, List.take_of_length_le (Nat.le_of_lt h)]

theorem findAllWords_loop (ch : Fin 26 → TrieNode)
    (ih : ∀ i acc, findAllWords (ch i) acc =
      acc ++ (preorderTerms (ch i)).take (MAX_SUGGESTIONS - acc.length))
    (l : List (Fin 26)) (a : List (List Char)) :
    (l.foldl
      (fun (st : List (List Char) × Bool) i =>
        if st.2 then st
        else if (ch i).isNull then st
        else (findAllWords (ch i) st.1,
          decide ((findAllWords (ch i) st.1).length ≥ MAX_SUGGESTIONS)))
      (a, false)).1 =
      a ++ (l.flatMap (fun i => preorderTerms (ch i))).take (MAX_SUGGESTIONS - a.length) := by
  have hstop : ∀ (l : List (Fin 26)) (a : List (List Char)),
      l.foldl
        (fun (st : List (List Char) × Bool) i =>
          if st.2 then st
          else if (ch i).isNull then st
          else (findAllWords (ch i) st.1,
            decide ((findAllWords (ch i) st.1).length ≥ MAX_SUGGESTIONS)))
        (a, true) = (a, true) := by
    intro l
    induction l with
    | nil => intro a; rfl
    | cons i l ihl => intro a; simp only [List.foldl_cons, if_true]; exact ihl a
  induction l generalizing a with
  | nil => simp
  | cons i l ihl =>
    simp only [List.foldl_cons, Bool.false_eq_true, if_false, List.flatMap_cons]
    by_cases hn : (ch i).isNull = true
    · simp only [hn, if_true, preorderTerms_of_isNull _ hn, List.nil_append]
      exact ihl a
    · simp only [hn, if_false]
      rw [ih i a]
      simp only [Bool.false_eq_true, if_false]
      by_cases hfull : (a ++ (preorderTerms (ch i)).take (MAX_SUGGESTIONS - a.length)).length ≥
          MAX_SUGGESTIONS
      · simp only [hfull, decide_True]
        rw [hstop]
        simp only
        congr 1
        simp only [List.length_append, List.length_take] at hfull
        by_cases ha : MAX_SUGGESTIONS ≤ a.length
        · have : MAX_SUGGESTIONS - a.length = 0 := by omega
          simp [this]
        · have hle : MAX_SUGGESTIONS - a.length ≤ (preorderTerms (ch i)).length := by omega
          rw [List.take_append_of_le_length hle]
      · simp only [hfull, decide_False]
        rw [ihl]
        simp only [List.length_append, List.length_take, ge_iff_le, not_le] at hfull
        have hlt : (preorderTerms (ch i)).length < MAX_SUGGESTIONS - a.length := by omega
        rw [List.take_of_length_le (Nat.le_of_lt hlt), List.append_assoc]
        congr 1
        rw [take_append_sub _ _ _ hlt]
        congr 2
        simp only [List.length_append]
        omega

theorem findAllWords_eq (n : TrieNode) (acc : List (List Char)) :
    findAllWords n acc = acc ++ (preorderTerms n).take (MAX_SUGGESTIONS - acc.length) := by
  induction n generalizing acc with
  | nullptr => simp [findAllWords, preorderTerms]
  | node ch e w f ih =>
    simp only [findAllWords, preorderTerms]
    rw [findAllWords_loop ch ih]
    by_cases hlen : acc.length < MAX_SUGGESTIONS
    · cases e with
      | false => simp
      | true =>
        simp only [Bool.true_and, hlen, decide_True, if_true, List.append_assoc,
          List.length_append, List.length_singleton, List.singleton_append]
        congr 1
        have : MAX_SUGGESTIONS - acc.length = (MAX_SUGGESTIONS - (acc.length + 1)) + 1 := by omega
        rw [this, List.take_succ_cons]
    · have h0 : MAX_SUGGESTIONS - acc.length = 0 := by omega
      simp [hlen, h0]

/-- C15: the capped enumeration `findAllWords` from the root returns the first
min(50, T) canonical terms of the uncapped pre-order traversal over child edges in
ascending letter order, T being the number of terminal nodes; when T exceeds 50 it
returns exactly 50 terms. -/
theorem findAllWords_take (T : Trie) :
    findAllWords T.root [] = (preorderTerms T.root).take MAX_SUGGESTIONS ∧
    (findAllWords T.root []).length = min MAX_SUGGESTIONS (preorderTerms T.root).length ∧
    ((preorderTerms T.root).length > MAX_SUGGESTIONS →
      (findAllWords T.root []).length = MAX_SUGGESTIONS) ∧
    collectWords T.root [] = preorderTerms T.root := by
  have h : findAllWords T.root [] = (preorderTerms T.root).take MAX_SUGGESTIONS := by
    rw [findAllWords_eq]; simp
  refine ⟨h, ?_, ?_, ?_⟩
  · rw [h, List.length_take]
  · intro hT
    rw [h, List.length_take]
    omega
  · rw [collectWords_eq]; simp

/-- C16 (code evaluated at the failing input): on the index of a document with 51 distinct
words beginning with "a", `autocomplete("a")` returns 51 suggestions, one more than
`MAX_SUGGESTIONS`, while the capped enumeration `findAllWords` stops at 50. -/
theorem autocomplete_exceeds_capacity :
    manyWords.length = 51 ∧
    (manyWordsIndex.autocomplete "a".toList).1 = true ∧
    (manyWordsIndex.autocomplete "a".toList).2.length = 51 ∧
    MAX_SUGGESTIONS < (manyWordsIndex.autocomplete "a".toList).2.length ∧
    (findAllWords manyWordsIndex.root []).length = MAX_SUGGESTIONS := by
  decide

theorem preorderTerms_eq_map_collectPaths (n : TrieNode) :
    preorderTerms n = (collectPaths n).map (fun q => (descend n q).word) := by
  induction n with
  | nullptr => rfl
  | node ch e w f ih =>
    simp only [preorderTerms, collectPaths, List.map_append, List.map_flatMap, List.map_map]
    congr 1
    · cases e <;> rfl
    · congr 1
      funext i
      rw [ih i]
      rfl

theorem mem_collectPaths (n : TrieNode) (q : List (Fin 26)) :
    q ∈ collectPaths n ↔ (descend n q).isEndOfWord = true := by
  induction n generalizing q with
  | nullptr => simp [collectPaths, descend_nullptr, TrieNode.isEndOfWord]
  | node ch e w f ih =>
    simp only [collectPaths, List.mem_append, List.mem_flatMap, List.mem_map, List.mem_finRange,
      true_and]
    cases q with
    | nil =>
      cases e <;> simp [descend, TrieNode.isEndOfWord]
    | cons j q =>
      have h0 : ¬ (j :: q ∈ (if e = true then [[]] else ([] : List (List (Fin 26))))) := by
        cases e <;> simp
      simp only [h0, false_or, descend, TrieNode.child]
      constructor
      · rintro ⟨i, q', hq', he⟩
        obtain ⟨rfl, rfl⟩ := List.cons.inj he
        exact (ih i q').mp hq'
      · intro h
        exact ⟨j, q, (ih j q).mpr h, rfl⟩

theorem cons_lt_cons_self (i : Fin 26) (a b : List (Fin 26))
    (h : List.Lex (fun x y => x < y) a b) : List.Lex (fun x y => x < y) (i :: a) (i :: b) :=
  List.Lex.cons h

theorem pairwise_collectPaths (n : TrieNode) :
    (collectPaths n).Pairwise (List.Lex (fun x y => x < y)) := by
  induction n with
  | nullptr => exact List.Pairwise.nil
  | node ch e w f ih =>
    simp only [collectPaths]
    rw [List.pairwise_append]
    refine ⟨by cases e <;> simp, ?_, ?_⟩
    · rw [List.pairwise_flatMap]
      constructor
      · intro i _
        rw [List.pairwise_map]
        exact List.Pairwise.imp (fun h => cons_lt_cons_self i _ _ h) (ih i)
      · apply List.Pairwise.imp _ (List.pairwise_lt_finRange 26)
        intro i j hij x hx y hy
        obtain ⟨x', _, rfl⟩ := List.mem_map.mp hx
        obtain ⟨y', _, rfl⟩ := List.mem_map.mp hy
        exact List.Lex.rel hij
    · intro a ha b hb
      have ha2 : a = [] := by
        cases e
        · simp at ha
        · simpa using ha
      subst ha2
      obtain ⟨i, _, hb2⟩ := List.mem_flatMap.mp hb
      obtain ⟨q, _, rfl⟩ := List.mem_map.mp hb2
      exact List.Lex.nil

theorem descend_append (n : TrieNode) (p q : List (Fin 26)) :
    descend n (p ++ q) = descend (descend n p) q := by
  induction p generalizing n with
  | nil => rfl
  | cons i p ih => exact ih _

theorem toNat_pathChar (i : Fin 26) : (pathChar i).toNat = 97 + i.val := by
  unfold pathChar
  have h : 'a'.toNat = 97 := rfl
  rw [h]
  exact toNat_ofNat_small _ (by omega)

theorem pathChar_lt (i j : Fin 26) (h : i < j) : pathChar i < pathChar j := by
  have hi := toNat_pathChar i
  have hj := toNat_pathChar j
  have hlt : (pathChar i).toNat < (pathChar j).toNat := by
    rw [hi, hj]
    have : i.val < j.val := h
    omega
  rw [Char.lt_def]
  simpa [Char.toNat, UInt32.lt_def, BitVec.lt_def, UInt32.toNat] using hlt

theorem pathWord_lt (a b : List (Fin 26)) (h : List.Lex (fun x y => x < y) a b) :
    List.Lex (fun x y => x < y) (pathWord a) (pathWord b) := by
  induction h with
  | nil => exact List.Lex.nil
  | cons _ ih => exact List.Lex.cons ih
  | rel hab => exact List.Lex.rel (pathChar_lt _ _ hab)

theorem append_lt_append_left (p a b : List Char) (h : List.Lex (fun x y => x < y) a b) :
    List.Lex (fun x y => x < y) (p ++ a) (p ++ b) := by
  induction p with
  | nil => exact h
  | cons c p ih => exact List.Lex.cons ih

theorem pathChar_childIndex (c : Char) (h : c.isAlpha = true) :
    pathChar (childIndex c.toLower) = c.toLower := by
  apply char_eq_of_toNat_eq
  rw [toNat_pathChar, childIndex_val c h]
  have := toLower_range c h
  omega

theorem pathWord_letterPath (s : List Char) (hs : ∀ c ∈ s, c.isAlpha = true) :
    pathWord (letterPath s) = s.map Char.toLower := by
  induction s with
  | nil => rfl
  | cons c s ih =>
    have hc := hs c (List.mem_cons_self _ _)
    rw [letterPath_cons_alpha c s hc]
    simp only [pathWord, List.map_cons] at ih ⊢
    rw [pathChar_childIndex c hc, ih (fun x hx => hs x (List.mem_cons_of_mem _ hx))]

theorem toLower_of_isLower (c : Char) (h : c.isLower = true) : c.toLower = c := by
  apply char_eq_of_toNat_eq
  rw [toNat_toLower]
  rw [isLower_iff] at h
  split <;> omega

theorem isAlpha_of_isLower (c : Char) (h : c.isLower = true) : c.isAlpha = true := by
  simp [Char.isAlpha, h]

theorem map_toLower_of_isLower (s : List Char) (hs : ∀ c ∈ s, c.isLower = true) :
    s.map Char.toLower = s := by
  induction s with
  | nil => rfl
  | cons c s ih =>
    rw [List.map_cons, toLower_of_isLower c (hs c (List.mem_cons_self _ _)),
      ih (fun x hx => hs x (List.mem_cons_of_mem _ hx))]

theorem pathWord_letterPath_of_isLower (s : List Char) (hs : ∀ c ∈ s, c.isLower = true) :
    pathWord (letterPath s) = s := by
  rw [pathWord_letterPath s (fun c hc => isAlpha_of_isLower c (hs c hc)),
    map_toLower_of_isLower s hs]

theorem letterPath_append (a b : List Char) :
    letterPath (a ++ b) = letterPath a ++ letterPath b := by
  simp [letterPath]

theorem letterPath_map_toLower (s : List Char) :
    letterPath (s.map Char.toLower) = letterPath s := by
  induction s with
  | nil => rfl
  | cons c s ih =>
    simp only [List.map_cons]
    cases h : c.isAlpha
    · rw [letterPath_cons_nonalpha c s h,
        letterPath_cons_nonalpha _ _ (by rw [isAlpha_toLower]; exact h), ih]
    · rw [letterPath_cons_alpha c s h,
        letterPath_cons_alpha _ _ (by rw [isAlpha_toLower]; exact h), ih, toLower_toLower]

theorem isEnd_false_of_view_nullptr (q : List (Fin 26)) :
    (descend TrieNode.nullptr q).view.isEnd = false := by
  rw [descend_nullptr]; rfl

theorem eq_nullptr_of_isNull (n : TrieNode) (h : n.isNull = true) : n = TrieNode.nullptr := by
  cases n with
  | nullptr => rfl
  | node ch e w f => simp [TrieNode.isNull] at h

theorem wordInv_foldl_insert (ops : List (List Char × Nat)) (T : Trie)
    (hops : ∀ op ∈ ops, ∀ c ∈ op.1, c.isLower = true) (hT : T.root.isNull = false)
    (hinv : ∀ q, ((descend T.root q).view.isEnd = true →
        (descend T.root q).view.word = pathWord q) ∧
      ((descend T.root q).view.isEnd = false → (descend T.root q).view.word = [])) :
    ∀ q, ((descend (ops.foldl (fun T op => T.insert op.1 op.2) T).root q).view.isEnd = true →
        (descend (ops.foldl (fun T op => T.insert op.1 op.2) T).root q).view.word = pathWord q) ∧
      ((descend (ops.foldl (fun T op => T.insert op.1 op.2) T).root q).view.isEnd = false →
        (descend (ops.foldl (fun T op => T.insert op.1 op.2) T).root q).view.word = []) := by
  induction ops generalizing T with
  | nil => exact hinv
  | cons op ops ih =>
    rw [List.foldl_cons]
    apply ih _ (fun o ho => hops o (List.mem_cons_of_mem _ ho)) (insert_root_isNull T _ _ hT)
    intro q
    have hop := hops op (List.mem_cons_self _ _)
    rw [view_descend_insert _ _ _ _ hT]
    by_cases hq : q = letterPath op.1
    · subst hq
      rw [if_pos rfl]
      refine ⟨fun _ => ?_, fun h => absurd h (by simp [markView])⟩
      show (if _ then _ else _) = _
      have hw := pathWord_letterPath_of_isLower op.1 hop
      cases he : (descend T.root (letterPath op.1)).view.isEnd with
      | true =>
        have h1 := (hinv (letterPath op.1)).1 he
        rw [h1, hw]
        split <;> rfl
      | false =>
        have h1 := (hinv (letterPath op.1)).2 he
        rw [h1, hw]
        simp
    · simp only [hq, if_false]
      exact hinv q

theorem wordInv_buildIndex (ops : List (List Char × Nat))
    (hops : ∀ op ∈ ops, ∀ c ∈ op.1, c.isLower = true) (q : List (Fin 26))
    (h : (descend (buildIndex ops).root q).view.isEnd = true) :
    (descend (buildIndex ops).root q).view.word = pathWord q := by
  refine (wordInv_foldl_insert ops Trie.empty hops Trie.empty_root_isNull ?_ q).1 h
  intro q
  have hv : (descend Trie.empty.root q).view = ⟨false, [], []⟩ := descend_newTrieNode_view q
  rw [hv]
  exact ⟨fun h => Bool.noConfusion h, fun _ => rfl⟩

theorem isEnd_buildIndex (ops : List (List Char × Nat)) (q : List (Fin 26)) :
    (descend (buildIndex ops).root q).view.isEnd = true ↔ ∃ op ∈ ops, letterPath op.1 = q := by
  unfold buildIndex
  rw [isEnd_foldl_insert ops _ _ Trie.empty_root_isNull]
  have h0 : (descend Trie.empty.root q).view.isEnd = false := by
    show (descend newTrieNode _).view.isEnd = false
    rw [descend_newTrieNode_view]
  simp [h0]

theorem lex_char_irrefl (a : List Char) : ¬ List.Lex (fun x y => x < y) a a := by
  intro h
  induction a with
  | nil => cases h
  | cons c a ih =>
    cases h with
    | cons h => exact ih h
    | rel h =>
      rw [Char.lt_def] at h
      simp [UInt32.lt_def, BitVec.lt_def] at h

/-- Result of `autocomplete` on an index built by inserting lowercase terms, for an
alphabetic query. -/
theorem autocomplete_built (ops : List (List Char × Nat)) (p : List Char)
    (hops : ∀ op ∈ ops, ∀ c ∈ op.1, c.isLower = true) (hp : ∀ c ∈ p, c.isAlpha = true) :
    ((buildIndex ops).autocomplete p).2.Pairwise (List.Lex (fun x y => x < y)) ∧
    (∀ t, t ∈ ((buildIndex ops).autocomplete p).2 ↔
      (∃ op ∈ ops, op.1 = t) ∧ p.map Char.toLower <+: t) ∧
    ((buildIndex ops).autocomplete p).1 = decide (((buildIndex ops).autocomplete p).2 ≠ []) := by
  have hroot : (buildIndex ops).root.isNull = false :=
    foldl_insert_isNull ops _ Trie.empty_root_isNull
  have hterm : ∀ op ∈ ops, p.map Char.toLower <+: op.1 →
      ∃ r, op.1 = p.map Char.toLower ++ r ∧ (∀ c ∈ r, c.isLower = true) ∧
        (descend (descend (buildIndex ops).root (letterPath p)) (letterPath r)).view.isEnd =
          true := by
    intro op hop hpre
    obtain ⟨r, hr⟩ := hpre
    have hrl : ∀ c ∈ r, c.isLower = true := by
      intro c hc
      exact hops op hop c (by rw [← hr]; exact List.mem_append_right _ hc)
    refine ⟨r, hr.symm, hrl, ?_⟩
    rw [← descend_append, isEnd_buildIndex]
    refine ⟨op, hop, ?_⟩
    rw [← hr, letterPath_append, letterPath_map_toLower]
  unfold Trie.autocomplete
  rw [walk_eq_descend p _ hp hroot]
  by_cases hnull : (descend (buildIndex ops).root (letterPath p)).isNull = true
  · simp only [hnull, if_true]
    refine ⟨List.Pairwise.nil, fun t => ?_, by simp⟩
    simp only [List.not_mem_nil, false_iff, not_and]
    rintro ⟨op, hop, rfl⟩ hpre
    obtain ⟨r, _, _, hend⟩ := hterm op hop hpre
    rw [eq_nullptr_of_isNull _ hnull, isEnd_false_of_view_nullptr] at hend
    cases hend
  · simp only [hnull, Bool.false_eq_true, if_false]
    have hR : collectWords (descend (buildIndex ops).root (letterPath p)) [] =
        (collectPaths (descend (buildIndex ops).root (letterPath p))).map
          (fun q => p.map Char.toLower ++ pathWord q) := by
      rw [collectWords_eq, List.nil_append, preorderTerms_eq_map_collectPaths]
      apply List.map_congr_left
      intro q hq
      have hend := (mem_collectPaths _ q).mp hq
      rw [← descend_append] at hend ⊢
      have := wordInv_buildIndex ops hops (letterPath p ++ q) hend
      simp only [TrieNode.view] at this
      rw [this, pathWord, List.map_append]
      show pathWord (letterPath p) ++ pathWord q = _
      rw [pathWord_letterPath p hp]
    rw [hR]
    refine ⟨?_, fun t => ?_, ?_⟩
    · rw [List.pairwise_map]
      exact List.Pairwise.imp
        (fun h => append_lt_append_left _ _ _ (pathWord_lt _ _ h)) (pairwise_collectPaths _)
    · rw [List.mem_map]
      constructor
      · rintro ⟨q, hq, rfl⟩
        have hend := (mem_collectPaths _ q).mp hq
        rw [← descend_append] at hend
        obtain ⟨op, hop, hpath⟩ := (isEnd_buildIndex ops _).mp hend
        refine ⟨⟨op, hop, ?_⟩, List.prefix_append _ _⟩
        have h1 := pathWord_letterPath_of_isLower op.1 (hops op hop)
        rw [hpath] at h1
        rw [← h1]
        show pathWord (letterPath p ++ q) = _
        rw [pathWord, List.map_append]
        show pathWord (letterPath p) ++ pathWord q = _
        rw [pathWord_letterPath p hp]
      · rintro ⟨⟨op, hop, rfl⟩, hpre⟩
        obtain ⟨r, hr, hrl, hend⟩ := hterm op hop hpre
        refine ⟨letterPath r, (mem_collectPaths _ _).mpr hend, ?_⟩
        rw [pathWord_letterPath_of_isLower r hrl, hr]
    · cases (collectPaths (descend (buildIndex ops).root (letterPath p))) <;> simp

theorem walk_none_of_nonalpha (s : List Char) (current : TrieNode)
    (h : ∃ c ∈ s, c.isAlpha = false) : walk current s = none := by
  induction s generalizing current with
  | nil => simp at h
  | cons c s ih =>
    simp only [walk]
    cases hc : c.isAlpha with
    | false => simp [isAlpha_toLower, hc]
    | true =>
      simp only [isAlpha_toLower, hc, Bool.not_true, Bool.false_eq_true, if_false]
      have hs : ∃ x ∈ s, x.isAlpha = false := by
        obtain ⟨x, hx, hxa⟩ := h
        rcases List.mem_cons.mp hx with e | hm
        · subst e; rw [hc] at hxa; cases hxa
        · exact ⟨x, hm, hxa⟩
      cases current.child (childIndex c.toLower) with
      | nullptr => rfl
      | node ch e w f => exact ih _ hs

/-- C17: on an index built by inserting lowercase alphabetic terms, for an alphabetic
prefix `p` with at most 50 distinct inserted terms below it, `autocomplete(p)` (which
does not stem `p`) returns exactly the inserted terms having the lowercased `p` as a
prefix, each once, in strictly ascending lexicographic order, within the capacity of
the output array, and returns true iff that list is non-empty. -/
theorem autocomplete_spec (ops : List (List Char × Nat)) (p : List Char)
    (hops : ∀ op ∈ ops, ∀ c ∈ op.1, c.isLower = true) (hp : ∀ c ∈ p, c.isAlpha = true)
    (hcap : (((ops.map (fun op => op.1)).dedup).filter
      (fun t => decide (p.map Char.toLower <+: t))).length ≤ MAX_SUGGESTIONS) :
    ((buildIndex ops).autocomplete p).2.Pairwise (List.Lex (fun x y => x < y)) ∧
    ((buildIndex ops).autocomplete p).2.Nodup ∧
    (∀ t, t ∈ ((buildIndex ops).autocomplete p).2 ↔
      (∃ op ∈ ops, op.1 = t) ∧ p.map Char.toLower <+: t) ∧
    ((buildIndex ops).autocomplete p).1 = decide (((buildIndex ops).autocomplete p).2 ≠ []) ∧
    ((buildIndex ops).autocomplete p).2.length ≤ MAX_SUGGESTIONS := by
  obtain ⟨hpw, hmem, hbool⟩ := autocomplete_built ops p hops hp
  have hnd : ((buildIndex ops).autocomplete p).2.Nodup := by
    apply List.Pairwise.imp _ hpw
    intro a b hab e
    subst e
    exact lex_char_irrefl a hab
  refine ⟨hpw, hnd, hmem, hbool, ?_⟩
  have hperm : ((buildIndex ops).autocomplete p).2.Perm
      (((ops.map (fun op => op.1)).dedup).filter
        (fun t => decide (p.map Char.toLower <+: t))) := by
    rw [List.perm_ext_iff_of_nodup hnd (List.Nodup.filter _ (List.nodup_dedup _))]
    intro t
    rw [hmem t]
    simp only [List.mem_filter, List.mem_dedup, List.mem_map, decide_eq_true_eq]
  rw [hperm.length_eq]
  exact hcap

theorem autocomplete_spec_witness :
    (∀ op ∈ sampleInserts, ∀ c ∈ op.1, c.isLower = true) ∧
    (∀ c ∈ "Ca".toList, c.isAlpha = true) ∧
    (((sampleInserts.map (fun op => op.1)).dedup).filter
      (fun t => decide ("Ca".toList.map Char.toLower <+: t))).length ≤ MAX_SUGGESTIONS ∧
    (buildIndex sampleInserts).autocomplete "Ca".toList =
      (true, ["car".toList, "cart".toList, "cat".toList]) ∧
    (buildIndex sampleInserts).autocomplete "cats".toList = (false, []) ∧
    ((buildIndex sampleInserts).autocomplete "Ca".toList).2.Pairwise
      (List.Lex (fun x y => x < y)) :=
  ⟨by decide, by decide, by decide, by decide, by decide,
    (autocomplete_spec sampleInserts "Ca".toList (by decide) (by decide) (by decide)).1⟩

/-- C18: `partialSearch` is the same left-anchored walk as `autocomplete`: both return
the same boolean and the same ordered list for every query; on an index built from
lowercase terms a query that is a prefix of no inserted term matches nothing, even when
it is an infix of one ("at" in "cat"). -/
theorem partialSearch_eq_autocomplete :
    (∀ (T : Trie) (query : List Char), query.length < MAX_WORD_LENGTH →
      T.partialSearch query = T.autocomplete query) ∧
    (∀ (ops : List (List Char × Nat)) (query : List Char),
      (∀ op ∈ ops, ∀ c ∈ op.1, c.isLower = true) →
      (¬ ∃ op ∈ ops, query.map Char.toLower <+: op.1) →
      (buildIndex ops).partialSearch query = (false, [])) ∧
    (buildIndex sampleInserts).partialSearch "at".toList = (false, []) ∧
    (buildIndex sampleInserts).partialSearch "ca".toList =
      (true, ["car".toList, "cart".toList, "cat".toList]) := by
  refine ⟨fun _ _ _ => rfl, ?_, by decide, by decide⟩
  intro ops query hops hno
  show (buildIndex ops).autocomplete query = (false, [])
  by_cases hq : ∀ c ∈ query, c.isAlpha = true
  · obtain ⟨_, hmem, hbool⟩ := autocomplete_built ops query hops hq
    have hnil : ((buildIndex ops).autocomplete query).2 = [] := by
      apply List.eq_nil_iff_forall_not_mem.mpr
      intro t ht
      obtain ⟨⟨op, hop, rfl⟩, hpre⟩ := (hmem t).mp ht
      exact hno ⟨op, hop, hpre⟩
    rw [hnil] at hbool
    exact Prod.ext (by rw [hbool]; simp) hnil
  · have hna : ∃ c ∈ query, c.isAlpha = false := by
      by_contra hc
      apply hq
      intro c hcq
      cases h : c.isAlpha
      · exact absurd ⟨c, hcq, h⟩ hc
      · rfl
    unfold Trie.autocomplete
    rw [walk_none_of_nonalpha _ _ hna]

theorem bubblePass_filter (k : Nat) (l : List WordDistance) (d : Nat) :
    (bubblePass k l).filter (fun wd => decide (wd.distance = d)) =
      l.filter (fun wd => decide (wd.distance = d)) := by
  induction k generalizing l with
  | zero => rfl
  | succ k ih =>
    match l with
    | [] => rfl
    | [a] => rfl
    | a :: b :: rest =>
      simp only [bubblePass]
      by_cases hgt : a.distance > b.distance
      · simp only [hgt, if_true, List.filter_cons, ih]
        by_cases ha : a.distance = d
        · have hb : ¬ b.distance = d := by omega
          simp [ha, hb]
        · simp [ha]
      · simp only [hgt, if_false, List.filter_cons, ih]

theorem bubblePass_perm (k : Nat) (l : List WordDistance) : (bubblePass k l).Perm l := by
  induction k generalizing l with
  | zero => exact List.Perm.refl _
  | succ k ih =>
    match l with
    | [] => exact List.Perm.refl _
    | [a] => exact List.Perm.refl _
    | a :: b :: rest =>
      simp only [bubblePass]
      by_cases hgt : a.distance > b.distance
      · simp only [hgt, if_true]
        exact ((ih (a :: rest)).cons b).trans (List.Perm.swap a b rest)
      · simp only [hgt, if_false]
        exact (ih (b :: rest)).cons a

theorem bubblePass_append (k : Nat) (front back : List WordDistance)
    (h : k + 1 ≤ front.length) :
    bubblePass k (front ++ back) = bubblePass k front ++ back := by
  induction k generalizing front with
  | zero => rfl
  | succ k ih =>
    match front, h with
    | a :: b :: rest, h =>
      simp only [List.cons_append, bubblePass]
      have hlen : ∀ x : WordDistance, k + 1 ≤ (x :: rest).length := by
        intro x
        simp only [List.length_cons] at h ⊢
        omega
      by_cases hgt : a.distance > b.distance
      · simp only [hgt, if_true]
        have := ih (a :: rest) (hlen a)
        rw [List.cons_append] at this
        change b :: bubblePass k (a :: (rest ++ back)) = _
        rw [this]
        rfl
      · simp only [hgt, if_false]
        have := ih (b :: rest) (hlen b)
        rw [List.cons_append] at this
        change a :: bubblePass k (b :: (rest ++ back)) = _
        rw [this]
        rfl
    | [a], h => simp at h
    | [], h => simp at h

theorem bubblePass_last (k : Nat) (l : List WordDistance) (h : l.length = k + 1) :
    ∃ init m, bubblePass k l = init ++ [m] ∧ ∀ x ∈ init, x.distance ≤ m.distance := by
  induction k generalizing l with
  | zero =>
    match l, h with
    | [a], _ => exact ⟨[], a, rfl, fun x hx => by cases hx⟩
  | succ k ih =>
    match l, h with
    | a :: b :: rest, h =>
      have hlen : ∀ x : WordDistance, (x :: rest).length = k + 1 := by
        intro x
        simp only [List.length_cons] at h ⊢
        omega
      simp only [bubblePass]
      by_cases hgt : a.distance > b.distance
      · simp only [hgt, if_true]
        obtain ⟨init, m, he, hle⟩ := ih (a :: rest) (hlen a)
        refine ⟨b :: init, m, by rw [he]; rfl, ?_⟩
        intro x hx
        rcases List.mem_cons.mp hx with e | hm
        · subst e
          have hmem : a ∈ init ++ [m] := by
            have := (bubblePass_perm k (a :: rest)).mem_iff.mpr (List.mem_cons_self a rest)
            rwa [he] at this
          rcases List.mem_append.mp hmem with h1 | h1
          · have := hle a h1; omega
          · have := List.mem_singleton.mp h1; subst this; omega
        · exact hle x hm
      · simp only [hgt, if_false]
        obtain ⟨init, m, he, hle⟩ := ih (b :: rest) (hlen b)
        refine ⟨a :: init, m, by rw [he]; rfl, ?_⟩
        intro x hx
        rcases List.mem_cons.mp hx with e | hm
        · subst e
          have hmem : b ∈ init ++ [m] := by
            have := (bubblePass_perm k (b :: rest)).mem_iff.mpr (List.mem_cons_self b rest)
            rwa [he] at this
          rcases List.mem_append.mp hmem with h1 | h1
          · have := hle b h1; omega
          · have := List.mem_singleton.mp h1; subst this; omega
        · exact hle x hm

/-- State of the array after `m` passes of the bubble sort on `n` elements: the last `m`
elements are sorted and no smaller than the others. -/
theorem bubbleSort_passes (n : Nat) (l : List WordDistance) (hl : l.length = n) (m : Nat)
    (hm : m ≤ n - 1) :
    ∃ front back, (List.range m).foldl (fun l i => bubblePass (n - i - 1) l) l = front ++ back ∧
      front.length = n - m ∧ back.length = m ∧
      back.Pairwise (fun a b => a.distance ≤ b.distance) ∧
      ∀ x ∈ front, ∀ y ∈ back, x.distance ≤ y.distance := by
  induction m with
  | zero =>
    exact ⟨l, [], by simp, by simpa using hl, rfl, List.Pairwise.nil, fun _ _ y hy => by cases hy⟩
  | succ m ih =>
    obtain ⟨front, back, he, hfl, hbl, hsorted, hfb⟩ := ih (by omega)
    rw [List.range_succ, List.foldl_append, List.foldl_cons, List.foldl_nil, he]
    have hk : (n - m - 1) + 1 ≤ front.length := by omega
    rw [bubblePass_append _ _ _ hk]
    obtain ⟨init, mx, hb, hle⟩ := bubblePass_last (n - m - 1) front (by omega)
    have hperm := bubblePass_perm (n - m - 1) front
    rw [hb] at hperm ⊢
    have hmx : mx ∈ front := hperm.mem_iff.mp (by simp)
    have hinit : ∀ x ∈ init, x ∈ front := fun x hx => hperm.mem_iff.mp (by simp [hx])
    refine ⟨init, mx :: back, by simp, ?_, by simp [hbl], ?_, ?_⟩
    · have := hperm.length_eq
      simp only [List.length_append, List.length_singleton] at this
      omega
    · exact List.Pairwise.cons (fun y hy => hfb mx hmx y hy) hsorted
    · intro x hx y hy
      rcases List.mem_cons.mp hy with e | hy2
      · subst e; exact hle x hx
      · exact hfb x (hinit x hx) y hy2

theorem bubbleSort_sorted (l : List WordDistance) :
    (bubbleSort l).Pairwise (fun a b => a.distance ≤ b.distance) := by
  unfold bubbleSort
  obtain ⟨front, back, he, hfl, hbl, hsorted, hfb⟩ :=
    bubbleSort_passes l.length l rfl (l.length - 1) (Nat.le_refl _)
  rw [he, List.pairwise_append]
  refine ⟨?_, hsorted, hfb⟩
  have h1 : front.length ≤ 1 := by omega
  match front, h1 with
  | [], _ => exact List.Pairwise.nil
  | [a], _ => exact List.pairwise_singleton _ _

theorem foldl_bubblePass_filter (n : Nat) (is : List Nat) (l : List WordDistance) (d : Nat) :
    (is.foldl (fun l i => bubblePass (n - i - 1) l) l).filter
        (fun wd => decide (wd.distance = d)) =
      l.filter (fun wd => decide (wd.distance = d)) := by
  induction is generalizing l with
  | nil => rfl
  | cons i is ih => rw [List.foldl_cons, ih, bubblePass_filter]

theorem foldl_bubblePass_perm (n : Nat) (is : List Nat) (l : List WordDistance) :
    (is.foldl (fun l i => bubblePass (n - i - 1) l) l).Perm l := by
  induction is generalizing l with
  | nil => exact List.Perm.refl _
  | cons i is ih => rw [List.foldl_cons]; exact (ih _).trans (bubblePass_perm _ _)

theorem bubbleSort_filter (l : List WordDistance) (d : Nat) :
    (bubbleSort l).filter (fun wd => decide (wd.distance = d)) =
      l.filter (fun wd => decide (wd.distance = d)) :=
  foldl_bubblePass_filter _ _ _ _

theorem bubbleSort_perm (l : List WordDistance) : (bubbleSort l).Perm l :=
  foldl_bubblePass_perm _ _ _

theorem lev_nil_nil : lev [] [] = 0 := by
  simp [lev]

theorem lev_nil_cons (y : Char) (ys : List Char) : lev [] (y :: ys) = 1 + lev [] ys := by
  simp [lev, levenshtein_nil_cons]

theorem lev_cons_nil (x : Char) (xs : List Char) : lev (x :: xs) [] = 1 + lev xs [] := by
  simp [lev, levenshtein_cons_nil]

theorem lev_cons_cons (x : Char) (xs : List Char) (y : Char) (ys : List Char) :
    lev (x :: xs) (y :: ys) =
      min (1 + lev xs (y :: ys))
        (min (1 + lev (x :: xs) ys) ((if x = y then 0 else 1) + lev xs ys)) := by
  simp [lev, levenshtein_cons_cons]

theorem lev_nil_left (b : List Char) : lev [] b = b.length := by
  induction b with
  | nil => exact lev_nil_nil
  | cons y ys ih => rw [lev_nil_cons, ih, List.length_cons]; omega

theorem lev_nil_right (a : List Char) : lev a [] = a.length := by
  induction a with
  | nil => exact lev_nil_nil
  | cons x xs ih => rw [lev_cons_nil, ih, List.length_cons]; omega

theorem lev_cons_left_le (x : Char) (xs b : List Char) : lev (x :: xs) b ≤ lev xs b + 1 := by
  cases b with
  | nil => rw [lev_cons_nil]; omega
  | cons y ys => rw [lev_cons_cons]; omega

theorem lev_cons_right_le (a : List Char) (y : Char) (b : List Char) :
    lev a (y :: b) ≤ lev a b + 1 := by
  cases a with
  | nil => rw [lev_nil_cons]; omega
  | cons x xs => rw [lev_cons_cons]; omega

theorem lev_le_cons_right (a b : List Char) (c : Char) : lev a b ≤ lev a (c :: b) + 1 := by
  induction a with
  | nil => rw [lev_nil_cons]; omega
  | cons x xs ih =>
    rw [lev_cons_cons]
    have h1 := lev_cons_left_le x xs b
    split <;> omega

theorem lev_le_cons_left (a b : List Char) (c : Char) : lev a b ≤ lev (c :: a) b + 1 := by
  induction b with
  | nil => rw [lev_cons_nil]; omega
  | cons y ys ih =>
    rw [lev_cons_cons]
    have h1 := lev_cons_right_le a y ys
    split <;> omega

theorem lev_cons_cons_self (x : Char) (xs ys : List Char) :
    lev (x :: xs) (x :: ys) = lev xs ys := by
  rw [lev_cons_cons]
  have h1 := lev_le_cons_right xs ys x
  have h2 := lev_le_cons_left xs ys x
  simp only [if_true]
  omega

theorem lev_cons_cons_ne (x : Char) (xs : List Char) (y : Char) (ys : List Char) (h : x ≠ y) :
    lev (x :: xs) (y :: ys) = 1 + min (lev xs (y :: ys)) (min (lev (x :: xs) ys) (lev xs ys)) := by
  rw [lev_cons_cons]
  simp only [h, if_false]
  omega

theorem lev_subst_right_le (a b : List Char) (c d : Char) :
    lev a (d :: b) ≤ lev a (c :: b) + 1 := by
  induction a with
  | nil => rw [lev_nil_cons, lev_nil_cons]; omega
  | cons x xs ih =>
    rw [lev_cons_cons x xs d b, lev_cons_cons x xs c b]
    split <;> split <;> omega

/-- A bound that holds at the end of the second string holds under any common front. -/
theorem lev_context (t u : List Char) (h : ∀ s, lev s u ≤ lev s t + 1) (a : List Char) :
    ∀ s, lev s (a ++ u) ≤ lev s (a ++ t) + 1 := by
  induction a with
  | nil => exact h
  | cons y a iha =>
    intro s
    induction s with
    | nil =>
      simp only [List.cons_append]
      rw [lev_nil_cons, lev_nil_cons]
      have := iha []
      omega
    | cons x xs ihs =>
      simp only [List.cons_append] at ihs ⊢
      rw [lev_cons_cons x xs y (a ++ u), lev_cons_cons x xs y (a ++ t)]
      have h1 := iha (x :: xs)
      have h2 := iha xs
      split <;> omega

theorem lev_step (s t u : List Char) (h : EditStep t u) : lev s u ≤ lev s t + 1 := by
  cases h with
  | insert a b c => exact lev_context b (c :: b) (fun s => lev_cons_right_le s c b) a s
  | delete a b c => exact lev_context (c :: b) b (fun s => lev_le_cons_right s b c) a s
  | substitute a b c d =>
    exact lev_context (c :: b) (d :: b) (fun s => lev_subst_right_le s b c d) a s

theorem lev_self (s : List Char) : lev s s = 0 := by
  induction s with
  | nil => exact lev_nil_nil
  | cons x xs ih => rw [lev_cons_cons_self, ih]

theorem lev_le_of_editsTo (s t : List Char) (n : Nat) (h : EditsTo s t n) : lev s t ≤ n := by
  induction h with
  | refl => rw [lev_self]
  | step _ hstep ih =>
    have := lev_step s _ _ hstep
    omega

theorem editStep_cons (c : Char) (t u : List Char) (h : EditStep t u) :
    EditStep (c :: t) (c :: u) := by
  cases h with
  | insert a b x => exact EditStep.insert (c :: a) b x
  | delete a b x => exact EditStep.delete (c :: a) b x
  | substitute a b x y => exact EditStep.substitute (c :: a) b x y

theorem editsTo_cons (c : Char) (s t : List Char) (n : Nat) (h : EditsTo s t n) :
    EditsTo (c :: s) (c :: t) n := by
  induction h with
  | refl => exact EditsTo.refl _
  | step _ hstep ih => exact EditsTo.step ih (editStep_cons c _ _ hstep)

theorem editsTo_head (s t u : List Char) (n : Nat) (hstep : EditStep s t) (h : EditsTo t u n) :
    EditsTo s u (n + 1) := by
  induction h with
  | refl => exact EditsTo.step (EditsTo.refl s) hstep
  | step _ hstep2 ih => exact EditsTo.step ih hstep2

theorem editsTo_nil_left (b : List Char) : EditsTo [] b b.length := by
  induction b with
  | nil => exact EditsTo.refl _
  | cons y ys ih =>
    exact editsTo_head [] [y] (y :: ys) ys.length (EditStep.insert [] [] y)
      (editsTo_cons y [] ys _ ih)

theorem editsTo_nil_right (a : List Char) : EditsTo a [] a.length := by
  induction a with
  | nil => exact EditsTo.refl _
  | cons x xs ih => exact editsTo_head (x :: xs) xs [] xs.length (EditStep.delete [] xs x) ih

theorem editsTo_lev (s t : List Char) : EditsTo s t (lev s t) := by
  induction s generalizing t with
  | nil => rw [lev_nil_left]; exact editsTo_nil_left t
  | cons x xs ihs =>
    induction t with
    | nil => rw [lev_nil_right]; exact editsTo_nil_right _
    | cons y ys iht =>
      have hdel : EditsTo (x :: xs) (y :: ys) (lev xs (y :: ys) + 1) :=
        editsTo_head _ _ _ _ (EditStep.delete [] xs x) (ihs (y :: ys))
      have hins : EditsTo (x :: xs) (y :: ys) (lev (x :: xs) ys + 1) :=
        editsTo_head _ _ _ _ (EditStep.insert [] (x :: xs) y) (editsTo_cons y _ _ _ iht)
      by_cases hxy : x = y
      · subst hxy
        rw [lev_cons_cons_self]
        exact editsTo_cons x _ _ _ (ihs ys)
      · have hsub : EditsTo (x :: xs) (y :: ys) (lev xs ys + 1) :=
          editsTo_head _ _ _ _ (EditStep.substitute [] xs x y) (editsTo_cons y _ _ _ (ihs ys))
        rw [lev_cons_cons_ne x xs y ys hxy]
        rcases Nat.le_total (lev xs (y :: ys)) (min (lev (x :: xs) ys) (lev xs ys)) with h | h
        · rw [Nat.min_eq_left h, Nat.add_comm]; exact hdel
        · rw [Nat.min_eq_right h]
          rcases Nat.le_total (lev (x :: xs) ys) (lev xs ys) with h2 | h2
          · rw [Nat.min_eq_left h2, Nat.add_comm]; exact hins
          · rw [Nat.min_eq_right h2, Nat.add_comm]; exact hsub

theorem editStep_reverse (t u : List Char) (h : EditStep t u) :
    EditStep t.reverse u.reverse := by
  cases h with
  | insert a b c =>
    have := EditStep.insert b.reverse a.reverse c
    simpa using this
  | delete a b c =>
    have := EditStep.delete b.reverse a.reverse c
    simpa using this
  | substitute a b c d =>
    have := EditStep.substitute b.reverse a.reverse c d
    simpa using this

theorem editsTo_reverse (s t : List Char) (n : Nat) (h : EditsTo s t n) :
    EditsTo s.reverse t.reverse n := by
  induction h with
  | refl => exact EditsTo.refl _
  | step _ hstep ih => exact EditsTo.step ih (editStep_reverse _ _ hstep)

theorem lev_reverse (s t : List Char) : lev s.reverse t.reverse = lev s t := by
  apply Nat.le_antisymm
  · exact lev_le_of_editsTo _ _ _ (editsTo_reverse _ _ _ (editsTo_lev s t))
  · have := lev_le_of_editsTo _ _ _ (editsTo_reverse _ _ _ (editsTo_lev s.reverse t.reverse))
    simpa using this

theorem EditTable.set_WF (dp : EditTable) (r j v : Nat) (h : dp.WF) : (dp.set r j v).WF := by
  unfold EditTable.set EditTable.WF at *
  split <;> simp [h.1, h.2]

theorem EditTable.get_set (dp : EditTable) (h : dp.WF) (r r2 j j2 v : Nat)
    (hr : r < 2) (hr2 : r2 < 2) (hj : j ≤ MAX_WORD_LENGTH) :
    (dp.set r j v).get r2 j2 = if r2 = r ∧ j2 = j then v else dp.get r2 j2 := by
  have h0 : j < dp.row0.length := by rw [h.1]; omega
  have h1 : j < dp.row1.length := by rw [h.2]; omega
  unfold EditTable.set EditTable.get
  by_cases e : r = 0
  · by_cases e2 : r2 = 0
    · subst e; subst e2
      simp only [if_true, true_and]
      exact getD_set_nat _ _ _ _ h0
    · have : ¬ (r2 = r) := by omega
      simp [e, e2, this]
  · by_cases e2 : r2 = 0
    · subst e2
      have : ¬ (0 = r) := by omega
      simp [e, this]
    · have hrr : r2 = r := by omega
      simp only [e, e2, if_false, hrr, true_and]
      exact getD_set_nat _ _ _ _ h1

theorem foldl_range_inv {σ : Type} (f : σ → Nat → σ) (P : Nat → σ → Prop) (s0 : σ) (n : Nat)
    (h0 : P 0 s0) (hstep : ∀ k s, k < n → P k s → P (k + 1) (f s k)) :
    P n ((List.range n).foldl f s0) := by
  have key : ∀ m, m ≤ n → P m ((List.range m).foldl f s0) := by
    intro m
    induction m with
    | zero => intro _; exact h0
    | succ m ih =>
      intro hm
      rw [List.range_succ, List.foldl_append, List.foldl_cons, List.foldl_nil]
      exact hstep m _ (by omega) (ih (by omega))
  exact key n (Nat.le_refl n)

theorem foldl_range'_inv {σ : Type} (f : σ → Nat → σ) (P : Nat → σ → Prop) (s0 : σ) (n : Nat)
    (h0 : P 0 s0) (hstep : ∀ k s, k < n → P k s → P (k + 1) (f s (k + 1))) :
    P n ((List.range' 1 n).foldl f s0) := by
  have key : ∀ m, m ≤ n → P m ((List.range' 1 m).foldl f s0) := by
    intro m
    induction m with
    | zero => intro _; exact h0
    | succ m ih =>
      intro hm
      rw [List.range'_concat, List.foldl_append, List.foldl_cons, List.foldl_nil]
      have := hstep m _ (by omega) (ih (by omega))
      simpa [Nat.add_comm] using this
  exact key n (Nat.le_refl n)

theorem prefixLev_zero_left (s1 s2 : List Char) (j : Nat) (hj : j ≤ s2.length) :
    prefixLev s1 s2 0 j = j := by
  simp [prefixLev, lev_nil_left, hj]

theorem prefixLev_zero_right (s1 s2 : List Char) (i : Nat) (hi : i ≤ s1.length) :
    prefixLev s1 s2 i 0 = i := by
  simp [prefixLev, lev_nil_right, hi]

theorem reverse_take_succ (s : List Char) (i : Nat) (hi : i < s.length) :
    (s.take (i + 1)).reverse = s.getD i ' ' :: (s.take i).reverse := by
  rw [List.take_succ, List.getElem?_eq_getElem hi, List.getD_eq_getElem _ _ hi]
  simp

theorem prefixLev_succ_succ (s1 s2 : List Char) (i j : Nat) (hi : i < s1.length)
    (hj : j < s2.length) :
    prefixLev s1 s2 (i + 1) (j + 1) =
      if s1.getD i ' ' = s2.getD j ' ' then prefixLev s1 s2 i j
      else 1 + min (prefixLev s1 s2 i (j + 1))
        (min (prefixLev s1 s2 (i + 1) j) (prefixLev s1 s2 i j)) := by
  unfold prefixLev
  rw [reverse_take_succ s1 i hi, reverse_take_succ s2 j hj]
  by_cases h : s1.getD i ' ' = s2.getD j ' '
  · rw [if_pos h, h, lev_cons_cons_self]
  · rw [if_neg h, lev_cons_cons_ne _ _ _ _ h]

/-- Effect of one pass of the inner loop of `editDistance`: row `i` of the table is
filled with the distances of the first `i` characters of `s1`, the other row being kept. -/
theorem editRow_spec (s1 s2 : List Char) (i : Nat) (dp : EditTable)
    (hi1 : 1 ≤ i) (hi : i ≤ s1.length) (hlen : s2.length ≤ MAX_WORD_LENGTH) (hwf : dp.WF)
    (hprev : ∀ j, j ≤ s2.length → dp.get ((i - 1) % 2) j = prefixLev s1 s2 (i - 1) j) :
    ((List.range (s2.length + 1)).foldl (editCell s1 s2 i) dp).WF ∧
    ∀ j, j ≤ s2.length →
      ((List.range (s2.length + 1)).foldl (editCell s1 s2 i) dp).get (i % 2) j =
        prefixLev s1 s2 i j := by
  have hr : i % 2 < 2 := Nat.mod_lt _ (by omega)
  have hr2 : (i - 1) % 2 < 2 := Nat.mod_lt _ (by omega)
  have hne : ¬ ((i - 1) % 2 = i % 2) := by omega
  have hne2 : ¬ (i % 2 = (i - 1) % 2) := by omega
  have key := foldl_range_inv (editCell s1 s2 i)
    (fun k dp => dp.WF ∧
      (∀ j, j ≤ s2.length → dp.get ((i - 1) % 2) j = prefixLev s1 s2 (i - 1) j) ∧
      (∀ j, j < k → dp.get (i % 2) j = prefixLev s1 s2 i j))
    dp (s2.length + 1) ⟨hwf, hprev, fun j hj => by omega⟩ ?_
  · exact ⟨key.1, fun j hj => key.2.2 j (by omega)⟩
  · intro k dp hk ⟨hw, hp, hc⟩
    have hk100 : k ≤ MAX_WORD_LENGTH := by omega
    unfold editCell
    by_cases hk0 : k = 0
    · subst hk0
      simp only [if_true]
      refine ⟨EditTable.set_WF _ _ _ _ hw, fun j hj => ?_, fun j hj => ?_⟩
      · rw [EditTable.get_set dp hw _ _ _ _ _ hr hr2 hk100]
        simp only [hne, false_and, if_false]
        exact hp j hj
      · rw [EditTable.get_set dp hw _ _ _ _ _ hr hr hk100]
        have : j = 0 := by omega
        subst this
        simp only [and_self, if_true]
        exact (prefixLev_zero_right s1 s2 i hi).symm
    · simp only [hk0, if_false]
      obtain ⟨i', rfl⟩ : ∃ i', i = i' + 1 := ⟨i - 1, by omega⟩
      obtain ⟨k', rfl⟩ : ∃ k', k = k' + 1 := ⟨k - 1, by omega⟩
      simp only [Nat.add_sub_cancel] at hp hne hne2 hr2 ⊢
      have hD := prefixLev_succ_succ s1 s2 i' k' (by omega) (by omega)
      have e1 := hp k' (by omega)
      have e2 := hp (k' + 1) (by omega)
      have e3 := hc k' (by omega)
      by_cases hch : s1.getD i' ' ' = s2.getD k' ' '
      · simp only [hch, if_true] at hD ⊢
        refine ⟨EditTable.set_WF _ _ _ _ hw, fun j hj => ?_, fun j hj => ?_⟩
        · rw [EditTable.get_set dp hw _ _ _ _ _ hr hr2 hk100]
          simp only [hne, false_and, if_false]
          exact hp j hj
        · rw [EditTable.get_set dp hw _ _ _ _ _ hr hr hk100]
          by_cases hjk : j = k' + 1
          · subst hjk
            simp only [and_self, if_true]
            rw [e1, hD]
          · simp only [hjk, and_false, if_false]
            exact hc j (by omega)
      · simp only [hch, if_false] at hD ⊢
        refine ⟨EditTable.set_WF _ _ _ _ hw, fun j hj => ?_, fun j hj => ?_⟩
        · rw [EditTable.get_set dp hw _ _ _ _ _ hr hr2 hk100]
          simp only [hne, false_and, if_false]
          exact hp j hj
        · rw [EditTable.get_set dp hw _ _ _ _ _ hr hr hk100]
          by_cases hjk : j = k' + 1
          · subst hjk
            simp only [and_self, if_true]
            rw [e1, e2, e3, hD]
          · simp only [hjk, and_false, if_false]
            exact hc j (by omega)

theorem editDistance_eq_prefixLev (s1 s2 : List Char) (hlen : s2.length ≤ MAX_WORD_LENGTH) :
    editDistance s1 s2 = prefixLev s1 s2 s1.length s2.length := by
  unfold editDistance
  simp only
  have hinit := foldl_range_inv (fun (dp : EditTable) j => dp.set 0 j j)
    (fun k dp => dp.WF ∧ ∀ j, j < k → dp.get 0 j = j)
    ⟨List.replicate (MAX_WORD_LENGTH + 1) 0, List.replicate (MAX_WORD_LENGTH + 1) 0⟩
    (s2.length + 1) ⟨⟨by simp, by simp⟩, fun j hj => by omega⟩ ?_
  · have hrows := foldl_range'_inv
      (fun dp i => (List.range (s2.length + 1)).foldl (editCell s1 s2 i) dp)
      (fun m dp => dp.WF ∧ ∀ j, j ≤ s2.length → dp.get (m % 2) j = prefixLev s1 s2 m j)
      ((List.range (s2.length + 1)).foldl (fun (dp : EditTable) j => dp.set 0 j j)
        ⟨List.replicate (MAX_WORD_LENGTH + 1) 0, List.replicate (MAX_WORD_LENGTH + 1) 0⟩)
      s1.length
      ⟨hinit.1, fun j hj => by
        rw [prefixLev_zero_left s1 s2 j hj]; exact hinit.2 j (by omega)⟩ ?_
    · exact hrows.2 s2.length (Nat.le_refl _)
    · intro m dp hm ⟨hw, hrow⟩
      exact editRow_spec s1 s2 (m + 1) dp (by omega) (by omega) hlen hw
        (by simpa using hrow)
  · intro k dp hk ⟨hw, hc⟩
    refine ⟨EditTable.set_WF _ _ _ _ hw, fun j hj => ?_⟩
    rw [EditTable.get_set dp hw 0 0 k j k (by omega) (by omega) (by omega)]
    by_cases hjk : j = k
    · simp [hjk]
    · simp only [hjk, and_false, if_false]
      exact hc j (by omega)

theorem editDistance_eq_lev (s1 s2 : List Char) (hlen : s2.length ≤ MAX_WORD_LENGTH) :
    editDistance s1 s2 = lev s1 s2 := by
  rw [editDistance_eq_prefixLev s1 s2 hlen]
  unfold prefixLev
  rw [List.take_length, List.take_length, lev_reverse]

/-- C14: for every `s1` and every `s2` that fits a row of the table (at most 100
characters), the two-row dynamic program `editDistance` returns the Levenshtein
distance: some sequence of that many single-character insertions, deletions and
substitutions transforms `s1` into `s2`, and no shorter sequence does. -/
theorem editDistance_levenshtein (s1 s2 : List Char) (h2 : s2.length ≤ MAX_WORD_LENGTH) :
    editDistance s1 s2 = levenshtein Levenshtein.defaultCost s1 s2 ∧
    EditsTo s1 s2 (editDistance s1 s2) ∧
    ∀ n, EditsTo s1 s2 n → editDistance s1 s2 ≤ n := by
  have h := editDistance_eq_lev s1 s2 h2
  refine ⟨h, ?_, fun n hn => ?_⟩
  · rw [h]; exact editsTo_lev s1 s2
  · rw [h]; exact lev_le_of_editsTo s1 s2 n hn

theorem editDistance_levenshtein_witness :
    "sitting".toList.length ≤ MAX_WORD_LENGTH ∧
    editDistance "kitten".toList "sitting".toList = 3 ∧
    editDistance "kitten".toList "sitting".toList =
      levenshtein Levenshtein.defaultCost "kitten".toList "sitting".toList ∧
    EditsTo "kitten".toList "sitting".toList (editDistance "kitten".toList "sitting".toList) :=
  ⟨by decide, by decide,
    (editDistance_levenshtein "kitten".toList "sitting".toList (by decide)).1,
    (editDistance_levenshtein "kitten".toList "sitting".toList (by decide)).2.1⟩

theorem decide_length_pos (l : List (List Char)) :
    decide (l.length > 0) = decide (l ≠ []) := by
  cases l <;> simp

theorem selectClose_eq (word : List Char) (candidates : List (List Char))
    (distances : List WordDistance)
    (h : distances.length + candidates.length ≤ MAX_SUGGESTIONS) :
    selectClose word candidates distances =
      distances ++ (candidates.filter
        (fun w => decide (editDistance word w ≤ MAX_EDIT_DISTANCE))).map
        (fun w => WordDistance.mk w (editDistance word w)) := by
  induction candidates generalizing distances with
  | nil => simp [selectClose]
  | cons c rest ih =>
    simp only [selectClose, List.filter_cons]
    simp only [List.length_cons] at h
    by_cases hc : editDistance word c ≤ MAX_EDIT_DISTANCE
    · simp only [hc, if_true, decide_True, List.map_cons]
      by_cases hfull : (distances ++ [WordDistance.mk c (editDistance word c)]).length ≥
          MAX_SUGGESTIONS
      · simp only [hfull, if_true]
        simp only [List.length_append, List.length_singleton] at hfull
        have hrest : rest = [] := List.length_eq_zero.mp (by omega)
        subst hrest
        simp
      · simp only [hfull, if_false]
        rw [ih _ (by simp only [List.length_append, List.length_singleton]; omega)]
        simp
    · simp only [hc, if_false, decide_False]
      exact ih _ (by omega)

theorem findAllWords_length_le (T : Trie) :
    (findAllWords T.root []).length ≤ MAX_SUGGESTIONS := by
  rw [findAllWords_eq]
  simp only [List.nil_append, List.length_nil, Nat.sub_zero, List.length_take]
  omega

theorem spellCheck_eq (T : Trie) (word : List Char) :
    (T.spellCheck word).2 =
      (bubbleSort (((findAllWords T.root []).filter
        (fun w => decide (editDistance word w ≤ MAX_EDIT_DISTANCE))).map
        (fun w => WordDistance.mk w (editDistance word w)))).map (fun wd => wd.word) := by
  unfold Trie.spellCheck
  simp only
  rw [selectClose_eq word _ [] (by simpa using findAllWords_length_le T)]
  simp

theorem distance_of_mem_bubbleSort (word : List Char) (cands : List (List Char))
    (wd : WordDistance)
    (h : wd ∈ bubbleSort (cands.map (fun w => WordDistance.mk w (editDistance word w)))) :
    wd.distance = editDistance word wd.word := by
  have := (bubbleSort_perm _).mem_iff.mp h
  obtain ⟨w, _, rfl⟩ := List.mem_map.mp this
  rfl

/-- C12: the suggestions of `spellCheck` are, as a multiset, the enumerated terms (at
most 50, all shorter than 100 characters) whose Levenshtein distance to the raw query
word is at most 2; so `spellCheck("wrd")` returns "word" whenever "word" is among the
enumerated terms. -/
theorem spellCheck_multiset (T : Trie) (word : List Char)
    (hwords : ∀ w ∈ findAllWords T.root [], w.length < MAX_WORD_LENGTH) :
    (T.spellCheck word).2.Perm
      ((findAllWords T.root []).filter
        (fun w => decide (levenshtein Levenshtein.defaultCost word w ≤ 2))) ∧
    (findAllWords T.root []).length ≤ MAX_SUGGESTIONS ∧
    (T.spellCheck word).1 = decide ((T.spellCheck word).2 ≠ []) ∧
    (word = "wrd".toList → "word".toList ∈ findAllWords T.root [] →
      "word".toList ∈ (T.spellCheck word).2) := by
  have hfilter : (findAllWords T.root []).filter
      (fun w => decide (editDistance word w ≤ MAX_EDIT_DISTANCE)) =
      (findAllWords T.root []).filter
        (fun w => decide (levenshtein Levenshtein.defaultCost word w ≤ 2)) := by
    apply List.filter_congr
    intro w hw
    have := editDistance_eq_lev word w (Nat.le_of_lt (hwords w hw))
    rw [this]
    rfl
  have hperm : (T.spellCheck word).2.Perm
      ((findAllWords T.root []).filter
        (fun w => decide (levenshtein Levenshtein.defaultCost word w ≤ 2))) := by
    rw [spellCheck_eq, ← hfilter]
    have h1 := (bubbleSort_perm (((findAllWords T.root []).filter
      (fun w => decide (editDistance word w ≤ MAX_EDIT_DISTANCE))).map
      (fun w => WordDistance.mk w (editDistance word w)))).map (fun wd => wd.word)
    simpa [List.map_map, Function.comp_def] using h1
  refine ⟨hperm, findAllWords_length_le T, ?_, ?_⟩
  · exact decide_length_pos _
  · intro hw hmem
    subst hw
    apply hperm.mem_iff.mpr
    rw [List.mem_filter]
    refine ⟨hmem, ?_⟩
    decide

theorem spellCheck_multiset_witness :
    (∀ w ∈ findAllWords spellIndex.root [], w.length < MAX_WORD_LENGTH) ∧
    findAllWords spellIndex.root [] =
      ["cat".toList, "lord".toList, "ward".toList, "word".toList, "world".toList,
       "wrd".toList] ∧
    spellIndex.spellCheck "wrd".toList =
      (true, ["wrd".toList, "ward".toList, "word".toList, "lord".toList, "world".toList]) ∧
    (spellIndex.spellCheck "wrd".toList).2.Perm
      ((findAllWords spellIndex.root []).filter
        (fun w => decide (levenshtein Levenshtein.defaultCost "wrd".toList w ≤ 2))) :=
  ⟨by decide, by decide, by decide,
    (spellCheck_multiset spellIndex "wrd".toList (by decide)).1⟩

/-- C13: the list returned by `spellCheck` is sorted in non-decreasing edit distance to
the query word, candidates of equal distance keep their relative order from the trie
enumeration, and no distance-2 suggestion precedes a distance-1 suggestion. -/
theorem spellCheck_sorted_stable (T : Trie) (word : List Char) :
    (T.spellCheck word).2.Pairwise
      (fun a b => editDistance word a ≤ editDistance word b) ∧
    (∀ d, (T.spellCheck word).2.filter (fun w => decide (editDistance word w = d)) =
      ((findAllWords T.root []).filter
        (fun w => decide (editDistance word w ≤ MAX_EDIT_DISTANCE))).filter
        (fun w => decide (editDistance word w = d))) ∧
    (T.spellCheck word).2.Pairwise
      (fun a b => ¬ (editDistance word a = 2 ∧ editDistance word b = 1)) := by
  have hsorted : (T.spellCheck word).2.Pairwise
      (fun a b => editDistance word a ≤ editDistance word b) := by
    rw [spellCheck_eq, List.pairwise_map]
    apply List.Pairwise.imp_of_mem _ (bubbleSort_sorted _)
    intro a b ha hb hab
    rw [← distance_of_mem_bubbleSort word _ a ha, ← distance_of_mem_bubbleSort word _ b hb]
    exact hab
  refine ⟨hsorted, fun d => ?_, ?_⟩
  · rw [spellCheck_eq, List.filter_map]
    have hcongr : (bubbleSort (((findAllWords T.root []).filter
        (fun w => decide (editDistance word w ≤ MAX_EDIT_DISTANCE))).map
        (fun w => WordDistance.mk w (editDistance word w)))).filter
          ((fun w => decide (editDistance word w = d)) ∘ fun wd => wd.word) =
        (bubbleSort (((findAllWords T.root []).filter
        (fun w => decide (editDistance word w ≤ MAX_EDIT_DISTANCE))).map
        (fun w => WordDistance.mk w (editDistance word w)))).filter
          (fun wd => decide (wd.distance = d)) := by
      apply List.filter_congr
      intro wd hwd
      simp only [Function.comp_apply]
      rw [distance_of_mem_bubbleSort word _ wd hwd]
    rw [hcongr, bubbleSort_filter, List.filter_map, List.map_map]
    simp [Function.comp_def]
  · apply List.Pairwise.imp _ hsorted
    intro a b hab h
    omega

theorem view_foldl_insert (ops : List (List Char × Nat)) (T : Trie) (q : List (Fin 26))
    (h : T.root.isNull = false) :
    (descend (ops.foldl (fun T op => T.insert op.1 op.2) T).root q).view =
      (ops.filter (fun op => decide (letterPath op.1 = q))).foldl
        (fun v op => markView v op.1 op.2) (descend T.root q).view := by
  induction ops generalizing T with
  | nil => rfl
  | cons op rest ih =>
    rw [List.foldl_cons, ih _ (insert_root_isNull T op.1 op.2 h), view_descend_insert T _ _ _ h]
    by_cases e : letterPath op.1 = q
    · rw [List.filter_cons_of_pos (by simpa using e), List.foldl_cons, if_pos e.symm, e]
    · rw [List.filter_cons_of_neg (by simpa using e), if_neg (fun x => e x.symm)]

theorem view_buildIndex (ops : List (List Char × Nat)) (q : List (Fin 26)) :
    (descend (buildIndex ops).root q).view =
      (ops.filter (fun op => decide (letterPath op.1 = q))).foldl
        (fun v op => markView v op.1 op.2) ⟨false, [], []⟩ := by
  unfold buildIndex
  rw [view_foldl_insert ops Trie.empty q Trie.empty_root_isNull]
  congr 1
  exact descend_newTrieNode_view q

theorem foldl_markView_word (l : List (List Char × Nat)) (v : NodeView) :
    (l.foldl (fun v op => markView v op.1 op.2) v).word =
      l.foldl (fun w op => if w.length = 0 then op.1 else w) v.word := by
  induction l generalizing v with
  | nil => rfl
  | cons op rest ih => rw [List.foldl_cons, ih, List.foldl_cons]; rfl

theorem foldl_markView_fileInfo (l : List (List Char × Nat)) (v : NodeView) :
    (l.foldl (fun v op => markView v op.1 op.2) v).fileInfo =
      l.foldl (fun f op => recordOccurrence f op.2) v.fileInfo := by
  induction l generalizing v with
  | nil => rfl
  | cons op rest ih => rw [List.foldl_cons, ih, List.foldl_cons]; rfl

theorem foldl_word_of_ne (l : List (List Char × Nat)) (w : List Char) (hw : w ≠ []) :
    l.foldl (fun w op => if w.length = 0 then op.1 else w) w = w := by
  induction l with
  | nil => rfl
  | cons op rest ih =>
    rw [List.foldl_cons, if_neg (by rw [List.length_eq_zero]; exact hw)]
    exact ih

theorem foldl_word_nil (l : List (List Char × Nat)) :
    l.foldl (fun w op => if w.length = 0 then op.1 else w) [] =
      ((l.map (fun op => op.1)).find? (fun r => decide (r ≠ []))).getD [] := by
  induction l with
  | nil => rfl
  | cons op rest ih =>
    rw [List.foldl_cons, List.map_cons, List.find?_cons]
    have h0 : (if ([] : List Char).length = 0 then op.1 else []) = op.1 := rfl
    rw [h0]
    by_cases e : op.1 = []
    · rw [e]
      simpa using ih
    · rw [foldl_word_of_ne rest op.1 e]
      simp [e]

theorem word_buildIndex (ops : List (List Char × Nat)) (q : List (Fin 26)) :
    (descend (buildIndex ops).root q).word =
      (((ops.filter (fun op => decide (letterPath op.1 = q))).map (fun op => op.1)).find?
        (fun r => decide (r ≠ []))).getD [] := by
  have h := congrArg NodeView.word (view_buildIndex ops q)
  rw [foldl_markView_word] at h
  exact h.trans (foldl_word_nil _)

theorem find?_filter_of_all (ops : List (List Char × Nat)) (q : List (Fin 26))
    (hne : ∀ op ∈ ops, op.1 ≠ []) :
    (((ops.filter (fun op => decide (letterPath op.1 = q))).map (fun op => op.1)).find?
        (fun r => decide (r ≠ []))).getD [] =
      ((ops.find? (fun op => decide (letterPath op.1 = q))).map (fun op => op.1)).getD [] := by
  induction ops with
  | nil => rfl
  | cons op rest ih =>
    have ih2 := ih (fun o ho => hne o (List.mem_cons_of_mem _ ho))
    have h1 := hne op (List.mem_cons_self _ _)
    by_cases e : letterPath op.1 = q
    · rw [List.filter_cons_of_pos (by simpa using e), List.find?_cons_of_pos _ (by simpa using e)]
      simp [h1]
    · rw [List.filter_cons_of_neg (by simpa using e), List.find?_cons_of_neg _ (by simpa using e)]
      exact ih2

theorem word_insert_of_ne (T : Trie) (r : List Char) (d : Nat) (q : List (Fin 26))
    (hT : T.root.isNull = false) (hw : (descend T.root q).word ≠ []) :
    (descend (T.insert r d).root q).word = (descend T.root q).word := by
  have h := congrArg NodeView.word (view_descend_insert T r d q hT)
  by_cases e : q = letterPath r
  · rw [if_pos e] at h
    refine h.trans ?_
    subst e
    show (if (descend T.root (letterPath r)).word.length = 0 then r
      else (descend T.root (letterPath r)).word) = _
    rw [if_neg (by rw [List.length_eq_zero]; exact hw)]
  · rw [if_neg e] at h
    exact h

theorem word_foldl_insert_of_ne (later : List (List Char × Nat)) (T : Trie) (q : List (Fin 26))
    (hT : T.root.isNull = false) (hw : (descend T.root q).word ≠ []) :
    (descend (later.foldl (fun T op => T.insert op.1 op.2) T).root q).word =
      (descend T.root q).word := by
  induction later generalizing T with
  | nil => rfl
  | cons op rest ih =>
    rw [List.foldl_cons]
    have h1 := word_insert_of_ne T op.1 op.2 q hT hw
    rw [ih _ (insert_root_isNull T op.1 op.2 hT) (by rw [h1]; exact hw), h1]

/-- C21 (amended): for every sequence of `insert` calls with non-empty raw terms, a node
is terminal iff some call reached it, its canonical term is the raw term of the first
call that reached it, and no later `insert` (with any raw term or document id) changes
that canonical term. -/
theorem canonical_term_first_insert (ops : List (List Char × Nat))
    (hne : ∀ op ∈ ops, op.1 ≠ []) (q : List (Fin 26)) :
    ((descend (buildIndex ops).root q).isEndOfWord = true ↔
      ∃ op ∈ ops, letterPath op.1 = q) ∧
    (descend (buildIndex ops).root q).word =
      ((ops.find? (fun op => decide (letterPath op.1 = q))).map (fun op => op.1)).getD [] ∧
    ((∃ op ∈ ops, letterPath op.1 = q) → (descend (buildIndex ops).root q).word ≠ []) ∧
    ∀ later : List (List Char × Nat), (∃ op ∈ ops, letterPath op.1 = q) →
      (descend (buildIndex (ops ++ later)).root q).word =
        (descend (buildIndex ops).root q).word := by
  have hword : (descend (buildIndex ops).root q).word =
      ((ops.find? (fun op => decide (letterPath op.1 = q))).map (fun op => op.1)).getD [] := by
    rw [word_buildIndex, find?_filter_of_all ops q hne]
  have hnonempty : (∃ op ∈ ops, letterPath op.1 = q) →
      (descend (buildIndex ops).root q).word ≠ [] := by
    rintro ⟨op, hop, hq⟩
    rw [hword]
    cases hf : ops.find? (fun op => decide (letterPath op.1 = q)) with
    | none =>
      have := List.find?_eq_none.mp hf op hop
      simp [hq] at this
    | some o =>
      simpa using hne o (List.mem_of_find?_eq_some hf)
  refine ⟨isEnd_buildIndex ops q, hword, hnonempty, ?_⟩
  intro later hex
  have : buildIndex (ops ++ later) =
      later.foldl (fun T op => T.insert op.1 op.2) (buildIndex ops) := by
    unfold buildIndex
    rw [List.foldl_append]
  rw [this]
  exact word_foldl_insert_of_ne later _ q
    (foldl_insert_isNull ops Trie.empty Trie.empty_root_isNull) (hnonempty hex)

theorem canonical_term_first_insert_witness :
    (∀ op ∈ [("Cat".toList, 0), ("c-at".toList, 1)], op.1 ≠ []) ∧
    (descend (buildIndex [("Cat".toList, 0), ("c-at".toList, 1)]).root
      (letterPath "cat".toList)).word = "Cat".toList ∧
    (descend (buildIndex [("Cat".toList, 0), ("c-at".toList, 1)]).root
        (letterPath "cat".toList)).word =
      (([("Cat".toList, 0), ("c-at".toList, 1)].find?
        (fun op => decide (letterPath op.1 = letterPath "cat".toList))).map
          (fun op => op.1)).getD [] :=
  ⟨by decide, by decide,
    (canonical_term_first_insert [("Cat".toList, 0), ("c-at".toList, 1)] (by decide)
      (letterPath "cat".toList)).2.1⟩

/-- C21 (counterexample): after `insert("", 0)` the root is terminal with the empty
canonical term; the later call `insert("1", 1)` reaches the same node and changes its
canonical term to "1". -/
theorem canonical_term_changes_after_empty :
    letterPath "".toList = [] ∧ letterPath "1".toList = [] ∧
    (Trie.empty.insert "".toList 0).root.isEndOfWord = true ∧
    (Trie.empty.insert "".toList 0).root.word = "".toList ∧
    ((Trie.empty.insert "".toList 0).insert "1".toList 1).root.word = "1".toList ∧
    ((Trie.empty.insert "".toList 0).insert "1".toList 1).root.word ≠
      (Trie.empty.insert "".toList 0).root.word := by
  decide

theorem nodup_recordOccurrence (f : List FileInfo) (d : Nat)
    (hf : (f.map (fun fi => fi.fileId)).Nodup) :
    ((recordOccurrence f d).map (fun fi => fi.fileId)).Nodup := by
  rw [map_fileId_recordOccurrence]
  split_ifs with h
  · exact hf
  · exact List.Nodup.append hf (List.nodup_singleton d) (by simpa using h)

theorem frequency_recordOccurrence (f : List FileInfo) (d : Nat)
    (hf : ∀ fi ∈ f, 1 ≤ fi.frequency)
    (hd : ∀ fi ∈ f, fi.fileId = d → fi.frequency < 2147483647) :
    ∀ fi ∈ recordOccurrence f d, 1 ≤ fi.frequency := by
  induction f with
  | nil =>
    intro fi hfi
    rw [recordOccurrence_nil] at hfi
    rw [List.mem_singleton.mp hfi]
  | cons a rest ih =>
    intro fi hfi
    rw [recordOccurrence_cons] at hfi
    split_ifs at hfi with e
    · rcases List.mem_cons.mp hfi with h | h
      · rw [h]
        show 1 ≤ wrapInt (a.frequency + 1)
        have h1 := hf a (List.mem_cons_self _ _)
        have h2 := hd a (List.mem_cons_self _ _) e
        rw [wrapInt_of_range _ (by omega) (by omega)]
        omega
      · exact hf fi (List.mem_cons_of_mem _ h)
    · rcases List.mem_cons.mp hfi with h | h
      · rw [h]; exact hf a (List.mem_cons_self _ _)
      · exact ih (fun x hx => hf x (List.mem_cons_of_mem _ hx))
          (fun x hx => hd x (List.mem_cons_of_mem _ hx)) fi h

theorem insertAt_nullptr (word : List Char) (fileId : Nat) (p : List (Fin 26)) :
    insertAt word fileId p TrieNode.nullptr = TrieNode.nullptr := by
  cases p <;> rfl

theorem fileInfo_descend_insert (T : Trie) (word : List Char) (fileId : Nat)
    (q : List (Fin 26)) :
    (descend (T.insert word fileId).root q).fileInfo =
      if T.root.isNull = false ∧ q = letterPath word then
        recordOccurrence (descend T.root (letterPath word)).fileInfo fileId
      else (descend T.root q).fileInfo := by
  cases hn : T.root.isNull with
  | true =>
    have hroot : (T.insert word fileId).root = TrieNode.nullptr := by
      show insertFrom word fileId word T.root = _
      rw [insertFrom_eq_insertAt, eq_nullptr_of_isNull T.root hn, insertAt_nullptr]
    rw [hroot, descend_nullptr, if_neg (by simp), eq_nullptr_of_isNull T.root hn,
      descend_nullptr]
  | false =>
    have hv := congrArg NodeView.fileInfo (view_descend_insert T word fileId q hn)
    change (descend (T.insert word fileId).root q).fileInfo = _ at hv
    rw [hv]
    by_cases e : q = letterPath word
    · rw [if_pos e, if_pos ⟨rfl, e⟩]; rfl
    · rw [if_neg e, if_neg (fun h => e h.2)]; rfl

theorem PostingsInv_insert (T : Trie) (word : List Char) (fileId : Nat) (h : PostingsInv T)
    (hd : ∀ fi ∈ (descend T.root (letterPath word)).fileInfo,
      fi.fileId = fileId → fi.frequency < 2147483647) :
    PostingsInv (T.insert word fileId) := by
  intro q
  rw [fileInfo_descend_insert]
  split_ifs with e
  · exact ⟨nodup_recordOccurrence _ _ (h (letterPath word)).1,
      frequency_recordOccurrence _ _ (h (letterPath word)).2 hd⟩
  · exact h q

theorem nodup_fileId_insert (T : Trie) (word : List Char) (fileId : Nat)
    (h : ∀ q, ((descend T.root q).fileInfo.map (fun fi => fi.fileId)).Nodup) :
    ∀ q, ((descend (T.insert word fileId).root q).fileInfo.map (fun fi => fi.fileId)).Nodup := by
  intro q
  rw [fileInfo_descend_insert]
  split_ifs with e
  · exact nodup_recordOccurrence _ _ (h (letterPath word))
  · exact h q

theorem PostingsInv_empty : PostingsInv Trie.empty := by
  intro q
  have h := congrArg NodeView.fileInfo (descend_newTrieNode_view q)
  change (descend Trie.empty.root q).fileInfo = [] at h
  rw [h]
  exact ⟨List.nodup_nil, fun fi hfi => absurd hfi (List.not_mem_nil fi)⟩

theorem mem_firstSeenIds (l : List Nat) (d : Nat) : d ∈ firstSeenIds l ↔ d ∈ l := by
  induction l with
  | nil => simp [firstSeenIds]
  | cons a rest ih =>
    simp only [firstSeenIds, List.mem_cons, List.mem_filter, ih, decide_eq_true_eq]
    constructor
    · rintro (h | ⟨h, _⟩)
      · exact Or.inl h
      · exact Or.inr h
    · intro h
      by_cases e : d = a
      · exact Or.inl e
      · rcases h with h | h
        · exact Or.inl h
        · exact Or.inr ⟨h, e⟩

theorem nodup_firstSeenIds (l : List Nat) : (firstSeenIds l).Nodup := by
  induction l with
  | nil => exact List.nodup_nil
  | cons a rest ih =>
    simp only [firstSeenIds]
    rw [List.nodup_cons]
    constructor
    · simp [List.mem_filter]
    · exact List.Nodup.filter _ ih

theorem firstSeenIds_append_singleton (l : List Nat) (d : Nat) :
    firstSeenIds (l ++ [d]) = if d ∈ l then firstSeenIds l else firstSeenIds l ++ [d] := by
  induction l with
  | nil => simp [firstSeenIds]
  | cons a rest ih =>
    rw [List.cons_append]
    simp only [firstSeenIds, ih]
    by_cases e : d = a
    · subst e
      by_cases hm : d ∈ rest
      · simp [hm]
      · simp [hm, List.filter_append]
    · by_cases hm : d ∈ rest
      · simp [hm, e]
      · have hne : ¬ a = d := fun x => e x.symm
        simp [hm, e, hne, List.filter_append]

theorem recordOccurrence_map_of_not_mem (l : List Nat) (c : Nat → Int) (d : Nat) (h : d ∉ l) :
    recordOccurrence (l.map (postingOf c)) d = l.map (postingOf c) ++ [postingOf (fun _ => 1) d] := by
  induction l with
  | nil => rfl
  | cons a rest ih =>
    rw [List.map_cons, recordOccurrence_cons]
    have hne : ¬ (postingOf c a).fileId = d := by
      intro e
      exact h (by rw [← e]; exact List.mem_cons_self _ _)
    rw [if_neg hne, ih (fun x => h (List.mem_cons_of_mem _ x))]
    rfl

theorem recordOccurrence_map_of_mem (l : List Nat) (c : Nat → Int) (d : Nat) (h : d ∈ l)
    (hnd : l.Nodup) :
    recordOccurrence (l.map (postingOf c)) d =
      l.map (postingOf (fun e => if e = d then wrapInt (c e + 1) else c e)) := by
  induction l with
  | nil => exact absurd h (List.not_mem_nil d)
  | cons a rest ih =>
    rw [List.map_cons, recordOccurrence_cons]
    rw [List.nodup_cons] at hnd
    by_cases e : a = d
    · subst e
      have hid : (postingOf c a).fileId = a := rfl
      rw [if_pos hid, List.map_cons]
      congr 1
      · simp [postingOf]
      · apply List.map_congr_left
        intro x hx
        have : x ≠ a := fun y => hnd.1 (y ▸ hx)
        simp [postingOf, this]
    · have hne : ¬ (postingOf c a).fileId = d := e
      rw [if_neg hne, List.map_cons]
      have hm : d ∈ rest := by
        rcases List.mem_cons.mp h with x | x
        · exact absurd x.symm e
        · exact x
      rw [ih hm hnd.2]
      congr 1
      simp [postingOf, e]

theorem wrapInt_succ (n : Nat) : wrapInt (wrapInt (n : Int) + 1) = wrapInt ((n + 1 : Nat) : Int) := by
  unfold wrapInt
  push_cast
  omega

theorem foldl_recordOccurrence_eq (ids : List Nat) :
    ids.foldl recordOccurrence [] =
      (firstSeenIds ids).map (postingOf (fun d => wrapInt (ids.count d : Nat))) := by
  induction ids using List.reverseRecOn with
  | nil => rfl
  | append_singleton l a ih =>
    rw [List.foldl_append, List.foldl_cons, List.foldl_nil, ih, firstSeenIds_append_singleton]
    by_cases hm : a ∈ l
    · rw [if_pos hm, recordOccurrence_map_of_mem _ _ _ ((mem_firstSeenIds l a).mpr hm)
        (nodup_firstSeenIds l)]
      apply List.map_congr_left
      intro x _
      by_cases e : x = a
      · subst e
        have hc : List.count x (l ++ [x]) = List.count x l + 1 := by
          simp [List.count_append]
        simp only [postingOf, if_true, hc]
        rw [wrapInt_succ]
      · have hc : List.count x (l ++ [a]) = List.count x l := by
          have h0 : List.count x [a] = 0 :=
            List.count_eq_zero_of_not_mem (by simpa using e)
          rw [List.count_append, h0, Nat.add_zero]
        simp only [postingOf, if_neg e, hc]
    · rw [if_neg hm, recordOccurrence_map_of_not_mem _ _ _
        (fun x => hm ((mem_firstSeenIds l a).mp x)), List.map_append]
      have hA : (firstSeenIds l).map (postingOf (fun d => wrapInt (List.count d l : Nat))) =
          (firstSeenIds l).map
            (postingOf (fun d => wrapInt (List.count d (l ++ [a]) : Nat))) := by
        apply List.map_congr_left
        intro x hx
        have e : ¬ a = x := fun y => hm (y ▸ (mem_firstSeenIds l x).mp hx)
        have hc : List.count x (l ++ [a]) = List.count x l := by
          have h0 : List.count x [a] = 0 :=
            List.count_eq_zero_of_not_mem (by simpa using fun y => e y.symm)
          rw [List.count_append, h0, Nat.add_zero]
        simp only [postingOf, hc]
      have hB : [postingOf (fun _ => 1) a] =
          [a].map (postingOf (fun d => wrapInt (List.count d (l ++ [a]) : Nat))) := by
        have hc : List.count a (l ++ [a]) = 1 := by
          simp [List.count_append, List.count_eq_zero_of_not_mem hm]
        have h1 : wrapInt ((1 : Nat) : Int) = 1 := by unfold wrapInt; omega
        simp only [List.map_cons, List.map_nil, postingOf, hc, h1]
      rw [hA, hB]

theorem fileInfo_buildIndex (ops : List (List Char × Nat)) (q : List (Fin 26)) :
    (descend (buildIndex ops).root q).fileInfo =
      ((ops.filter (fun op => decide (letterPath op.1 = q))).map (fun op => op.2)).foldl
        recordOccurrence [] := by
  have h := congrArg NodeView.fileInfo (view_buildIndex ops q)
  rw [foldl_markView_fileInfo] at h
  rw [List.foldl_map]
  exact h

theorem wrapInt_count_of_lt (l : List Nat) (d : Nat) (h : l.length < 2147483648) :
    wrapInt (l.count d : Nat) = (l.count d : Nat) := by
  have := List.count_le_length d l
  apply wrapInt_of_range <;> omega

theorem PostingsInv_buildIndex (ops : List (List Char × Nat)) (h : ops.length < 2147483648)
    (q : List (Fin 26)) :
    ((descend (buildIndex ops).root q).fileInfo.map (fun fi => fi.fileId)).Nodup ∧
    ∀ fi ∈ (descend (buildIndex ops).root q).fileInfo,
      1 ≤ fi.frequency ∧ fi.frequency ≤ 2147483647 := by
  rw [fileInfo_buildIndex, foldl_recordOccurrence_eq]
  have hlen : ((ops.filter (fun op => decide (letterPath op.1 = q))).map
      (fun op => op.2)).length < 2147483648 := by
    rw [List.length_map]
    exact Nat.lt_of_le_of_lt (List.length_filter_le _ _) h
  constructor
  · rw [List.map_map]
    have : ((fun fi : FileInfo => fi.fileId) ∘ postingOf (fun d => wrapInt
        (List.count d ((ops.filter (fun op => decide (letterPath op.1 = q))).map
          (fun op => op.2)) : Nat))) = id := rfl
    rw [this, List.map_id]
    exact nodup_firstSeenIds _
  · intro fi hfi
    obtain ⟨d, hd, rfl⟩ := List.mem_map.mp hfi
    show 1 ≤ wrapInt _ ∧ wrapInt _ ≤ 2147483647
    rw [wrapInt_count_of_lt _ _ hlen]
    have h1 : 0 < List.count d ((ops.filter (fun op => decide (letterPath op.1 = q))).map
        (fun op => op.2)) := List.count_pos_iff.mpr ((mem_firstSeenIds _ _).mp hd)
    have h2 := List.count_le_length d ((ops.filter
      (fun op => decide (letterPath op.1 = q))).map (fun op => op.2))
    omega

theorem termKey_alpha (r : List Char) : ∀ c ∈ termKey r, c.isAlpha = true := by
  intro c hc
  unfold termKey at hc
  obtain ⟨x, hx, rfl⟩ := List.mem_map.mp hc
  rw [isAlpha_toLower]
  exact (List.mem_filter.mp hx).2

theorem termKey_map_toLower (r : List Char) : (termKey r).map Char.toLower = termKey r := by
  unfold termKey
  rw [List.map_map]
  apply List.map_congr_left
  intro c _
  exact toLower_toLower c

theorem filter_letterPath_termKey (ops : List (List Char × Nat)) (r : List Char) :
    ops.filter (fun op => decide (letterPath op.1 = letterPath (termKey r))) =
      callsWithKey ops (termKey r) := by
  unfold callsWithKey
  apply List.filter_congr
  intro op _
  rw [decide_eq_decide, letterPath_eq_iff op.1 (termKey r) (termKey_alpha r), termKey_map_toLower]

theorem buildIndex_root_isNull (ops : List (List Char × Nat)) :
    (buildIndex ops).root.isNull = false :=
  foldl_insert_isNull ops Trie.empty Trie.empty_root_isNull

theorem foldl_wrapInt_sum (f : List FileInfo) (a : Int) :
    f.foldl (fun totalCount fi => wrapInt (totalCount + fi.frequency)) (wrapInt a) =
      wrapInt (a + (f.map (fun fi => fi.frequency)).sum) := by
  induction f generalizing a with
  | nil => simp
  | cons x rest ih =>
    rw [List.foldl_cons]
    have h : wrapInt (wrapInt a + x.frequency) = wrapInt (a + x.frequency) :=
      wrapInt_add_congr _ _ _ _ (wrapInt_wrapInt a) rfl
    rw [h, ih, List.map_cons, List.sum_cons, Int.add_assoc]

theorem sumFrequencies_eq (f : List FileInfo) :
    sumFrequencies f = wrapInt ((f.map (fun fi => fi.frequency)).sum) := by
  unfold sumFrequencies
  have h0 : (0 : Int) = wrapInt 0 := by unfold wrapInt; omega
  conv_lhs => rw [h0]
  rw [foldl_wrapInt_sum, Int.zero_add]

theorem wrapInt_sum_recordOccurrence (f : List FileInfo) (d : Nat) :
    wrapInt (((recordOccurrence f d).map (fun fi => fi.frequency)).sum) =
      wrapInt ((f.map (fun fi => fi.frequency)).sum + 1) := by
  induction f with
  | nil =>
    rw [recordOccurrence_nil]
    simp only [List.map_cons, List.map_nil, List.sum_cons, List.sum_nil, Int.add_zero,
      Int.zero_add]
  | cons a rest ih =>
    rw [recordOccurrence_cons]
    split_ifs with e
    · simp only [List.map_cons, List.sum_cons]
      rw [Int.add_right_comm]
      exact wrapInt_add_congr _ _ _ _ (wrapInt_wrapInt _) rfl
    · simp only [List.map_cons, List.sum_cons]
      rw [Int.add_assoc]
      exact wrapInt_add_congr _ _ _ _ rfl ih

theorem wrapInt_sum_foldl (ids : List Nat) (f : List FileInfo) :
    wrapInt (((ids.foldl recordOccurrence f).map (fun fi => fi.frequency)).sum) =
      wrapInt ((f.map (fun fi => fi.frequency)).sum + (ids.length : Nat)) := by
  induction ids generalizing f with
  | nil => simp
  | cons a rest ih =>
    rw [List.foldl_cons, ih, List.length_cons]
    push_cast
    have h := wrapInt_sum_recordOccurrence f a
    have e : (f.map (fun fi => fi.frequency)).sum + ((rest.length : Int) + 1) =
        ((f.map (fun fi => fi.frequency)).sum + 1) + (rest.length : Int) := by omega
    rw [e]
    exact wrapInt_add_congr _ _ _ _ h rfl

theorem postings_buildIndex (ops : List (List Char × Nat)) (k : List Char)
    (hk : ∃ op ∈ ops, termKey op.1 = k) :
    (buildIndex ops).postings k = (descend (buildIndex ops).root (letterPath k)).fileInfo ∧
    (descend (buildIndex ops).root (letterPath k)).isEndOfWord = true ∧
    (descend (buildIndex ops).root (letterPath k)).fileInfo =
      (firstSeenIds (keyDocs ops k)).map
        (postingOf (fun d => wrapInt (insertCount ops k d : Nat))) ∧
    sumFrequencies (descend (buildIndex ops).root (letterPath k)).fileInfo =
      wrapInt ((callsWithKey ops k).length : Nat) := by
  obtain ⟨op0, hop0, rfl⟩ := hk
  have hend : (descend (buildIndex ops).root (letterPath (termKey op0.1))).isEndOfWord = true := by
    apply (isEnd_buildIndex ops _).mpr
    refine ⟨op0, hop0, ?_⟩
    rw [letterPath_eq_iff op0.1 (termKey op0.1) (termKey_alpha op0.1), termKey_map_toLower]
  have hnn : (descend (buildIndex ops).root (letterPath (termKey op0.1))).isNull = false := by
    cases hx : (descend (buildIndex ops).root (letterPath (termKey op0.1))).isNull with
    | false => rfl
    | true => rw [isEndOfWord_of_isNull _ hx] at hend; cases hend
  refine ⟨?_, hend, ?_, ?_⟩
  · unfold Trie.postings
    rw [walk_eq_descend _ _ (termKey_alpha op0.1) (buildIndex_root_isNull ops), hnn]
    simp only [Bool.false_eq_true, if_false, terminalPostings, hend, if_true, Option.getD_some]
  · rw [fileInfo_buildIndex, filter_letterPath_termKey, foldl_recordOccurrence_eq]
    rfl
  · rw [sumFrequencies_eq, fileInfo_buildIndex, filter_letterPath_termKey, wrapInt_sum_foldl]
    simp

theorem getWordDetails_buildIndex (ops : List (List Char × Nat)) (k : List Char)
    (hk : ∃ op ∈ ops, termKey op.1 = k) (w : List Char) (hw : stem w = k) :
    (buildIndex ops).getWordDetails w =
      [wordLine w (descend (buildIndex ops).root (letterPath k)).word,
       totalLine (wrapInt ((callsWithKey ops k).length : Nat)),
       "Occurrences by file:".toList] ++
      (firstSeenIds (keyDocs ops k)).map (fun d =>
        occurrenceLine ((buildIndex ops).getFilename d)
          (wrapInt (insertCount ops k d : Nat))) := by
  obtain ⟨_, hend, hfi, hsum⟩ := postings_buildIndex ops k hk
  have halpha : ∀ c ∈ stem w, c.isAlpha = true := by
    obtain ⟨op0, _, hk0⟩ := hk
    rw [hw, ← hk0]
    exact termKey_alpha op0.1
  rw [getWordDetails_eq_view _ w halpha (buildIndex_root_isNull ops), hw]
  have hend2 : (descend (buildIndex ops).root (letterPath k)).view.isEnd = true := hend
  rw [if_pos hend2]
  have hv : (descend (buildIndex ops).root (letterPath k)).view.fileInfo =
      (descend (buildIndex ops).root (letterPath k)).fileInfo := rfl
  rw [hv, hsum, hfi, List.map_map]
  rfl

theorem perm_firstSeenIds_dedup (l : List Nat) : (firstSeenIds l).Perm l.dedup := by
  rw [List.perm_ext_iff_of_nodup (nodup_firstSeenIds l) (List.nodup_dedup l)]
  intro d
  rw [mem_firstSeenIds, List.mem_dedup]

theorem sum_count_firstSeenIds (l : List Nat) :
    ((firstSeenIds l).map (fun d => l.count d)).sum = l.length := by
  rw [((perm_firstSeenIds_dedup l).map _).sum_eq]
  exact List.sum_map_count_dedup_eq_length l

theorem cast_sum_map (l : List Nat) (g : Nat → Nat) :
    (l.map (fun d => ((g d : Nat) : Int))).sum = (((l.map g).sum : Nat) : Int) := by
  induction l with
  | nil => rfl
  | cons a rest ih => simp only [List.map_cons, List.sum_cons, ih]; push_cast; rfl

theorem firstSeenIds_replicate (n : Nat) (d : Nat) (h : 0 < n) :
    firstSeenIds (List.replicate n d) = [d] := by
  induction n with
  | zero => exact absurd h (Nat.lt_irrefl 0)
  | succ n ih =>
    rw [List.replicate_succ]
    simp only [firstSeenIds]
    congr 1
    apply List.filter_eq_nil_iff.mpr
    intro x hx
    rw [mem_firstSeenIds] at hx
    simp [List.eq_of_mem_replicate hx]

theorem callsWithKey_replicate (n : Nat) (r : List Char) (d : Nat) :
    callsWithKey (List.replicate n (r, d)) (termKey r) = List.replicate n (r, d) := by
  unfold callsWithKey
  apply List.filter_eq_self.mpr
  intro op hop
  rw [List.eq_of_mem_replicate hop]
  simp

theorem keyDocs_replicate (n : Nat) (r : List Char) (d : Nat) :
    keyDocs (List.replicate n (r, d)) (termKey r) = List.replicate n d := by
  unfold keyDocs
  rw [callsWithKey_replicate, List.map_replicate]

theorem insertCount_replicate (n : Nat) (r : List Char) (d : Nat) :
    insertCount (List.replicate n (r, d)) (termKey r) d = n := by
  unfold insertCount
  rw [keyDocs_replicate, List.count_replicate_self]

theorem letterPath_termKey (r : List Char) : letterPath (termKey r) = letterPath r := by
  have h := (letterPath_eq_iff r (termKey r) (termKey_alpha r)).mpr (termKey_map_toLower r).symm
  exact h.symm

theorem fileInfo_replicate (n : Nat) (r : List Char) (d : Nat) (h : 0 < n) :
    (descend (buildIndex (List.replicate n (r, d))).root (letterPath r)).fileInfo =
      [{ fileId := d, frequency := wrapInt (n : Nat),
         positions := List.replicate MAX_WORD_LENGTH 0 }] := by
  have hk : ∃ op ∈ List.replicate n (r, d), termKey op.1 = termKey r :=
    ⟨(r, d), List.mem_replicate.mpr ⟨by omega, rfl⟩, rfl⟩
  rw [← letterPath_termKey r, (postings_buildIndex _ _ hk).2.2.1, keyDocs_replicate,
    firstSeenIds_replicate n d h, List.map_cons, List.map_nil]
  show [postingOf _ d] = _
  unfold postingOf
  simp only [insertCount_replicate]

theorem buildIndex_insert (ops : List (List Char × Nat)) (r : List Char) (d : Nat) :
    (buildIndex ops).insert r d = buildIndex (ops ++ [(r, d)]) := by
  unfold buildIndex
  rw [List.foldl_append]
  rfl

theorem fileInfo_replicate_insert (n : Nat) (r : List Char) (d : Nat) :
    (descend ((buildIndex (List.replicate n (r, d))).insert r d).root (letterPath r)).fileInfo =
      [{ fileId := d, frequency := wrapInt ((n + 1 : Nat) : Int),
         positions := List.replicate MAX_WORD_LENGTH 0 }] := by
  rw [buildIndex_insert, ← List.replicate_succ']
  exact fileInfo_replicate (n + 1) r d (Nat.succ_pos n)

theorem PostingsInv_of_length_lt (ops : List (List Char × Nat)) (h : ops.length < 2147483648) :
    PostingsInv (buildIndex ops) :=
  fun q => ⟨(PostingsInv_buildIndex ops h q).1,
    fun fi hfi => ((PostingsInv_buildIndex ops h q).2 fi hfi).1⟩

theorem not_PostingsInv_of_frequency (T : Trie) (q : List (Fin 26)) (fi : FileInfo)
    (hfi : fi ∈ (descend T.root q).fileInfo) (hlt : fi.frequency < 1) : ¬ PostingsInv T := by
  intro h
  have := (h q).2 fi hfi
  omega

/-- C22 (amended): the empty trie satisfies the invariant (each node's posting list
holds a document id at most once, every frequency is at least 1); every `insert`
preserves the at-most-once part, and preserves the whole invariant when the posting it
increments, if any, is below `INT_MAX`; in every index built from the empty trie by fewer
than 2^31 `insert` calls each posting list holds a document id at most once and every
frequency lies between 1 and 2147483647. -/
theorem insert_postings_invariant :
    PostingsInv Trie.empty ∧
    (∀ (T : Trie) (word : List Char) (fileId : Nat),
      (∀ q, ((descend T.root q).fileInfo.map (fun fi => fi.fileId)).Nodup) →
      ∀ q, ((descend (T.insert word fileId).root q).fileInfo.map
        (fun fi => fi.fileId)).Nodup) ∧
    (∀ (T : Trie) (word : List Char) (fileId : Nat), PostingsInv T →
      (∀ fi ∈ (descend T.root (letterPath word)).fileInfo,
        fi.fileId = fileId → fi.frequency < 2147483647) →
      PostingsInv (T.insert word fileId)) ∧
    (∀ (ops : List (List Char × Nat)) (q : List (Fin 26)), ops.length < 2147483648 →
      ((descend (buildIndex ops).root q).fileInfo.map (fun fi => fi.fileId)).Nodup ∧
      ∀ fi ∈ (descend (buildIndex ops).root q).fileInfo,
        1 ≤ fi.frequency ∧ fi.frequency ≤ 2147483647) :=
  ⟨PostingsInv_empty, nodup_fileId_insert, PostingsInv_insert,
    fun ops q h => PostingsInv_buildIndex ops h q⟩

/-- C22 (counterexample): the index built by 2147483647 calls `insert("a", 0)` satisfies
the invariant; one more `insert("a", 0)` increments the frequency 2147483647 of the
`int` to -2147483648, so the invariant no longer holds, and the index built by
2147483648 such calls holds a posting of frequency -2147483648. -/
theorem insert_frequency_wraps :
    PostingsInv (buildIndex (List.replicate 2147483647 ("a".toList, 0))) ∧
    (descend (buildIndex (List.replicate 2147483647 ("a".toList, 0))).root
        (letterPath "a".toList)).fileInfo =
      [{ fileId := 0, frequency := 2147483647,
         positions := List.replicate MAX_WORD_LENGTH 0 }] ∧
    (descend ((buildIndex (List.replicate 2147483647 ("a".toList, 0))).insert
        "a".toList 0).root (letterPath "a".toList)).fileInfo =
      [{ fileId := 0, frequency := -2147483648,
         positions := List.replicate MAX_WORD_LENGTH 0 }] ∧
    ¬ PostingsInv ((buildIndex (List.replicate 2147483647 ("a".toList, 0))).insert
        "a".toList 0) ∧
    (descend (buildIndex (List.replicate 2147483648 ("a".toList, 0))).root
        (letterPath "a".toList)).fileInfo =
      [{ fileId := 0, frequency := -2147483648,
         positions := List.replicate MAX_WORD_LENGTH 0 }] := by
  have hlen : (List.replicate 2147483647 ("a".toList, 0)).length < 2147483648 := by
    rw [List.length_replicate]
    decide
  have hw0 : wrapInt ((2147483647 : Nat) : Int) = 2147483647 := by unfold wrapInt; omega
  have hw1 : wrapInt ((2147483647 + 1 : Nat) : Int) = -2147483648 := by unfold wrapInt; omega
  have hw2 : wrapInt ((2147483648 : Nat) : Int) = -2147483648 := by unfold wrapInt; omega
  have h0 := fileInfo_replicate 2147483647 "a".toList 0 (by decide)
  have h1 := fileInfo_replicate_insert 2147483647 "a".toList 0
  have h2 := fileInfo_replicate 2147483648 "a".toList 0 (by decide)
  rw [hw0] at h0
  rw [hw1] at h1
  rw [hw2] at h2
  refine ⟨PostingsInv_of_length_lt _ hlen, h0, h1, ?_, h2⟩
  apply not_PostingsInv_of_frequency _ (letterPath "a".toList)
    { fileId := 0, frequency := -2147483648, positions := List.replicate MAX_WORD_LENGTH 0 }
  · rw [h1]
    exact List.mem_singleton.mpr rfl
  · decide

/-- C23 (amended): on an index built from the empty trie by `insert` calls, for an
indexed key `k` with fewer than 2^31 calls: the posting list of `k` holds the documents
of the calls with key `k` in first-insertion order, the frequency stored for a document
`d` is the number of calls with key `k` and document `d`, and the total reported by
`getWordDetails` (for a word whose stemmed form is `k`) is the sum of these frequencies,
the number of calls with key `k`. -/
theorem postings_frequency_count (ops : List (List Char × Nat)) (k : List Char)
    (hk : ∃ op ∈ ops, termKey op.1 = k) (hbound : (callsWithKey ops k).length < 2147483648) :
    (buildIndex ops).postings k =
      (firstSeenIds (keyDocs ops k)).map (fun d =>
        { fileId := d, frequency := (insertCount ops k d : Nat),
          positions := List.replicate MAX_WORD_LENGTH 0 }) ∧
    (∀ fi ∈ (buildIndex ops).postings k,
      fi.frequency = ((insertCount ops k fi.fileId : Nat) : Int)) ∧
    ((buildIndex ops).postings k).map (fun fi => fi.fileId) = firstSeenIds (keyDocs ops k) ∧
    (((buildIndex ops).postings k).map (fun fi => fi.frequency)).sum =
      (((callsWithKey ops k).length : Nat) : Int) ∧
    ∀ w, stem w = k →
      ((buildIndex ops).getWordDetails w).take 3 =
        [wordLine w (descend (buildIndex ops).root (letterPath k)).word,
         totalLine (((callsWithKey ops k).length : Nat) : Int),
         "Occurrences by file:".toList] ∧
      ((buildIndex ops).getWordDetails w).length = 3 + (firstSeenIds (keyDocs ops k)).length := by
  obtain ⟨hpost, _, hfi, _⟩ := postings_buildIndex ops k hk
  have hlen : (keyDocs ops k).length < 2147483648 := by
    unfold keyDocs; rw [List.length_map]; exact hbound
  have hcount : ∀ d, wrapInt ((insertCount ops k d : Nat) : Int) = (insertCount ops k d : Nat) :=
    fun d => wrapInt_count_of_lt (keyDocs ops k) d hlen
  have hp : (buildIndex ops).postings k =
      (firstSeenIds (keyDocs ops k)).map (postingOf (fun d => ((insertCount ops k d : Nat) : Int))) := by
    rw [hpost, hfi]
    apply List.map_congr_left
    intro d _
    unfold postingOf
    simp only [hcount d]
  have htotal : wrapInt (((callsWithKey ops k).length : Nat) : Int) =
      (((callsWithKey ops k).length : Nat) : Int) := by
    apply wrapInt_of_range <;> omega
  refine ⟨hp, ?_, ?_, ?_, ?_⟩
  · intro fi hfi2
    rw [hp] at hfi2
    obtain ⟨d, _, rfl⟩ := List.mem_map.mp hfi2
    rfl
  · rw [hp, List.map_map]
    exact List.map_id _
  · rw [hp, List.map_map]
    have : ((fun fi : FileInfo => fi.frequency) ∘
        postingOf (fun d => ((insertCount ops k d : Nat) : Int))) =
        (fun d => ((insertCount ops k d : Nat) : Int)) := rfl
    rw [this, cast_sum_map]
    unfold insertCount
    rw [sum_count_firstSeenIds]
    unfold keyDocs
    rw [List.length_map]
  · intro w hw
    rw [getWordDetails_buildIndex ops k hk w hw, htotal]
    constructor
    · rfl
    · simp only [List.length_append, List.length_cons, List.length_nil, List.length_map]

theorem postings_frequency_count_witness :
    (∃ op ∈ [("cat".toList, 1), ("Cat".toList, 0), ("dog".toList, 0), ("c-at".toList, 1)],
      termKey op.1 = "cat".toList) ∧
    (callsWithKey [("cat".toList, 1), ("Cat".toList, 0), ("dog".toList, 0),
        ("c-at".toList, 1)] "cat".toList).length < 2147483648 ∧
    (buildIndex [("cat".toList, 1), ("Cat".toList, 0), ("dog".toList, 0),
        ("c-at".toList, 1)]).postings "cat".toList =
      [{ fileId := 1, frequency := 2, positions := List.replicate MAX_WORD_LENGTH 0 },
       { fileId := 0, frequency := 1, positions := List.replicate MAX_WORD_LENGTH 0 }] ∧
    ((buildIndex [("cat".toList, 1), ("Cat".toList, 0), ("dog".toList, 0),
        ("c-at".toList, 1)]).getWordDetails "cats".toList).take 3 =
      ["Word: cats [stemmed: cat]".toList, "Total occurrences: 3".toList,
       "Occurrences by file:".toList] ∧
    (((buildIndex [("cat".toList, 1), ("Cat".toList, 0), ("dog".toList, 0),
        ("c-at".toList, 1)]).postings "cat".toList).map (fun fi => fi.frequency)).sum =
      (((callsWithKey [("cat".toList, 1), ("Cat".toList, 0), ("dog".toList, 0),
        ("c-at".toList, 1)] "cat".toList).length : Nat) : Int) :=
  ⟨by decide, by decide, by decide, by decide,
    (postings_frequency_count [("cat".toList, 1), ("Cat".toList, 0), ("dog".toList, 0),
      ("c-at".toList, 1)] "cat".toList (by decide) (by decide)).2.2.2.1⟩

theorem replicate_frequency_count (n : Nat) (r : List Char) (d : Nat) (h : 0 < n)
    (hkey : termKey r = r) (hstem : stem r = r) :
    (∃ op ∈ List.replicate n (r, d), termKey op.1 = r) ∧
    insertCount (List.replicate n (r, d)) r d = n ∧
    (callsWithKey (List.replicate n (r, d)) r).length = n ∧
    (buildIndex (List.replicate n (r, d))).postings r =
      [{ fileId := d, frequency := wrapInt (n : Nat),
         positions := List.replicate MAX_WORD_LENGTH 0 }] ∧
    ((buildIndex (List.replicate n (r, d))).getWordDetails r)[1]? =
      some (totalLine (wrapInt (n : Nat))) := by
  have hk : ∃ op ∈ List.replicate n (r, d), termKey op.1 = r :=
    ⟨(r, d), List.mem_replicate.mpr ⟨by omega, rfl⟩, hkey⟩
  have h1 := insertCount_replicate n r d
  have h2 := callsWithKey_replicate n r d
  rw [hkey] at h1 h2
  refine ⟨hk, h1, by rw [h2, List.length_replicate], ?_, ?_⟩
  · rw [(postings_buildIndex _ r hk).1]
    exact fileInfo_replicate n r d h
  · rw [getWordDetails_buildIndex _ r hk r hstem, h2, List.length_replicate]
    rfl

/-- C23 (counterexample): after 2147483648 calls `insert("a", 0)` the number of calls
with key "a" and document 0 is 2147483648, while the frequency stored in the posting is
-2147483648 and `getWordDetails("a")` reports the total -2147483648. -/
theorem frequency_count_wraps :
    (∃ op ∈ List.replicate 2147483648 ("a".toList, 0), termKey op.1 = "a".toList) ∧
    insertCount (List.replicate 2147483648 ("a".toList, 0)) "a".toList 0 = 2147483648 ∧
    (buildIndex (List.replicate 2147483648 ("a".toList, 0))).postings "a".toList =
      [{ fileId := 0, frequency := -2147483648,
         positions := List.replicate MAX_WORD_LENGTH 0 }] ∧
    ((buildIndex (List.replicate 2147483648 ("a".toList, 0))).getWordDetails "a".toList)[1]? =
      some "Total occurrences: -2147483648".toList := by
  have hw : wrapInt ((2147483648 : Nat) : Int) = -2147483648 := by unfold wrapInt; omega
  have hline : totalLine (-2147483648) = "Total occurrences: -2147483648".toList := by decide
  have h := replicate_frequency_count 2147483648 "a".toList 0 (by decide) (by decide)
    (by decide)
  rw [hw, hline] at h
  exact ⟨h.1, h.2.1, h.2.2.2.1, h.2.2.2.2⟩

theorem isNull_descend_insertAt (w1 w2 : List Char) (fileId : Nat) (p q : List (Fin 26))
    (current : TrieNode) :
    (descend (insertAt w1 fileId p current) q).isNull =
      (descend (insertAt w2 fileId p current) q).isNull := by
  induction p generalizing current q with
  | nil =>
    cases current with
    | nullptr => rfl
    | node ch e w f =>
      cases q with
      | nil => rfl
      | cons j rest => rfl
  | cons i rest ih =>
    cases current with
    | nullptr => rfl
    | node ch e w f =>
      cases q with
      | nil => rfl
      | cons j q2 =>
        show (descend (((TrieNode.node ch e w f).setChild i
            (insertAt w1 fileId rest (orNew ((TrieNode.node ch e w f).child i)))).child j)
              q2).isNull =
          (descend (((TrieNode.node ch e w f).setChild i
            (insertAt w2 fileId rest (orNew ((TrieNode.node ch e w f).child i)))).child j)
              q2).isNull
        by_cases e2 : j = i
        · subst e2
          simp only [TrieNode.setChild, TrieNode.child, if_true]
          exact ih _ _
        · simp only [TrieNode.setChild, TrieNode.child, if_neg e2]

/-- C24: `insert` skips the non-alphabetic characters of the raw term: `insert(r, d)`
marks terminal exactly one node, the one at the path spelled by the alphabetic characters
of `r` lowercased in order, and the resulting trie has at every path the same node
presence, terminal flag and postings as after `insert(termKey r, d)`, and the same
canonical term except possibly at that node. -/
theorem insert_skips_nonalpha (T : Trie) (r : List Char) (d : Nat)
    (hT : T.root.isNull = false) :
    letterPath r = (termKey r).map childIndex ∧
    (descend (T.insert r d).root (letterPath r)).isEndOfWord = true ∧
    (∀ q, q ≠ letterPath r →
      (descend (T.insert r d).root q).isEndOfWord = (descend T.root q).isEndOfWord) ∧
    (∀ q,
      (descend (T.insert r d).root q).isNull =
        (descend (T.insert (termKey r) d).root q).isNull ∧
      (descend (T.insert r d).root q).isEndOfWord =
        (descend (T.insert (termKey r) d).root q).isEndOfWord ∧
      (descend (T.insert r d).root q).fileInfo =
        (descend (T.insert (termKey r) d).root q).fileInfo ∧
      (q ≠ letterPath r →
        (descend (T.insert r d).root q).word =
          (descend (T.insert (termKey r) d).root q).word)) := by
  have hv1 := fun q => view_descend_insert T r d q hT
  have hv2 := fun q => view_descend_insert T (termKey r) d q hT
  rw [letterPath_termKey] at hv2
  refine ⟨letterPath_eq_map_termKey r, ?_, ?_, ?_⟩
  · have h := congrArg NodeView.isEnd (hv1 (letterPath r))
    rw [if_pos rfl] at h
    exact h
  · intro q hq
    have h := congrArg NodeView.isEnd (hv1 q)
    rw [if_neg hq] at h
    exact h
  · intro q
    refine ⟨?_, ?_, ?_, ?_⟩
    · show (descend (insertFrom r d r T.root) q).isNull =
        (descend (insertFrom (termKey r) d (termKey r) T.root) q).isNull
      rw [insertFrom_eq_insertAt, insertFrom_eq_insertAt, letterPath_termKey]
      exact isNull_descend_insertAt _ _ _ _ _ _
    · have h1 := congrArg NodeView.isEnd (hv1 q)
      have h2 := congrArg NodeView.isEnd (hv2 q)
      refine h1.trans (Eq.trans ?_ h2.symm)
      by_cases e : q = letterPath r
      · rw [if_pos e, if_pos e]; rfl
      · rw [if_neg e, if_neg e]
    · have h1 := congrArg NodeView.fileInfo (hv1 q)
      have h2 := congrArg NodeView.fileInfo (hv2 q)
      refine h1.trans (Eq.trans ?_ h2.symm)
      by_cases e : q = letterPath r
      · rw [if_pos e, if_pos e]; rfl
      · rw [if_neg e, if_neg e]
    · intro e
      have h1 := congrArg NodeView.word (hv1 q)
      have h2 := congrArg NodeView.word (hv2 q)
      rw [if_neg e] at h1 h2
      exact h1.trans h2.symm

theorem insert_skips_nonalpha_witness :
    Trie.empty.root.isNull = false ∧
    termKey "c-A.t".toList = "cat".toList ∧
    (descend (Trie.empty.insert "c-A.t".toList 0).root (letterPath "cat".toList)).isEndOfWord =
      true ∧
    (descend (Trie.empty.insert "c-A.t".toList 0).root (letterPath "cat".toList)).word =
      "c-A.t".toList ∧
    (descend (Trie.empty.insert "cat".toList 0).root (letterPath "cat".toList)).word =
      "cat".toList ∧
    letterPath "c-A.t".toList = (termKey "c-A.t".toList).map childIndex :=
  ⟨by decide, by decide, by decide, by decide, by decide,
    (insert_skips_nonalpha Trie.empty "c-A.t".toList 0 (by decide)).1⟩

/-- C25: lookup aborts on a non-alphabetic character: for a word whose stemmed form
contains a non-alphabetic character, `search` returns false and `getWordDetails` returns
no result line, on every index. -/
theorem lookup_aborts_on_nonalpha (T : Trie) (word : List Char)
    (h : ∃ c ∈ stem word, c.isAlpha = false) :
    T.search word = false ∧ T.getWordDetails word = [] := by
  unfold Trie.search Trie.getWordDetails
  rw [walk_none_of_nonalpha (stem word) T.root h]
  exact ⟨rfl, rfl⟩

theorem lookup_aborts_on_nonalpha_witness :
    (∃ c ∈ stem "c-at".toList, c.isAlpha = false) ∧
    sampleIndex.isIndexed (termKey (stem "c-at".toList)) = true ∧
    sampleIndex.search "cat".toList = true ∧
    sampleIndex.search "c-at".toList = false ∧
    sampleIndex.getWordDetails "c-at".toList = [] :=
  ⟨by decide, by decide, by decide,
    (lookup_aborts_on_nonalpha sampleIndex "c-at".toList (by decide)).1,
    (lookup_aborts_on_nonalpha sampleIndex "c-at".toList (by decide)).2⟩

/-- C27: `isStopWord(w)` is true iff `w` is exactly one of the ten listed words; the
comparison is case-sensitive ("The" is not a stop word). -/
theorem isStopWord_iff :
    (∀ w : List Char, isStopWord w = true ↔
      w ∈ ["the".toList, "a".toList, "is".toList, "of".toList, "and".toList, "in".toList,
        "to".toList, "it".toList, "that".toList, "for".toList]) ∧
    isStopWord "the".toList = true ∧ isStopWord "The".toList = false ∧
    isStopWord "THE".toList = false ∧ isStopWord "them".toList = false := by
  refine ⟨?_, by decide, by decide, by decide, by decide⟩
  intro w
  unfold isStopWord
  simp only [List.any_cons, List.any_nil, Bool.or_false, Bool.or_eq_true, decide_eq_true_eq,
    List.mem_cons, List.mem_singleton, List.not_mem_nil, or_false]
  constructor
  · intro h
    rcases h with h | h | h | h | h | h | h | h | h | h <;> simp [← h]
  · intro h
    rcases h with h | h | h | h | h | h | h | h | h | h <;> simp [h]

theorem length_dedouble_pos (w : List Char) (h : 0 < w.length) : 0 < (dedouble w).length := by
  unfold dedouble
  simp only
  split_ifs with e
  · rw [List.length_take]; omega
  · exact h

theorem length_stem_pos (w : List Char) (h : 0 < w.length) : 0 < (stem w).length := by
  unfold stem
  simp only
  split_ifs
  · apply length_dedouble_pos; rw [List.length_take]; omega
  · apply length_dedouble_pos; rw [List.length_take]; omega
  · rw [List.length_append]; simp
  · rw [List.length_take]; omega
  · rw [List.length_take]; omega
  · exact h
  · exact h

theorem stem_eq_nil_iff (w : List Char) : stem w = [] ↔ w = [] := by
  constructor
  · intro h
    by_contra hne
    have := length_stem_pos w (List.length_pos.mpr hne)
    rw [h] at this
    exact absurd this (by decide)
  · intro h
    rw [h]
    rfl

theorem tokenCall_eq (fileId : Nat) (word : List Char) :
    tokenCall fileId word =
      if !isStopWord (cleanWord word) && decide (cleanWord word ≠ []) then
        some (stem (cleanWord word), fileId)
      else none := by
  unfold tokenCall
  by_cases hs : isStopWord (cleanWord word) = true
  · simp [hs]
  · have hs2 : isStopWord (cleanWord word) = false := by simpa using hs
    by_cases e : cleanWord word = []
    · simp [hs2, e, stem]
    · have : 0 < (stem (cleanWord word)).length := length_stem_pos _ (List.length_pos.mpr e)
      simp [hs2, e, this]

theorem processToken_eq (fileId : Nat) (T : Trie) (word : List Char) :
    processToken fileId T word =
      match tokenCall fileId word with
      | none => T
      | some call => T.insert call.1 call.2 := by
  unfold processToken tokenCall
  simp only
  split_ifs <;> rfl

theorem filterMap_tokenCall (fileId : Nat) (tokens : List (List Char)) :
    tokens.filterMap (tokenCall fileId) = (normalizedTerms tokens).map (fun t => (t, fileId)) := by
  induction tokens with
  | nil => rfl
  | cons word rest ih =>
    unfold normalizedTerms at ih ⊢
    rw [List.filterMap_cons, tokenCall_eq, List.map_cons]
    by_cases h : (!isStopWord (cleanWord word) && decide (cleanWord word ≠ [])) = true
    · rw [if_pos h, List.filter_cons_of_pos (p := fun w => !isStopWord w && decide (w ≠ [])) h,
        List.map_cons, List.map_cons, ih]
    · rw [if_neg h, List.filter_cons_of_neg (p := fun w => !isStopWord w && decide (w ≠ [])) h,
        ih]

theorem foldl_processToken (fileId : Nat) (tokens : List (List Char)) (T : Trie) :
    tokens.foldl (processToken fileId) T =
      (tokens.filterMap (tokenCall fileId)).foldl (fun T call => T.insert call.1 call.2) T := by
  induction tokens generalizing T with
  | nil => rfl
  | cons word rest ih =>
    rw [List.foldl_cons, ih, processToken_eq, List.filterMap_cons]
    cases tokenCall fileId word with
    | none => rfl
    | some call => rfl

theorem processFile_eq (T : Trie) (filename : List Char) (tokens : List (List Char)) :
    processFile T filename tokens =
      ((normalizedTerms tokens).map (fun t => (t, (T.addFile filename).2))).foldl
        (fun T call => T.insert call.1 call.2) (T.addFile filename).1 := by
  unfold processFile
  simp only
  rw [foldl_processToken, filterMap_tokenCall]

/-- C26: ingestion normalizes each raw token by keeping its alphabetic characters
lowercased, dropping it when that string is a stop word, stemming it otherwise and
inserting the stem when it is non-empty; the `insert` calls made for the tokens of a
document are exactly the stems of the non-stop-word, non-empty cleaned tokens, in token
order, all with the id `addFile` returned for the document's path. -/
theorem processFile_insert_calls :
    (∀ (fileId : Nat) (T : Trie) (word : List Char),
      processToken fileId T word =
        if isStopWord (cleanWord word) then T
        else if stem (cleanWord word) ≠ [] then T.insert (stem (cleanWord word)) fileId
        else T) ∧
    (∀ word : List Char, cleanWord word = (word.filter Char.isAlpha).map Char.toLower) ∧
    (∀ w : List Char, stem w = [] ↔ w = []) ∧
    (∀ (fileId : Nat) (tokens : List (List Char)),
      tokens.filterMap (tokenCall fileId) =
        (normalizedTerms tokens).map (fun t => (t, fileId))) ∧
    (∀ (T : Trie) (filename : List Char) (tokens : List (List Char)),
      processFile T filename tokens =
        ((normalizedTerms tokens).map (fun t => (t, (T.addFile filename).2))).foldl
          (fun T call => T.insert call.1 call.2) (T.addFile filename).1 ∧
      processFile T filename tokens =
        (tokens.filterMap (tokenCall (T.addFile filename).2)).foldl
          (fun T call => T.insert call.1 call.2) (T.addFile filename).1) ∧
    normalizedTerms ["The".toList, "Cats,".toList, "123".toList, "fores".toList,
        "running!".toList] =
      ["cat".toList, "for".toList, "run".toList] := by
  refine ⟨?_, fun _ => rfl, stem_eq_nil_iff, filterMap_tokenCall, ?_, by decide⟩
  · intro fileId T word
    unfold processToken
    simp only
    by_cases hs : isStopWord (cleanWord word) = true
    · rw [if_pos hs, if_pos hs]
    · rw [if_neg hs, if_neg hs]
      by_cases e : stem (cleanWord word) = []
      · rw [e]; rfl
      · rw [if_pos (List.length_pos.mpr e), if_pos e]
  · intro T filename tokens
    refine ⟨processFile_eq T filename tokens, ?_⟩
    rw [processFile_eq, filterMap_tokenCall]

theorem positions_recordOccurrence (f : List FileInfo) (d : Nat)
    (hf : ∀ fi ∈ f, ∀ p ∈ fi.positions, p = 0) :
    ∀ fi ∈ recordOccurrence f d, ∀ p ∈ fi.positions, p = 0 := by
  induction f with
  | nil =>
    intro fi hfi p hp
    rw [recordOccurrence_nil] at hfi
    rw [List.mem_singleton.mp hfi] at hp
    exact List.eq_of_mem_replicate hp
  | cons a rest ih =>
    intro fi hfi
    rw [recordOccurrence_cons] at hfi
    split_ifs at hfi with e
    · rcases List.mem_cons.mp hfi with h | h
      · rw [h]; exact hf a (List.mem_cons_self _ _)
      · exact hf fi (List.mem_cons_of_mem _ h)
    · rcases List.mem_cons.mp hfi with h | h
      · rw [h]; exact hf a (List.mem_cons_self _ _)
      · exact ih (fun x hx => hf x (List.mem_cons_of_mem _ hx)) fi h

theorem NoPositions_insert (T : Trie) (word : List Char) (fileId : Nat) (h : NoPositions T) :
    NoPositions (T.insert word fileId) := by
  cases hn : T.root.isNull with
  | true =>
    have hroot : (T.insert word fileId).root = TrieNode.nullptr := by
      show insertFrom word fileId word T.root = _
      rw [insertFrom_eq_insertAt, eq_nullptr_of_isNull T.root hn, insertAt_nullptr]
    intro q fi hfi
    rw [hroot, descend_nullptr] at hfi
    exact absurd hfi (List.not_mem_nil fi)
  | false =>
    intro q
    have hv := congrArg NodeView.fileInfo (view_descend_insert T word fileId q hn)
    change (descend (T.insert word fileId).root q).fileInfo = _ at hv
    rw [hv]
    by_cases e : q = letterPath word
    · rw [if_pos e]
      exact positions_recordOccurrence _ _ (h (letterPath word))
    · rw [if_neg e]
      exact h q

theorem NoPositions_addFile (T : Trie) (filename : List Char) (h : NoPositions T) :
    NoPositions (T.addFile filename).1 := by
  intro q
  rw [addFile_root]
  exact h q

theorem NoPositions_empty : NoPositions Trie.empty := by
  intro q fi hfi
  have h := congrArg NodeView.fileInfo (descend_newTrieNode_view q)
  change (descend Trie.empty.root q).fileInfo = [] at h
  rw [h] at hfi
  exact absurd hfi (List.not_mem_nil fi)

theorem NoPositions_runCalls (calls : List IndexCall) : NoPositions (runCalls calls) := by
  unfold runCalls
  have key : ∀ (T : Trie), NoPositions T → NoPositions (calls.foldl Trie.call T) := by
    induction calls with
    | nil => exact fun T h => h
    | cons c rest ih =>
      intro T h
      rw [List.foldl_cons]
      apply ih
      cases c with
      | insert word fileId => exact NoPositions_insert T word fileId h
      | addFile filename => exact NoPositions_addFile T filename h
  exact key _ NoPositions_empty

theorem NoPositions_processFile (T : Trie) (filename : List Char) (tokens : List (List Char))
    (h : NoPositions T) : NoPositions (processFile T filename tokens) := by
  rw [processFile_eq]
  have key : ∀ (calls : List (List Char × Nat)) (T : Trie), NoPositions T →
      NoPositions (calls.foldl (fun T call => T.insert call.1 call.2) T) := by
    intro calls
    induction calls with
    | nil => exact fun T h => h
    | cons c rest ih =>
      intro T h
      rw [List.foldl_cons]
      exact ih _ (NoPositions_insert T c.1 c.2 h)
  exact key _ _ (NoPositions_addFile T filename h)

theorem NoPositions_ingest (docs : List Document) : NoPositions (ingest docs) := by
  unfold ingest
  have key : ∀ (T : Trie), NoPositions T →
      NoPositions (docs.foldl (fun T doc => processFile T doc.1 doc.2) T) := by
    induction docs with
    | nil => exact fun T h => h
    | cons doc rest ih =>
      intro T h
      rw [List.foldl_cons]
      exact ih _ (NoPositions_processFile T doc.1 doc.2 h)
  exact key _ NoPositions_empty

theorem walkBreak_eq_descend (s : List Char) (current : TrieNode) :
    ∃ q, walkBreak current s = descend current q := by
  induction s generalizing current with
  | nil => exact ⟨[], rfl⟩
  | cons c rest ih =>
    unfold walkBreak
    simp only
    split_ifs with h
    · exact ⟨[], rfl⟩
    · cases hc : current.child (Fin.ofNat ((c.toLower.toNat : Int) - ('a'.toNat : Int)).toNat) with
      | nullptr => exact ⟨[], rfl⟩
      | node ch e w f =>
        obtain ⟨q, hq⟩ := ih (TrieNode.node ch e w f)
        refine ⟨Fin.ofNat ((c.toLower.toNat : Int) - ('a'.toNat : Int)).toNat :: q, ?_⟩
        show _ = descend (current.child _) q
        rw [hc]
        exact hq

theorem copyPositions_of_zero (fi : FileInfo) (h : ∀ p ∈ fi.positions, p = 0) :
    copyPositions fi = [] := by
  unfold copyPositions
  cases hp : fi.positions.take MAX_WORD_LENGTH with
  | nil => rfl
  | cons a rest =>
    have ha : a ∈ fi.positions := List.mem_of_mem_take (hp ▸ List.mem_cons_self a rest)
    rw [h a ha]
    simp

theorem positionsIn_of_noPositions (T : Trie) (h : NoPositions T) (s : List Char) (d : Nat) :
    positionsIn (walkBreak T.root s) d = [] := by
  obtain ⟨q, hq⟩ := walkBreak_eq_descend s T.root
  rw [hq]
  unfold positionsIn
  split_ifs
  · cases hf : (descend T.root q).fileInfo.find? (fun fi => decide (fi.fileId = d)) with
    | none => rfl
    | some fi => exact copyPositions_of_zero fi (h q fi (List.mem_of_find?_eq_some hf))
  · rfl

theorem proximitySearch_of_noPositions (T : Trie) (h : NoPositions T) (word1 word2 : List Char)
    (maxDistance : Int) : T.proximitySearch word1 word2 maxDistance = (false, []) := by
  unfold Trie.proximitySearch
  simp only [positionsIn_of_noPositions T h]
  have : ∀ l : List Nat, l.filterMap (fun fileId =>
      (firstProximity [] [] maxDistance).map
        (fun distance => proximityLine (T.getFilename fileId) distance)) = [] := by
    intro l
    induction l with
    | nil => rfl
    | cons a rest ih => rw [List.filterMap_cons]; exact ih
  rw [this]
  rfl

/-- C30: `insert` never records a position: in every index reached from the empty trie
by `insert` and `addFile` calls, and in every index built by ingestion, every entry of
every posting's `positions` array is zero, so `proximitySearch` returns false with no
result for every pair of words and every distance. -/
theorem insert_records_no_position :
    (∀ calls : List IndexCall,
      (∀ q, ∀ fi ∈ (descend (runCalls calls).root q).fileInfo,
        (∀ p ∈ fi.positions, p = 0) ∧ copyPositions fi = []) ∧
      ∀ (word1 word2 : List Char) (maxDistance : Int),
        (runCalls calls).proximitySearch word1 word2 maxDistance = (false, [])) ∧
    (∀ docs : List Document,
      (∀ q, ∀ fi ∈ (descend (ingest docs).root q).fileInfo,
        (∀ p ∈ fi.positions, p = 0) ∧ copyPositions fi = []) ∧
      ∀ (word1 word2 : List Char) (maxDistance : Int),
        (ingest docs).proximitySearch word1 word2 maxDistance = (false, [])) := by
  constructor
  · intro calls
    have h := NoPositions_runCalls calls
    exact ⟨fun q fi hfi => ⟨h q fi hfi, copyPositions_of_zero fi (h q fi hfi)⟩,
      proximitySearch_of_noPositions _ h⟩
  · intro docs
    have h := NoPositions_ingest docs
    exact ⟨fun q fi hfi => ⟨h q fi hfi, copyPositions_of_zero fi (h q fi hfi)⟩,
      proximitySearch_of_noPositions _ h⟩

theorem root_foldl_insert (calls : List (List Char × Nat)) (T : Trie) :
    (calls.foldl (fun T call => T.insert call.1 call.2) T).root =
      calls.foldl (fun n call => insertFrom call.1 call.2 call.1 n) T.root := by
  induction calls generalizing T with
  | nil => rfl
  | cons c rest ih => rw [List.foldl_cons, ih, List.foldl_cons]; rfl

theorem root_processFile (T : Trie) (filename : List Char) (tokens : List (List Char)) :
    (processFile T filename tokens).root =
      ((normalizedTerms tokens).map (fun t => (t, (T.addFile filename).2))).foldl
        (fun n call => insertFrom call.1 call.2 call.1 n) T.root := by
  rw [processFile_eq, root_foldl_insert, addFile_root]

theorem root_foldl_processFile (docs : List Document) (T : Trie) :
    (docs.foldl (fun T doc => processFile T doc.1 doc.2) T).root =
      (ingestCalls T docs).foldl (fun n call => insertFrom call.1 call.2 call.1 n) T.root := by
  induction docs generalizing T with
  | nil => rfl
  | cons doc rest ih =>
    rw [List.foldl_cons, ih, root_processFile]
    show _ = List.foldl _ T.root (_ ++ _)
    rw [List.foldl_append]

theorem ingest_root (docs : List Document) :
    (ingest docs).root = (buildIndex (ingestCalls Trie.empty docs)).root := by
  unfold ingest buildIndex
  rw [root_foldl_processFile, root_foldl_insert]

theorem map_fst_ingestCalls (docs : List Document) (T : Trie) :
    (ingestCalls T docs).map (fun op => op.1) = docs.flatMap (fun doc => normalizedTerms doc.2) := by
  induction docs generalizing T with
  | nil => rfl
  | cons doc rest ih =>
    show List.map _ (_ ++ _) = _
    rw [List.map_append, ih, List.flatMap_cons, List.map_map]
    congr 1
    exact List.map_id _

theorem mem_ingestCalls (docs : List Document) (T : Trie) (t : List Char) :
    (∃ op ∈ ingestCalls T docs, op.1 = t) ↔ ∃ doc ∈ docs, t ∈ normalizedTerms doc.2 := by
  have h := map_fst_ingestCalls docs T
  constructor
  · rintro ⟨op, hop, rfl⟩
    have : op.1 ∈ (ingestCalls T docs).map (fun op => op.1) := List.mem_map_of_mem _ hop
    rw [h] at this
    obtain ⟨doc, hd, ht⟩ := List.mem_flatMap.mp this
    exact ⟨doc, hd, ht⟩
  · rintro ⟨doc, hd, ht⟩
    have : t ∈ (ingestCalls T docs).map (fun op => op.1) := by
      rw [h]; exact List.mem_flatMap.mpr ⟨doc, hd, ht⟩
    obtain ⟨op, hop, rfl⟩ := List.mem_map.mp this
    exact ⟨op, hop, rfl⟩

theorem isLower_cleanWord (word : List Char) : ∀ c ∈ cleanWord word, c.isLower = true := by
  intro c hc
  unfold cleanWord at hc
  obtain ⟨x, hx, rfl⟩ := List.mem_map.mp hc
  have := toLower_range x (List.mem_filter.mp hx).2
  rw [isLower_iff]
  exact this

theorem stem_lower (w : List Char) (hw : ∀ c ∈ w, c.isLower = true) :
    ∀ c ∈ stem w, c.isLower = true := by
  intro c hc
  unfold stem at hc
  simp only at hc
  split_ifs at hc
  · exact hw c (List.mem_of_mem_take (mem_dedouble _ _ hc))
  · exact hw c (List.mem_of_mem_take (mem_dedouble _ _ hc))
  · rcases List.mem_append.mp hc with h | h
    · exact hw c (List.mem_of_mem_take h)
    · rw [List.mem_singleton.mp h]; decide
  · exact hw c (List.mem_of_mem_take hc)
  · exact hw c (List.mem_of_mem_take hc)
  · exact hw c hc
  · exact hw c hc

theorem length_dedouble_le (w : List Char) : (dedouble w).length ≤ w.length := by
  unfold dedouble
  simp only
  split_ifs
  · rw [List.length_take]; omega
  · exact Nat.le_refl _

theorem length_stem_le (w : List Char) : (stem w).length ≤ w.length := by
  unfold stem
  simp only
  split_ifs
  · exact Nat.le_trans (length_dedouble_le _) (by rw [List.length_take]; omega)
  · exact Nat.le_trans (length_dedouble_le _) (by rw [List.length_take]; omega)
  · rw [List.length_append, List.length_take, List.length_singleton]; omega
  · rw [List.length_take]; omega
  · rw [List.length_take]; omega
  · exact Nat.le_refl _
  · exact Nat.le_refl _

theorem length_cleanWord_le (word : List Char) : (cleanWord word).length ≤ word.length := by
  unfold cleanWord
  rw [List.length_map]
  exact List.length_filter_le _ _

theorem mem_normalizedTerms (tokens : List (List Char)) (t : List Char)
    (h : t ∈ normalizedTerms tokens) :
    ∃ tok ∈ tokens, t = stem (cleanWord tok) ∧ isStopWord (cleanWord tok) = false ∧
      cleanWord tok ≠ [] := by
  unfold normalizedTerms at h
  obtain ⟨w, hw, rfl⟩ := List.mem_map.mp h
  obtain ⟨hw1, hw2⟩ := List.mem_filter.mp hw
  obtain ⟨tok, htok, rfl⟩ := List.mem_map.mp hw1
  simp only [Bool.and_eq_true, Bool.not_eq_true', decide_eq_true_eq] at hw2
  exact ⟨tok, htok, rfl, hw2.1, hw2.2⟩

theorem ingestCalls_lower (docs : List Document) (T : Trie) :
    ∀ op ∈ ingestCalls T docs, ∀ c ∈ op.1, c.isLower = true := by
  intro op hop
  obtain ⟨doc, _, ht⟩ := (mem_ingestCalls docs T op.1).mp ⟨op, hop, rfl⟩
  obtain ⟨tok, _, he, _, _⟩ := mem_normalizedTerms doc.2 op.1 ht
  rw [he]
  exact stem_lower _ (isLower_cleanWord tok)

theorem ingestCalls_ne_nil (docs : List Document) (T : Trie) :
    ∀ op ∈ ingestCalls T docs, op.1 ≠ [] := by
  intro op hop
  obtain ⟨doc, _, ht⟩ := (mem_ingestCalls docs T op.1).mp ⟨op, hop, rfl⟩
  obtain ⟨tok, _, he, _, hne⟩ := mem_normalizedTerms doc.2 op.1 ht
  rw [he]
  exact fun h => hne ((stem_eq_nil_iff _).mp h)

theorem letterPath_ne_nil_of_lower (s : List Char) (hs : ∀ c ∈ s, c.isLower = true)
    (hne : s ≠ []) : letterPath s ≠ [] := by
  cases s with
  | nil => exact absurd rfl hne
  | cons c rest =>
    rw [letterPath_cons_alpha c rest (isAlpha_of_isLower c (hs c (List.mem_cons_self _ _)))]
    exact List.cons_ne_nil _ _

theorem ingest_root_not_terminal (docs : List Document) :
    (ingest docs).root.isNull = false ∧ (ingest docs).root.isEndOfWord = false := by
  rw [ingest_root]
  refine ⟨buildIndex_root_isNull _, ?_⟩
  cases h : (buildIndex (ingestCalls Trie.empty docs)).root.isEndOfWord with
  | false => rfl
  | true =>
    obtain ⟨op, hop, hq⟩ := (isEnd_buildIndex (ingestCalls Trie.empty docs) []).mp h
    exact absurd hq (letterPath_ne_nil_of_lower op.1 (ingestCalls_lower docs _ op hop)
      (ingestCalls_ne_nil docs _ op hop))

theorem autocomplete_nil (T : Trie) :
    T.autocomplete [] = (decide (preorderTerms T.root ≠ []), preorderTerms T.root) := by
  unfold Trie.autocomplete
  simp only [walk, collectWords_eq, List.nil_append]
  rw [decide_length_pos]

theorem mem_preorderTerms_ingest (docs : List Document) (t : List Char) :
    t ∈ preorderTerms (ingest docs).root ↔ ∃ doc ∈ docs, t ∈ normalizedTerms doc.2 := by
  rw [ingest_root, ← mem_ingestCalls docs Trie.empty t]
  have h := (autocomplete_built (ingestCalls Trie.empty docs) []
    (ingestCalls_lower docs Trie.empty) (fun c hc => absurd hc (List.not_mem_nil c))).2.1 t
  rw [autocomplete_nil] at h
  rw [h]
  simp

theorem editDistance_nil_left (w : List Char) (h : w.length ≤ MAX_WORD_LENGTH) :
    editDistance [] w = w.length := by
  rw [editDistance_eq_lev [] w h, lev_nil_left]

theorem spellCheck_nil_perm (T : Trie)
    (hwords : ∀ w ∈ findAllWords T.root [], w.length < MAX_WORD_LENGTH) :
    (T.spellCheck []).2.Perm
      ((findAllWords T.root []).filter (fun w => decide (w.length ≤ 2))) := by
  have hfilter : (findAllWords T.root []).filter
      (fun w => decide (editDistance [] w ≤ MAX_EDIT_DISTANCE)) =
      (findAllWords T.root []).filter (fun w => decide (w.length ≤ 2)) := by
    apply List.filter_congr
    intro w hw
    rw [editDistance_nil_left w (Nat.le_of_lt (hwords w hw))]
    rfl
  rw [spellCheck_eq, ← hfilter]
  have h1 := (bubbleSort_perm (((findAllWords T.root []).filter
    (fun w => decide (editDistance [] w ≤ MAX_EDIT_DISTANCE))).map
    (fun w => WordDistance.mk w (editDistance [] w)))).map (fun wd => wd.word)
  simpa [List.map_map, Function.comp_def] using h1

theorem length_ingested_lt (docs : List Document)
    (htok : ∀ doc ∈ docs, ∀ tok ∈ doc.2, tok.length < MAX_WORD_LENGTH) :
    ∀ w ∈ findAllWords (ingest docs).root [], w.length < MAX_WORD_LENGTH := by
  intro w hw
  rw [findAllWords_eq] at hw
  have hw2 : w ∈ preorderTerms (ingest docs).root := by
    simp only [List.nil_append] at hw
    exact List.mem_of_mem_take hw
  obtain ⟨doc, hd, ht⟩ := (mem_preorderTerms_ingest docs w).mp hw2
  obtain ⟨tok, htk, he, _, _⟩ := mem_normalizedTerms doc.2 w ht
  have h1 := length_stem_le (cleanWord tok)
  have h2 := length_cleanWord_le tok
  have h3 := htok doc hd tok htk
  rw [he]
  omega

theorem perm_preorderTerms_ingest (docs : List Document) :
    (preorderTerms (ingest docs).root).Perm
      ((docs.flatMap (fun doc => normalizedTerms doc.2)).dedup) := by
  have hb := (autocomplete_built (ingestCalls Trie.empty docs) []
    (ingestCalls_lower docs Trie.empty) (fun c hc => absurd hc (List.not_mem_nil c))).1
  rw [autocomplete_nil, ← ingest_root] at hb
  have hnd : (preorderTerms (ingest docs).root).Nodup := by
    apply List.Pairwise.imp _ hb
    intro a b hab e
    subst e
    exact lex_char_irrefl a hab
  rw [List.perm_ext_iff_of_nodup hnd (List.nodup_dedup _)]
  intro t
  rw [mem_preorderTerms_ingest, List.mem_dedup, List.mem_flatMap]

/-- C28 (amended): on every index built by ingestion (tokens of fewer than 100
characters) that holds at most 50 distinct terms, `search("")` returns false,
`advancedSearch("")` returns false with no result and `proximitySearch` with an empty
word returns false with no result; `autocomplete("")` and `partialSearch("")` return
every indexed term (the whole enumeration of the trie, within the capacity of the output
array) and true iff the index holds a term; `spellCheck("")` returns the enumerated
terms of at most two characters. -/
theorem empty_query_results (docs : List Document)
    (htok : ∀ doc ∈ docs, ∀ tok ∈ doc.2, tok.length < MAX_WORD_LENGTH)
    (hcap : ((docs.flatMap (fun doc => normalizedTerms doc.2)).dedup).length ≤
      MAX_SUGGESTIONS) :
    (ingest docs).search [] = false ∧
    (ingest docs).advancedSearch [] = (false, []) ∧
    (∀ (w : List Char) (maxDistance : Int),
      (ingest docs).proximitySearch [] w maxDistance = (false, []) ∧
      (ingest docs).proximitySearch w [] maxDistance = (false, [])) ∧
    (ingest docs).autocomplete [] =
      (decide (preorderTerms (ingest docs).root ≠ []), preorderTerms (ingest docs).root) ∧
    ((ingest docs).autocomplete []).2.length ≤ MAX_SUGGESTIONS ∧
    (ingest docs).partialSearch [] = (ingest docs).autocomplete [] ∧
    (∀ t, t ∈ preorderTerms (ingest docs).root ↔ ∃ doc ∈ docs, t ∈ normalizedTerms doc.2) ∧
    ((ingest docs).spellCheck []).2.Perm
      ((findAllWords (ingest docs).root []).filter (fun w => decide (w.length ≤ 2))) ∧
    ((ingest docs).spellCheck []).1 = decide (((ingest docs).spellCheck []).2 ≠ []) := by
  have hnp := NoPositions_ingest docs
  refine ⟨?_, rfl, fun w m => ⟨proximitySearch_of_noPositions _ hnp _ _ _,
    proximitySearch_of_noPositions _ hnp _ _ _⟩, autocomplete_nil _, ?_, rfl,
    mem_preorderTerms_ingest docs,
    spellCheck_nil_perm _ (length_ingested_lt docs htok), decide_length_pos _⟩
  · show (match walk (ingest docs).root (stem []) with
      | none => false
      | some current => !current.isNull && current.isEndOfWord) = false
    have hs : stem ([] : List Char) = [] := rfl
    rw [hs]
    show (!(ingest docs).root.isNull && (ingest docs).root.isEndOfWord) = false
    rw [(ingest_root_not_terminal docs).2]
    simp
  · rw [autocomplete_nil]
    show (preorderTerms (ingest docs).root).length ≤ MAX_SUGGESTIONS
    rw [(perm_preorderTerms_ingest docs).length_eq]
    exact hcap

theorem empty_query_results_witness :
    (∀ doc ∈ shortWordDocs, ∀ tok ∈ doc.2, tok.length < MAX_WORD_LENGTH) ∧
    ((shortWordDocs.flatMap (fun doc => normalizedTerms doc.2)).dedup).length ≤
      MAX_SUGGESTIONS ∧
    (ingest shortWordDocs).search [] = false ∧
    (ingest shortWordDocs).advancedSearch [] = (false, []) ∧
    preorderTerms (ingest shortWordDocs).root = ["cat".toList, "go".toList] ∧
    (ingest shortWordDocs).autocomplete [] =
      (decide (preorderTerms (ingest shortWordDocs).root ≠ []),
        preorderTerms (ingest shortWordDocs).root) :=
  ⟨by decide, by decide, by decide, by decide, by decide,
    (empty_query_results shortWordDocs (by decide) (by decide)).2.2.2.1⟩

/-- C28 (counterexample): on the index built by ingesting one file with the tokens "go"
and "cat", `autocomplete("")` and `partialSearch("")` return true with both terms, and
`spellCheck("")` returns true with the suggestion "go". -/
theorem empty_query_returns_terms :
    (ingest shortWordDocs).autocomplete "".toList = (true, ["cat".toList, "go".toList]) ∧
    (ingest shortWordDocs).partialSearch "".toList = (true, ["cat".toList, "go".toList]) ∧
    (ingest shortWordDocs).spellCheck "".toList = (true, ["go".toList]) ∧
    editDistance "".toList "go".toList = 2 ∧ editDistance "".toList "cat".toList = 3 := by
  decide

theorem dedouble_eq_dropLast (x : List Char) :
    dedouble x =
      if 2 ≤ x.length ∧ x.getLast? = x.dropLast.getLast? then x.dropLast else x := by
  unfold dedouble
  simp only
  by_cases h2 : 2 ≤ x.length
  · rw [getD_length_sub_one x (by omega), getD_length_sub_two x h2, List.dropLast_eq_take]
    by_cases e : x.getD (x.length - 1) ' ' = x.getD (x.length - 2) ' '
    · rw [if_pos ⟨h2, e⟩, if_pos ⟨h2, by rw [e]⟩]
    · rw [if_neg (fun h => e h.2), if_neg (fun h => e (Option.some.inj h.2))]
  · rw [if_neg (fun h => h2 h.1), if_neg (fun h => h2 h.1)]

theorem stem_of_ing (w : List Char) (hlen : w.length > 3) (hing : "ing".toList <:+ w) :
    stem w = dedouble (w.take (w.length - 3)) := by
  have hdrop : w.drop (w.length - 3) = "ing".toList :=
    (drop_eq_iff_suffix w "ing".toList (by show 3 ≤ w.length; omega)).mpr hing
  unfold stem
  simp only
  rw [if_pos hlen, if_pos hdrop]

/-- C32: for every word `w` of length > 3 ending in "ing", `stem(w)` is `w` without the
"ing" suffix, with one further trailing character removed iff the remaining string has
length at least 2 and its last two characters are identical; the de-doubling is applied
once and no other rule is applied to the result. -/
theorem stem_ing (w : List Char) (hlen : w.length > 3) (hing : "ing".toList <:+ w) :
    w = w.take (w.length - 3) ++ "ing".toList ∧
    stem w =
      (if 2 ≤ (w.take (w.length - 3)).length ∧
          (w.take (w.length - 3)).getLast? = (w.take (w.length - 3)).dropLast.getLast? then
        (w.take (w.length - 3)).dropLast
      else w.take (w.length - 3)) ∧
    (stem w = w.take (w.length - 3) ∨ stem w = w.take (w.length - 4)) := by
  have hdrop : w.drop (w.length - 3) = "ing".toList :=
    (drop_eq_iff_suffix w "ing".toList (by show 3 ≤ w.length; omega)).mpr hing
  have hstem := stem_of_ing w hlen hing
  refine ⟨?_, ?_, ?_⟩
  · conv_lhs => rw [← List.take_append_drop (w.length - 3) w]
    rw [hdrop]
  · rw [hstem, dedouble_eq_dropLast]
  · rw [hstem, dedouble_eq_dropLast]
    split_ifs
    · right
      rw [List.dropLast_eq_take, List.take_take, List.length_take]
      congr 1
      omega
    · left; rfl

theorem stem_ing_witness :
    "running".toList.length > 3 ∧ "ing".toList <:+ "running".toList ∧
    stem "running".toList = "run".toList ∧
    stem "buzzzing".toList = "buzz".toList ∧
    stem "redesing".toList = "redes".toList ∧
    stem "seeing".toList = "se".toList ∧
    stem "king".toList = "k".toList ∧
    "running".toList = "running".toList.take ("running".toList.length - 3) ++ "ing".toList :=
  ⟨by decide, by decide, by decide, by decide, by decide, by decide, by decide,
    (stem_ing "running".toList (by decide) (by decide)).1⟩

/-- C33: for every non-empty word `w`, `stem(w)` is non-empty and no longer than `w`; so
a token whose cleaned form `w` is non-empty and not a stop word always leads to the call
`insert(stem(w), fileId)`. -/
theorem stem_nonempty (w : List Char) (hw : w ≠ []) :
    stem w ≠ [] ∧ 0 < (stem w).length ∧ (stem w).length ≤ w.length ∧
    ∀ (fileId : Nat) (T : Trie) (word : List Char),
      cleanWord word = w → isStopWord w = false →
        tokenCall fileId word = some (stem w, fileId) ∧
        processToken fileId T word = T.insert (stem w) fileId := by
  have hpos := length_stem_pos w (List.length_pos.mpr hw)
  refine ⟨List.length_pos.mp hpos, hpos, length_stem_le w, ?_⟩
  intro fileId T word hc hs
  have hcall : tokenCall fileId word = some (stem w, fileId) := by
    rw [tokenCall_eq, hc, hs]
    simp [hw]
  refine ⟨hcall, ?_⟩
  rw [processToken_eq, hcall]

theorem stem_nonempty_witness :
    "es".toList ≠ [] ∧ stem "sing".toList = "s".toList ∧ stem "ales".toList = "al".toList ∧
    stem "es".toList ≠ [] ∧
    processToken 0 Trie.empty "Sing!".toList = Trie.empty.insert "s".toList 0 :=
  ⟨by decide, by decide, by decide, (stem_nonempty "es".toList (by decide)).1,
    ((stem_nonempty "sing".toList (by decide)).2.2.2 0 Trie.empty "Sing!".toList
      (by decide) (by decide)).2⟩

theorem shift_fold_getElem? (l : List (List Char)) (k : Nat) (hk : k < l.length) (j : Nat) :
    ((List.range k).foldl (fun qs i => qs.set i (qs.getD (i + 1) [])) l)[j]? =
      (if j < k then l[j + 1]? else l[j]?) ∧
    ((List.range k).foldl (fun qs i => qs.set i (qs.getD (i + 1) [])) l).length = l.length := by
  induction k generalizing j with
  | zero => simp
  | succ k ih =>
    rw [List.range_succ, List.foldl_append, List.foldl_cons, List.foldl_nil]
    have hlen := (ih (by omega) 0).2
    refine ⟨?_, by rw [List.length_set]; exact hlen⟩
    rw [List.getElem?_set]
    by_cases e : k = j
    · subst e
      rw [if_pos rfl, if_pos (by rw [hlen]; omega), if_pos (by omega),
        List.getD_eq_getElem?_getD, (ih (by omega) (k + 1)).1, if_neg (by omega)]
      rw [List.getElem?_eq_getElem (by omega)]
      rfl
    · rw [if_neg e, (ih (by omega) j).1]
      by_cases h1 : j < k
      · rw [if_pos h1, if_pos (by omega)]
      · rw [if_neg h1, if_neg (by omega)]

theorem shiftQueries_eq (l : List (List Char)) (h : MAX_HISTORY ≤ l.length) :
    shiftQueries l = (l.drop 1).take (MAX_HISTORY - 1) := by
  unfold shiftQueries
  apply List.ext_getElem?
  intro j
  have hk : MAX_HISTORY - 1 < l.length := by
    have : MAX_HISTORY = 20 := rfl
    omega
  rw [List.getElem?_take, List.getElem?_take, (shift_fold_getElem? l _ hk j).1,
    List.getElem?_drop]
  by_cases hj : j < MAX_HISTORY - 1
  · rw [if_pos hj, if_pos hj, if_pos hj, Nat.add_comm]
  · rw [if_neg hj, if_neg hj]

theorem shiftQueries_of_full (l : List (List Char)) (h : l.length = MAX_HISTORY) :
    shiftQueries l = l.drop 1 := by
  rw [shiftQueries_eq l (by omega)]
  apply List.take_of_length_le
  rw [List.length_drop]
  omega

theorem getD_last_eq (l : List (List Char)) (q : List Char) :
    (l.length > 0 ∧ l.getD (l.length - 1) [] = q) ↔ l.getLast? = some q := by
  cases hl : l.reverse with
  | nil =>
    have : l = [] := by simpa using hl
    subst this
    simp
  | cons a rest =>
    have hl2 : l = rest.reverse ++ [a] := by
      have := congrArg List.reverse hl
      simpa using this
    subst hl2
    simp [List.getD_eq_getElem?_getD]

theorem addQuery_eq (h : SearchHistory) (query : List Char) (hlen : h.count ≤ MAX_HISTORY) :
    (h.addQuery query).queries =
      if h.queries.getLast? = some query then h.queries
      else (if h.count = MAX_HISTORY then h.queries.drop 1 else h.queries) ++ [query] := by
  unfold SearchHistory.addQuery
  by_cases e : h.queries.getLast? = some query
  · have hc : h.count > 0 ∧ h.queries.getD (h.count - 1) [] = query :=
      (getD_last_eq h.queries query).mpr e
    rw [if_pos hc, if_pos e]
  · have hc : ¬ (h.count > 0 ∧ h.queries.getD (h.count - 1) [] = query) :=
      fun x => e ((getD_last_eq h.queries query).mp x)
    rw [if_neg hc, if_neg e]
    simp only
    by_cases hf : h.count = MAX_HISTORY
    · rw [if_pos (by omega), if_pos hf, shiftQueries_of_full _ hf]
    · rw [if_neg (by omega), if_neg hf]

theorem addQuery_count_le (h : SearchHistory) (query : List Char)
    (hlen : h.count ≤ MAX_HISTORY) : (h.addQuery query).count ≤ MAX_HISTORY := by
  show (h.addQuery query).queries.length ≤ MAX_HISTORY
  rw [addQuery_eq h query hlen]
  have h20 : MAX_HISTORY = 20 := rfl
  have hc : h.count = h.queries.length := rfl
  split_ifs with h1 h2
  · exact hlen
  · rw [List.length_append, List.length_drop, List.length_singleton]; omega
  · rw [List.length_append, List.length_singleton]; omega

theorem getLast?_drop_of_lt (l : List (List Char)) (n : Nat) (h : n < l.length) :
    (l.drop n).getLast? = l.getLast? := by
  rw [List.getLast?_eq_getElem?, List.getLast?_eq_getElem?, List.getElem?_drop,
    List.length_drop]
  congr 1
  omega

theorem history_step (hist acc : List (List Char)) (q : List Char)
    (hinv : hist = acc.drop (acc.length - MAX_HISTORY)) :
    (if hist.getLast? = some q then hist
      else (if hist.length = MAX_HISTORY then hist.drop 1 else hist) ++ [q]) =
      (if acc.getLast? = some q then acc else acc ++ [q]).drop
        ((if acc.getLast? = some q then acc else acc ++ [q]).length - MAX_HISTORY) := by
  have h20 : MAX_HISTORY = 20 := rfl
  have hlast : hist.getLast? = acc.getLast? := by
    rw [hinv]
    by_cases hz : acc.length = 0
    · have : acc = [] := List.length_eq_zero.mp hz
      subst this
      rfl
    · exact getLast?_drop_of_lt acc _ (by omega)
  have hlen : hist.length = min acc.length MAX_HISTORY := by
    rw [hinv, List.length_drop]
    omega
  rw [hlast]
  by_cases e : acc.getLast? = some q
  · rw [if_pos e, if_pos e]
    exact hinv
  · rw [if_neg e, if_neg e, List.length_append, List.length_singleton]
    by_cases hf : hist.length = MAX_HISTORY
    · rw [if_pos hf, hinv, List.drop_drop]
      have hge : MAX_HISTORY ≤ acc.length := by omega
      have e1 : acc.length - MAX_HISTORY + 1 = acc.length + 1 - MAX_HISTORY := by omega
      rw [← e1, List.drop_append_of_le_length (by omega)]
    · rw [if_neg hf]
      have hlt : acc.length < MAX_HISTORY := by omega
      have e1 : acc.length + 1 - MAX_HISTORY = 0 := by omega
      have e2 : acc.length - MAX_HISTORY = 0 := by omega
      rw [e1, List.drop_zero, hinv, e2, List.drop_zero]

theorem history_foldl (qs : List (List Char)) (h : SearchHistory) (acc : List (List Char))
    (hinv : h.queries = acc.drop (acc.length - MAX_HISTORY)) :
    (qs.foldl SearchHistory.addQuery h).queries =
      (qs.foldl (fun acc q => if acc.getLast? = some q then acc else acc ++ [q]) acc).drop
        ((qs.foldl (fun acc q => if acc.getLast? = some q then acc else acc ++ [q])
          acc).length - MAX_HISTORY) := by
  induction qs generalizing h acc with
  | nil => exact hinv
  | cons q rest ih =>
    rw [List.foldl_cons, List.foldl_cons]
    apply ih
    have hlen : h.count ≤ MAX_HISTORY := by
      show h.queries.length ≤ MAX_HISTORY
      rw [hinv, List.length_drop]
      omega
    rw [addQuery_eq h q hlen]
    exact history_step h.queries acc q hinv

theorem runQueries_eq (qs : List (List Char)) :
    (runQueries qs).queries =
      (acceptedQueries qs).drop ((acceptedQueries qs).length - MAX_HISTORY) :=
  history_foldl qs SearchHistory.empty [] rfl

/-- C34: for a history holding at most `MAX_HISTORY` entries, `addQuery` changes nothing
when the query equals the most recently stored entry; otherwise it appends the query,
after dropping the oldest entry when the history is full, the remaining entries keeping
their order. After every sequence of `addQuery` calls on a new history the count is at
most 20 and the history holds the last (at most 20) accepted queries in submission
order. -/
theorem addQuery_history :
    (∀ (h : SearchHistory) (q : List Char),
      h.queries.getLast? = some q → h.addQuery q = h) ∧
    (∀ (h : SearchHistory) (q : List Char), h.count < MAX_HISTORY →
      h.queries.getLast? ≠ some q → (h.addQuery q).queries = h.queries ++ [q]) ∧
    (∀ (h : SearchHistory) (q : List Char), h.count = MAX_HISTORY →
      h.queries.getLast? ≠ some q → (h.addQuery q).queries = h.queries.tail ++ [q] ∧
        (h.addQuery q).count = MAX_HISTORY) ∧
    (∀ (h : SearchHistory) (q : List Char), h.count ≤ MAX_HISTORY →
      (h.addQuery q).count ≤ MAX_HISTORY) ∧
    (∀ qs : List (List Char),
      (runQueries qs).count ≤ MAX_HISTORY ∧
      (runQueries qs).queries =
        (acceptedQueries qs).drop ((acceptedQueries qs).length - MAX_HISTORY) ∧
      (acceptedQueries qs).Chain' (fun a b => a ≠ b) ∧
      (acceptedQueries qs).Sublist qs) ∧
    (runQueries ["a".toList, "a".toList, "b".toList, "a".toList]).queries =
      ["a".toList, "b".toList, "a".toList] ∧
    (runQueries ((List.range 25).map (fun n => Nat.toDigits 10 n))).queries =
      ((List.range' 5 20).map (fun n => Nat.toDigits 10 n)) := by
  have h20 : MAX_HISTORY = 20 := rfl
  refine ⟨?_, ?_, ?_, addQuery_count_le, ?_, by decide, by decide⟩
  · intro h q hq
    have hc : h.count > 0 ∧ h.queries.getD (h.count - 1) [] = q :=
      (getD_last_eq h.queries q).mpr hq
    unfold SearchHistory.addQuery
    rw [if_pos hc]
  · intro h q hlt hq
    rw [addQuery_eq h q (by omega), if_neg hq, if_neg (by omega)]
  · intro h q hf hq
    have hq1 : (h.addQuery q).queries = h.queries.tail ++ [q] := by
      rw [addQuery_eq h q (by omega), if_neg hq, if_pos hf, List.drop_one]
    refine ⟨hq1, ?_⟩
    show (h.addQuery q).queries.length = MAX_HISTORY
    have hc : h.queries.length = MAX_HISTORY := hf
    rw [hq1, List.length_append, List.length_tail, List.length_singleton]
    omega
  · intro qs
    have hrun := runQueries_eq qs
    refine ⟨?_, hrun, ?_, ?_⟩
    · show (runQueries qs).queries.length ≤ MAX_HISTORY
      rw [hrun, List.length_drop]
      omega
    · unfold acceptedQueries
      have key : ∀ (l acc : List (List Char)), acc.Chain' (fun a b => a ≠ b) →
          (l.foldl (fun acc q => if acc.getLast? = some q then acc else acc ++ [q])
            acc).Chain' (fun a b => a ≠ b) := by
        intro l
        induction l with
        | nil => exact fun acc h => h
        | cons q rest ih =>
          intro acc hacc
          rw [List.foldl_cons]
          apply ih
          split_ifs with e
          · exact hacc
          · rw [List.chain'_append]
            refine ⟨hacc, List.chain'_singleton q, ?_⟩
            intro x hx y hy
            rw [List.head?_cons, Option.mem_def] at hy
            cases hy
            intro hxy
            apply e
            rw [← hxy]
            exact hx
      exact key qs [] List.chain'_nil
    · unfold acceptedQueries
      have key : ∀ (l acc pre : List (List Char)), acc.Sublist pre →
          (l.foldl (fun acc q => if acc.getLast? = some q then acc else acc ++ [q])
            acc).Sublist (pre ++ l) := by
        intro l
        induction l with
        | nil => intro acc pre h; rw [List.append_nil]; exact h
        | cons q rest ih =>
          intro acc pre hacc
          rw [List.foldl_cons]
          have : pre ++ q :: rest = (pre ++ [q]) ++ rest := by simp
          rw [this]
          apply ih
          split_ifs with e
          · exact hacc.trans (List.sublist_append_left _ _)
          · exact List.Sublist.append hacc (List.Sublist.refl _)
      exact key qs [] [] (List.Sublist.refl _)

/-- C8 (counterexample): on the index of "a.txt" ("cat", "dog") and "b.txt" ("cat"), the
stemmed form "c-at" of the second term of the phrase "dog c-at" is not an indexed term
(`search("c-at")` is false), yet `advancedSearch("dog c-at")` returns true with "a.txt":
its walk skips the hyphen and reads the term as "cat". -/
theorem advancedSearch_nonalpha_term_matches :
    queryWords "dog c-at".toList = ["dog".toList, "c-at".toList] ∧
    stem "c-at".toList = "c-at".toList ∧
    sampleIndex.isIndexed (stem "c-at".toList) = false ∧
    sampleIndex.search "c-at".toList = false ∧
    sampleIndex.advancedSearch "dog c-at".toList = (true, ["a.txt".toList]) ∧
    sampleIndex.advancedSearch "c-at dog".toList = (true, ["a.txt".toList]) := by
  decide

end TrieSearch
